import Mathlib

/-!
# Verification of the PyCNP optimisation core

Shallow embedding of the incremental graph engines (`CNP_Graph`, `DCNP_Graph`),
the local-search strategies (CBNS, CHNS, DLAS) and parts of the population
manager of the PyCNP solver, together with proofs and refutations of the
specification claims about them.

Modelling conventions:
* C++ `Node = int` vertex ids are modelled as `Nat`; the sentinel
  `INVALID_NODE = -1` is modelled by `Option Node` (`none` = invalid).
* C++ `std::unordered_set<Node>` has an unspecified iteration order; we model a
  `NodeSet` as a strictly ascending duplicate-free `List Node`, fixing the
  ascending order as the model's iteration order.
* C++ `int` counters that can go negative are modelled as `Int`.
* Loops whose bound is data dependent are modelled with explicit fuel.
-/

namespace PyCNP

abbrev Node := Nat

abbrev NodeSet := List Node

/-- Ordered insertion into an ascending duplicate-free list
(model of `std::unordered_set::insert`). -/
def nsInsert (v : Node) : NodeSet → NodeSet
  | [] => [v]
  | u :: rest =>
    if v < u then v :: u :: rest
    else if v = u then u :: rest
    else u :: nsInsert v rest

/-- Model of `std::unordered_set::erase`. -/
def nsErase (v : Node) (s : NodeSet) : NodeSet := s.filter (fun u => u ≠ v)

/-- Model of `std::unordered_set::count`/`find` membership test. -/
def nsMem (v : Node) (s : NodeSet) : Bool := s.contains v

/-- Adjacency list: `std::vector<NodeSet>`, indexed by vertex id. -/
abbrev AdjList := List NodeSet

/-- `adj[u]` with the C++ vector read modelled as a defaulted lookup. -/
def adjAt (adj : AdjList) (u : Node) : NodeSet := adj.getD u []

/-! ## DLAS acceptance and history bookkeeping (`DLASStrategy::performMove`)

The move itself (component selection, random node removal, greedy re-add) only
produces a new removed mask and a new objective; the acceptance decision and
the history update that follow it are pure in those values.  We embed that
pure tail of `DLASStrategy::performMove`, parametrised by the move outcome. -/

/-- The DLAS history state threaded through `DLASStrategy::execute`:
`historyCost`, `maxCost` and `numMaxCost`. -/
structure DlasHist where
  historyCost : List Int
  maxCost : Int
  numMaxCost : Int
  deriving Repr, DecidableEq

/-- Result of one DLAS move: the removed mask kept, the objective kept and the
updated history state. -/
structure DlasStep where
  mask : NodeSet
  obj : Int
  hist : DlasHist
  deriving Repr, DecidableEq

/-- Embedding of the acceptance and history-update tail of
`DLASStrategy::performMove` (`DLASStrategy.cpp`): the saved state is
`(prevMask, prevObj)`, the tentative move produced `(movedMask, movedObj)`.
The move is accepted iff `movedObj == prevObj` or `movedObj < maxCost`,
otherwise the saved mask and objective are restored.  Then the slot
`historyCost[numSteps % historyLength]` is overwritten if the kept objective
exceeds it; or, if the kept objective is below the slot and below `prevObj`,
the slot is overwritten and `numMaxCost` is decremented when the value of the
slot *after* the overwrite equals `maxCost` (the C++ reads
`historyCost[historyIndex]` again after the assignment); `maxCost` and
`numMaxCost` are recomputed when `numMaxCost` reaches 0. -/
def dlasMoveUpdate (prevMask : NodeSet) (prevObj : Int)
    (movedMask : NodeSet) (movedObj : Int)
    (hist : DlasHist) (numSteps : Nat) : DlasStep :=
  let historyLength := hist.historyCost.length
  let historyIndex := numSteps % historyLength
  let kept : NodeSet × Int :=
    if movedObj = prevObj ∨ movedObj < hist.maxCost then (movedMask, movedObj)
    else (prevMask, prevObj)
  let obj := kept.2
  let slot := hist.historyCost.getD historyIndex 0
  if slot < obj then
    { mask := kept.1, obj := obj,
      hist := { hist with historyCost := hist.historyCost.set historyIndex obj } }
  else if obj < slot ∧ obj < prevObj then
    let historyCost' := hist.historyCost.set historyIndex obj
    let numMaxCost' :=
      if historyCost'.getD historyIndex 0 = hist.maxCost then hist.numMaxCost - 1
      else hist.numMaxCost
    if numMaxCost' = 0 then
      let maxCost' := historyCost'.foldl max 0
      { mask := kept.1, obj := obj,
        hist := { historyCost := historyCost', maxCost := maxCost',
                  numMaxCost := (historyCost'.filter (fun c => c = maxCost')).length } }
    else
      { mask := kept.1, obj := obj,
        hist := { hist with historyCost := historyCost', numMaxCost := numMaxCost' } }
  else
    { mask := kept.1, obj := obj, hist := hist }

/-- The history update as the specification words it: on the lowering
overwrite, `numMaxCost` is decremented when the slot value that was
*overwritten* (the old value) equalled `maxCost`.  Written to be compared
with `dlasMoveUpdate`. -/
def dlasMoveUpdateSpec (prevMask : NodeSet) (prevObj : Int)
    (movedMask : NodeSet) (movedObj : Int)
    (hist : DlasHist) (numSteps : Nat) : DlasStep :=
  let historyLength := hist.historyCost.length
  let historyIndex := numSteps % historyLength
  let kept : NodeSet × Int :=
    if movedObj = prevObj ∨ movedObj < hist.maxCost then (movedMask, movedObj)
    else (prevMask, prevObj)
  let obj := kept.2
  let slot := hist.historyCost.getD historyIndex 0
  if slot < obj then
    { mask := kept.1, obj := obj,
      hist := { hist with historyCost := hist.historyCost.set historyIndex obj } }
  else if obj < slot ∧ obj < prevObj then
    let historyCost' := hist.historyCost.set historyIndex obj
    let numMaxCost' :=
      if slot = hist.maxCost then hist.numMaxCost - 1
      else hist.numMaxCost
    if numMaxCost' = 0 then
      let maxCost' := historyCost'.foldl max 0
      { mask := kept.1, obj := obj,
        hist := { historyCost := historyCost', maxCost := maxCost',
                  numMaxCost := (historyCost'.filter (fun c => c = maxCost')).length } }
    else
      { mask := kept.1, obj := obj,
        hist := { hist with historyCost := historyCost', numMaxCost := numMaxCost' } }
  else
    { mask := kept.1, obj := obj, hist := hist }

/-- C5 (amended): every DLAS move accepts iff the new objective equals the
previous one or is strictly below `maxCost` (otherwise the saved mask and
objective are restored), and overwrites `history[step mod H]` if the kept
objective exceeds the slot or is below both the slot and the previous
objective; but on a lowering overwrite the value written is strictly below the
old slot value, so whenever `maxCost` bounds every history entry the
post-assignment equality test of `DLASStrategy::performMove` never fires:
`numMaxCost` is never decremented and `maxCost` is never recomputed. -/
theorem c5_dlasMoveUpdate_follows_amended_rule (prevMask : NodeSet)
    (prevObj : Int)
    (movedMask : NodeSet) (movedObj : Int) (hist : DlasHist) (numSteps : Nat)
    (hne : hist.historyCost ≠ [])
    (hmax : ∀ c ∈ hist.historyCost, c ≤ hist.maxCost)
    (hcnt : hist.numMaxCost ≠ 0) :
    (dlasMoveUpdate prevMask prevObj movedMask movedObj hist numSteps).mask
        = (if movedObj = prevObj ∨ movedObj < hist.maxCost then movedMask
           else prevMask)
      ∧ (dlasMoveUpdate prevMask prevObj movedMask movedObj hist numSteps).obj
        = (if movedObj = prevObj ∨ movedObj < hist.maxCost then movedObj
           else prevObj)
      ∧ (dlasMoveUpdate prevMask prevObj movedMask movedObj hist
            numSteps).hist.historyCost
        = (if hist.historyCost.getD (numSteps % hist.historyCost.length) 0
              < (dlasMoveUpdate prevMask prevObj movedMask movedObj hist
                  numSteps).obj
            ∨ ((dlasMoveUpdate prevMask prevObj movedMask movedObj hist
                  numSteps).obj
                < hist.historyCost.getD (numSteps % hist.historyCost.length) 0
              ∧ (dlasMoveUpdate prevMask prevObj movedMask movedObj hist
                  numSteps).obj < prevObj)
           then hist.historyCost.set (numSteps % hist.historyCost.length)
              ((dlasMoveUpdate prevMask prevObj movedMask movedObj hist
                  numSteps).obj)
           else hist.historyCost)
      ∧ (dlasMoveUpdate prevMask prevObj movedMask movedObj hist
            numSteps).hist.maxCost = hist.maxCost
      ∧ (dlasMoveUpdate prevMask prevObj movedMask movedObj hist
            numSteps).hist.numMaxCost = hist.numMaxCost := by
  have hlen : 0 < hist.historyCost.length := List.length_pos.mpr hne
  have hidx : numSteps % hist.historyCost.length < hist.historyCost.length :=
    Nat.mod_lt _ hlen
  have hslot :
      (hist.historyCost[numSteps % hist.historyCost.length]?).getD 0
        ≤ hist.maxCost := by
    rw [List.getElem?_eq_getElem hidx]
    exact hmax _ (List.getElem_mem _)
  by_cases ha : movedObj = prevObj ∨ movedObj < hist.maxCost
  · by_cases h1 :
        (hist.historyCost[numSteps % hist.historyCost.length]?).getD 0
          < movedObj
    · simp [dlasMoveUpdate, ha, h1, le_of_lt h1]
    · by_cases h2 :
          movedObj
              < (hist.historyCost[numSteps % hist.historyCost.length]?).getD 0
            ∧ movedObj < prevObj
      · have hw : ((hist.historyCost.set (numSteps % hist.historyCost.length)
            movedObj)[numSteps % hist.historyCost.length]?).getD 0
              = movedObj := by
          rw [List.getElem?_eq_getElem (by simpa using hidx)]
          simp
        have hne2 : ¬ (((hist.historyCost.set
            (numSteps % hist.historyCost.length)
              movedObj)[numSteps % hist.historyCost.length]?).getD 0
                = hist.maxCost) := by
          rw [hw]
          have := h2.1
          omega
        simp [dlasMoveUpdate, ha, h1, h2, hne2, hcnt]
      · simp [dlasMoveUpdate, ha, h1, h2]
  · by_cases h1 :
        (hist.historyCost[numSteps % hist.historyCost.length]?).getD 0
          < prevObj
    · simp [dlasMoveUpdate, ha, h1, le_of_lt h1]
    · have h2 : ¬ (prevObj
          < (hist.historyCost[numSteps % hist.historyCost.length]?).getD 0
            ∧ prevObj < prevObj) := by
        intro hcontra
        exact lt_irrefl _ hcontra.2
      simp [dlasMoveUpdate, ha, h1, h2]

/-- C5 counterexample: with history `[5,5]`, `maxCost = 5`, `numMaxCost = 2`,
previous objective 5 and an accepted move to objective 3 at step 2, the slot
that gets overwritten holds 5 = `maxCost`, so the claimed rule demands that
`numMaxCost` drop to 1 (as `dlasMoveUpdateSpec`, the transliteration of the
claim, computes) — but the code's update leaves `numMaxCost` at 2 because it
compares the slot only after the overwrite. -/
theorem c5_dlas_counterexample :
    (dlasMoveUpdate [] 5 [0] 3 ⟨[5, 5], 5, 2⟩ 2).hist.historyCost = [3, 5]
      ∧ (dlasMoveUpdate [] 5 [0] 3 ⟨[5, 5], 5, 2⟩ 2).hist.numMaxCost = 2
      ∧ (dlasMoveUpdateSpec [] 5 [0] 3 ⟨[5, 5], 5, 2⟩ 2).hist.numMaxCost = 1 := by
  decide

/-- Witness for the amended C5 theorem at a concrete input. -/
theorem c5_dlas_amended_witness :
    (dlasMoveUpdate [1] 7 [2] 4 ⟨[7, 7, 7], 7, 3⟩ 4).hist.numMaxCost = 3 :=
  (c5_dlasMoveUpdate_follows_amended_rule [1] 7 [2] 4 ⟨[7, 7, 7], 7, 3⟩ 4
    (by decide) (by decide) (by decide)).2.2.2.2.trans rfl

/-! ## Population-initialization sub-seeds (`Population::generateNonDuplicateSolution`)

`Population::generateNonDuplicateSolution` (`Population.cpp`) starts with

```cpp
static int seedCounter = 1000;
int deterministicSeed = seedCounter++;
...
Search ls(*newGraph, deterministicSeed);
```

so the seed handed to the local search comes from a process-wide static
counter, not from the population's own seeded RNG.  We embed that seed
dispatch; the graph work done under the drawn seed is irrelevant to the
determinism question and is not modelled here. -/

/-- Seed dispatch of `Population::generateNonDuplicateSolution`: reads the
process-wide counter (`static int seedCounter = 1000`) as the deterministic
seed and post-increments it. -/
def generateNonDuplicateSeed (seedCounter : Int) : Int × Int :=
  (seedCounter, seedCounter + 1)

/-- Embedding of `SearchUtils::applySeed` (`SearchUtils.h`): the strategy RNG
state is replaced by the Mersenne-Twister stream seeded with `seed` only when
`seed > 0`; we abstract an RNG state as the seed that determines it. -/
def applySeed (seed : Int) (rng : Int) : Int := if 0 < seed then seed else rng

/-- The sub-seeds consumed by `Population::initialize`, which calls
`generateNonDuplicateSolution` once per initial population slot, threading the
process-wide counter.  Returns the seed stream and the final counter. -/
def initializeSeeds : Nat → Int → List Int × Int
  | 0, c => ([], c)
  | n + 1, c =>
      ((generateNonDuplicateSeed c).1
          :: (initializeSeeds n (generateNonDuplicateSeed c).2).1,
        (initializeSeeds n (generateNonDuplicateSeed c).2).2)

/-- The randomized choices of one solve run that population initialization
derives from the process-wide counter: `userSeed` is the seed given to the
solver, `initPopSize` the number of `generateNonDuplicateSolution` calls and
`counter` the value of the static counter when the run starts.  The user seed
is not consulted. -/
def solveRunInitSeeds (userSeed : Int) (initPopSize : Nat) (counter : Int) :
    List Int × Int :=
  initializeSeeds initPopSize counter

theorem initializeSeeds_snd (m : Nat) :
    ∀ c : Int, (initializeSeeds m c).2 = c + m := by
  induction m with
  | zero => intro c; simp [initializeSeeds]
  | succ n ih =>
      intro c
      simp only [initializeSeeds, generateNonDuplicateSeed, ih]
      push_cast
      ring

theorem initializeSeeds_head (m : Nat) (c : Int) (hm : 1 ≤ m) :
    (initializeSeeds m c).1.head? = some c := by
  cases m with
  | zero => omega
  | succ n => simp [initializeSeeds, generateNonDuplicateSeed]

/-- C6 counterexample: two runs of the solve pipeline with identical inputs
(user seed 42, two initialization slots) executed back to back in one process
draw the sub-seed streams `[1000, 1001]` and `[1002, 1003]`: the randomized
choices differ although every input is identical. -/
theorem c6_two_identical_runs_draw_different_seeds :
    (solveRunInitSeeds 42 2 1000).1 = [1000, 1001]
      ∧ (solveRunInitSeeds 42 2 (solveRunInitSeeds 42 2 1000).2).1
          = [1002, 1003]
      ∧ (solveRunInitSeeds 42 2 (solveRunInitSeeds 42 2 1000).2).1
          ≠ (solveRunInitSeeds 42 2 1000).1 := by
  decide

/-- C6 (amended): the sub-seeds driving the local searches of population
initialization are determined by the process-wide counter alone — they are
identical for any two user seeds, the counter advances by the number of calls,
every drawn sub-seed really reseeds the strategy RNG (they are all positive
when the counter is), and a second identical run within the same process draws
a different stream.  Reproducibility therefore holds exactly when the counter
state matches (e.g. for the first solve call of each process), not as a
function of the given seed alone. -/
theorem c6_init_subseeds_counter_determined (userSeed userSeed' : Int)
    (m : Nat) (c : Int) (hm : 1 ≤ m) (hc : 0 < c) :
    (solveRunInitSeeds userSeed m c).1 = (solveRunInitSeeds userSeed' m c).1
      ∧ (solveRunInitSeeds userSeed m c).2 = c + m
      ∧ (∀ s ∈ (solveRunInitSeeds userSeed m c).1,
          ∀ rng : Int, applySeed s rng = s)
      ∧ (solveRunInitSeeds userSeed m
            ((solveRunInitSeeds userSeed m c).2)).1
          ≠ (solveRunInitSeeds userSeed m c).1 := by
  have hpos : ∀ m : Nat, ∀ c : Int, 0 < c →
      ∀ s ∈ (initializeSeeds m c).1, 0 < s := by
    intro m
    induction m with
    | zero => intro c _ s hs; simp [initializeSeeds] at hs
    | succ n ih =>
        intro c hc s hs
        simp only [initializeSeeds, generateNonDuplicateSeed,
          List.mem_cons] at hs
        rcases hs with rfl | hs
        · exact hc
        · exact ih (c + 1) (by omega) s hs
  refine ⟨rfl, initializeSeeds_snd m c, ?_, ?_⟩
  · intro s hs rng
    have := hpos m c hc s hs
    simp [applySeed, this]
  · intro hEq
    have h1 : (initializeSeeds m ((initializeSeeds m c).2)).1.head?
        = some ((initializeSeeds m c).2) := initializeSeeds_head m _ hm
    have h2 : (initializeSeeds m c).1.head? = some c :=
      initializeSeeds_head m c hm
    rw [initializeSeeds_snd m c] at h1
    rw [solveRunInitSeeds, solveRunInitSeeds, initializeSeeds_snd m c] at hEq
    rw [hEq, h2] at h1
    have : c = c + (m : Int) := by exact_mod_cast Option.some.inj h1
    omega

/-- Witness for the amended C6 theorem at a concrete input. -/
theorem c6_init_subseeds_witness :
    (solveRunInitSeeds 7 3 1000).1 = (solveRunInitSeeds 99 3 1000).1 :=
  (c6_init_subseeds_counter_determined 7 99 3 1000 (by decide) (by decide)).1

/-! ## The DCNP engine (`DCNP_Graph`)

State and operations of `DCNP_Graph` (`DCNP_Graph.cpp`).  The flat
`intree_[v*n+u]` bitset is modelled as a list of `n` boolean rows; the BFS
scratch buffers (`bfsVisited_`, `bfsLevel_`, `bfsQueue_`) are modelled as
fresh local structures, which is faithful because every `bfsKTree` call
resets `bfsVisited_` and writes a level before reading it. -/

structure DcnpState where
  numNodes : Nat
  kHops : Int
  originalNodesSet : NodeSet
  nodeAge : List Int
  currentAdjList : AdjList
  originalAdjList : AdjList
  intree : List (List Bool)
  treeSize : List Int
  removedNodes : NodeSet
  numToRemove : Int
  deriving Repr, DecidableEq

/-- The BFS loop of `DCNP_Graph::bfsKTree`: dequeues `cur` from the front,
enqueues its unremoved unvisited neighbours (marking them visited and giving
them level `level[cur] + 1`) while `level[cur] < kHops`, then marks `cur` in
the row and counts it.  `fuel` bounds the number of dequeues; since every
enqueued vertex is distinct (enqueuing marks visited), `numNodes + 1` dequeues
can never be reached with a non-empty queue. -/
def bfsKLoop (kHops : Int) (adj : AdjList) (removed : NodeSet) :
    Nat → List Bool → List Int → List Node → List Bool → Nat →
      List Bool × Nat
  | 0, _, _, _, row, cnt => (row, cnt)
  | _ + 1, _, _, [], row, cnt => (row, cnt)
  | fuel + 1, visited, level, cur :: rest, row, cnt =>
      let lvl := level.getD cur 0
      if lvl < kHops then
        let next := (adjAt adj cur).foldl
          (fun (acc : List Bool × List Int × List Node) nb =>
            if nsMem nb removed || acc.1.getD nb false then acc
            else (acc.1.set nb true, acc.2.1.set nb (lvl + 1),
                  acc.2.2 ++ [nb]))
          (visited, level, rest)
        bfsKLoop kHops adj removed fuel next.1 next.2.1 next.2.2
          (row.set cur true) (cnt + 1)
      else
        bfsKLoop kHops adj removed fuel visited level rest
          (row.set cur true) (cnt + 1)

/-- `DCNP_Graph::bfsKTree`: clears row `v`; if `v` is removed sets
`treeSize[v] = 0`, otherwise runs the depth-bounded BFS from `v` over the
current adjacency, stores the visited indicator as row `v` and sets
`treeSize[v] = visitedCount - 1`. -/
def bfsKTree (st : DcnpState) (v : Node) : DcnpState :=
  if nsMem v st.removedNodes then
    { st with intree := st.intree.set v (List.replicate st.numNodes false),
              treeSize := st.treeSize.set v 0 }
  else
    let visited0 := (List.replicate st.numNodes false).set v true
    let level0 := List.replicate st.numNodes (0 : Int)
    let res := bfsKLoop st.kHops st.currentAdjList st.removedNodes
        (st.numNodes + 1) visited0 level0 [v]
        (List.replicate st.numNodes false) 0
    { st with intree := st.intree.set v res.1,
              treeSize := st.treeSize.set v
                (if 0 < res.2 then (res.2 : Int) - 1 else 0) }

/-- `DCNP_Graph::buildTree`: rebuild every row. -/
def buildTree (st : DcnpState) : DcnpState :=
  (List.range st.numNodes).foldl bfsKTree st

/-- The `DCNP_Graph` constructor. -/
def dcnpBuild (nodes : NodeSet) (K : Int) (adjList : AdjList)
    (numToRemove : Int) : DcnpState :=
  let n := nodes.length
  buildTree
    { numNodes := n, kHops := K, originalNodesSet := nodes,
      nodeAge := List.replicate n 0,
      currentAdjList := adjList, originalAdjList := adjList,
      intree := List.replicate n (List.replicate n false),
      treeSize := List.replicate n 0,
      removedNodes := [], numToRemove := numToRemove }

/-- `DCNP_Graph::updateGraphByRemovedNodes` (set_removed_all): clears the
mask, resets the current adjacency to the original, inserts the given nodes
into the mask and rebuilds every row. -/
def dcnpUpdateGraphByRemovedNodes (st : DcnpState) (nodesToRemove : NodeSet) :
    DcnpState :=
  buildTree
    { st with removedNodes := nodesToRemove.foldl (fun s v => nsInsert v s) [],
              currentAdjList := st.originalAdjList }

/-- `DCNP_Graph::getReducedGraphByRemovedNodes`: clears the mask, decrements
the budget, permanently deletes each given vertex from the original node set
and original adjacency (enumerating its neighbours through the current
adjacency), then resets the current adjacency and rebuilds every row. -/
def dcnpGetReducedGraphByRemovedNodes (st : DcnpState) (removeSet : NodeSet) :
    DcnpState :=
  let st0 := { st with removedNodes := ([] : NodeSet),
                       numToRemove := st.numToRemove - removeSet.length }
  let st1 := removeSet.foldl
    (fun (acc : DcnpState) node =>
      let origMinus := (adjAt acc.currentAdjList node).foldl
        (fun (adj : AdjList) neighbor =>
          adj.set neighbor (nsErase node (adjAt adj neighbor)))
        acc.originalAdjList
      { acc with originalNodesSet := nsErase node acc.originalNodesSet,
                 originalAdjList := origMinus.set node [] })
    st0
  buildTree { st1 with currentAdjList := st1.originalAdjList }

/-- `DCNP_Graph::addNode`: erase `v` from the mask, rebuild row `v`, then
rebuild the row of every vertex present in the fresh row of `v`. -/
def dcnpAddNode (st : DcnpState) (v : Node) : DcnpState :=
  let st1 := bfsKTree { st with removedNodes := nsErase v st.removedNodes } v
  (List.range st1.numNodes).foldl
    (fun acc i =>
      if (st1.intree.getD v []).getD i false then bfsKTree acc i else acc)
    st1

/-- `DCNP_Graph::removeNode`: insert `v` into the mask, then rebuild the row
of every vertex whose row contains `v`. -/
def dcnpRemoveNode (st : DcnpState) (v : Node) : DcnpState :=
  let st1 := { st with removedNodes := nsInsert v st.removedNodes }
  (List.range st1.numNodes).foldl
    (fun acc i =>
      if (st1.intree.getD i []).getD v false then bfsKTree acc i else acc)
    st1

/-- `DCNP_Graph::calculateKhopTreeSize`: half the sum of the tree sizes of the
non-removed vertices (C++ `int` division truncates; the sum is non-negative in
consistent states). -/
def calculateKhopTreeSize (st : DcnpState) : Int :=
  ((List.range st.numNodes).foldl
    (fun sum i =>
      if nsMem i st.removedNodes then sum else sum + st.treeSize.getD i 0)
    0) / 2

/-! ## Random source (`RandomNumberGenerator`)

The Mersenne-Twister engine is abstracted as a predetermined stream of raw
draws with a cursor; `generateIndex(max)` maps the next raw draw into
`[0, max)`.  The C++ throws for `max ≤ 0`; every call site modelled below
guards the call with a positive size, and we return an arbitrary in-range
value (`0`) there so the function stays total. -/

structure Rng where
  stream : Nat → Nat
  pos : Nat

/-- `RandomNumberGenerator::generateIndex`: a value in `[0, max)` drawn from
the stream, advancing the cursor. -/
def Rng.generateIndex (r : Rng) (max : Nat) : Nat × Rng :=
  (if max = 0 then 0 else r.stream r.pos % max, { r with pos := r.pos + 1 })

/-! ## `DCNP_Graph::findBestNodeToRemove` and `findBestNodeToAdd` -/

/-- The candidate-scan loop of `DCNP_Graph::findBestNodeToRemove`: for each
non-removed `i` in order, tentatively remove `i`, measure the improvement of
the objective, update the running best (strictly greater improvement resets
the tie list, equal improvement appends) and re-add `i`.  The accumulator
mirrors the C++ locals `(bestNode, bestList, maxImprovement)` plus the
threaded graph state. -/
def findBestToRemoveScan (currentObjective : Int) :
    List Node → DcnpState → Option Node → List Node → Int →
      DcnpState × Option Node × List Node × Int
  | [], s, bestNode, bestList, maxImp => (s, bestNode, bestList, maxImp)
  | i :: rest, s, bestNode, bestList, maxImp =>
      if nsMem i s.removedNodes then
        findBestToRemoveScan currentObjective rest s bestNode bestList maxImp
      else
        let s1 := dcnpRemoveNode s i
        let improvement := currentObjective - calculateKhopTreeSize s1
        if maxImp < improvement then
          findBestToRemoveScan currentObjective rest (dcnpAddNode s1 i)
            (some i) [i] improvement
        else if improvement = maxImp then
          findBestToRemoveScan currentObjective rest (dcnpAddNode s1 i)
            bestNode (bestList ++ [i]) maxImp
        else
          findBestToRemoveScan currentObjective rest (dcnpAddNode s1 i)
            bestNode bestList maxImp

/-- `DCNP_Graph::findBestNodeToRemove`: scan all vertices with
`maxImprovement` starting at 0 and `bestNode = INVALID_NODE`; afterwards, when
the tie list has more than one entry, replace `bestNode` by an RNG-chosen
entry of the tie list. -/
def findBestNodeToRemove (st : DcnpState) (rng : Rng) :
    Option Node × DcnpState × Rng :=
  let currentObjective := calculateKhopTreeSize st
  let scan := findBestToRemoveScan currentObjective
    (List.range st.numNodes) st none [] 0
  let bestList := scan.2.2.1
  if 1 < bestList.length then
    let draw := rng.generateIndex bestList.length
    (some (bestList.getD draw.1 0), scan.1, draw.2)
  else
    (scan.2.1, scan.1, rng)

/-- The candidate-scan loop of `DCNP_Graph::findBestNodeToAdd`: for each
vertex of the removed set (in iteration order), tentatively add it, measure
the deterioration of the objective, track the minimum (strictly smaller
resets the tie list, equal appends) and remove it again.  `minDeterioration`
starts at `INT_MAX`, modelled as `none` (no candidate seen yet). -/
def findBestToAddScan (currentObjective : Int) :
    List Node → DcnpState → Option Node → List Node → Option Int →
      DcnpState × Option Node × List Node × Option Int
  | [], s, bestNode, bestList, minDet => (s, bestNode, bestList, minDet)
  | node :: rest, s, bestNode, bestList, minDet =>
      let s1 := dcnpAddNode s node
      let deterioration := calculateKhopTreeSize s1 - currentObjective
      match minDet with
      | none =>
          findBestToAddScan currentObjective rest (dcnpRemoveNode s1 node)
            (some node) [node] (some deterioration)
      | some m =>
          if deterioration < m then
            findBestToAddScan currentObjective rest (dcnpRemoveNode s1 node)
              (some node) [node] (some deterioration)
          else if deterioration = m then
            findBestToAddScan currentObjective rest (dcnpRemoveNode s1 node)
              bestNode (bestList ++ [node]) (some m)
          else
            findBestToAddScan currentObjective rest (dcnpRemoveNode s1 node)
              bestNode bestList (some m)

/-- `DCNP_Graph::findBestNodeToAdd`: scan the removed set; when the tie list
has more than one entry the result is an RNG-chosen entry.  Returns
`INVALID_NODE` (`none`) when the removed set is empty. -/
def findBestNodeToAdd (st : DcnpState) (rng : Rng) :
    Option Node × DcnpState × Rng :=
  let currentObjective := calculateKhopTreeSize st
  let scan := findBestToAddScan currentObjective
    st.removedNodes st none [] none
  let bestList := scan.2.2.1
  if 1 < bestList.length then
    let draw := rng.generateIndex bestList.length
    (some (bestList.getD draw.1 0), scan.1, draw.2)
  else
    (scan.2.1, scan.1, rng)

/-! ### Decomposition of the remove scan

The scan interleaves graph mutation (tentative remove / re-add) with the pure
best-candidate bookkeeping; the bookkeeping never influences the mutation, so
the scan factors into the list of examined `(vertex, improvement)` pairs and a
pure selection fold over it. -/

/-- The `(vertex, improvement)` pairs examined by
`DCNP_Graph::findBestNodeToRemove`, in scan order, with the graph state
threaded exactly as the scan threads it. -/
def tentativeRemoveImprovements (currentObjective : Int) :
    List Node → DcnpState → List (Node × Int)
  | [], _ => []
  | i :: rest, s =>
      if nsMem i s.removedNodes then
        tentativeRemoveImprovements currentObjective rest s
      else
        let s1 := dcnpRemoveNode s i
        (i, currentObjective - calculateKhopTreeSize s1)
          :: tentativeRemoveImprovements currentObjective rest (dcnpAddNode s1 i)

/-- The pure best-candidate bookkeeping of the scan. -/
def selectBestScan :
    List (Node × Int) → Option Node → List Node → Int →
      Option Node × List Node × Int
  | [], bestNode, bestList, maxImp => (bestNode, bestList, maxImp)
  | p :: rest, bestNode, bestList, maxImp =>
      if maxImp < p.2 then selectBestScan rest (some p.1) [p.1] p.2
      else if p.2 = maxImp then
        selectBestScan rest bestNode (bestList ++ [p.1]) maxImp
      else selectBestScan rest bestNode bestList maxImp

theorem findBestToRemoveScan_eq_selectBestScan (cur : Int) (nodes : List Node) :
    ∀ (s : DcnpState) (bn : Option Node) (bl : List Node) (mi : Int),
      (findBestToRemoveScan cur nodes s bn bl mi).2
        = selectBestScan (tentativeRemoveImprovements cur nodes s) bn bl mi := by
  induction nodes with
  | nil => intro s bn bl mi; rfl
  | cons i rest ih =>
      intro s bn bl mi
      by_cases hrem : nsMem i s.removedNodes
      · simp only [findBestToRemoveScan, tentativeRemoveImprovements, hrem,
          if_true]
        exact ih s bn bl mi
      · simp only [findBestToRemoveScan, tentativeRemoveImprovements, hrem,
          Bool.false_eq_true, if_false, selectBestScan]
        split_ifs <;> exact ih _ _ _ _

/-- The running maximum computed by the selection fold. -/
theorem selectBestScan_maxImp (l : List (Node × Int)) :
    ∀ (bn : Option Node) (bl : List Node) (mi : Int),
      (selectBestScan l bn bl mi).2.2
        = l.foldl (fun m p => max m p.2) mi := by
  induction l with
  | nil => intro bn bl mi; rfl
  | cons p rest ih =>
      intro bn bl mi
      simp only [selectBestScan, List.foldl_cons]
      split_ifs with h1 h2
      · rw [ih, max_eq_right (le_of_lt h1)]
      · rw [ih, h2, max_self]
      · rw [ih, max_eq_left (le_of_lt (by omega))]

theorem foldl_max_le_init (l : List (Node × Int)) :
    ∀ mi : Int, mi ≤ l.foldl (fun m p => max m p.2) mi := by
  induction l with
  | nil => intro mi; exact le_refl _
  | cons p rest ih =>
      intro mi
      exact le_trans (le_max_left _ _) (ih (max mi p.2))

/-- When the running maximum never increases, the best node is untouched. -/
theorem selectBestScan_bestNode_of_stable (l : List (Node × Int)) :
    ∀ (bn : Option Node) (bl : List Node) (mi : Int),
      l.foldl (fun m p => max m p.2) mi = mi →
        (selectBestScan l bn bl mi).1 = bn := by
  induction l with
  | nil => intro bn bl mi _; rfl
  | cons p rest ih =>
      intro bn bl mi hstable
      rw [List.foldl_cons] at hstable
      have hmaxle : max mi p.2 ≤ mi := by
        have h := foldl_max_le_init rest (max mi p.2)
        rw [hstable] at h
        exact h
      have hple : p.2 ≤ mi := le_trans (le_max_right _ _) hmaxle
      have hmx : max mi p.2 = mi := max_eq_left hple
      rw [hmx] at hstable
      simp only [selectBestScan]
      rw [if_neg (not_lt.mpr hple)]
      by_cases h2 : p.2 = mi
      · rw [if_pos h2]
        exact ih _ _ _ hstable
      · rw [if_neg h2]
        exact ih _ _ _ hstable

/-- Either the running maximum never increased (best node untouched), or the
final best node attains the final maximum. -/
theorem selectBestScan_bestNode (l : List (Node × Int)) :
    ∀ (bn : Option Node) (bl : List Node) (mi : Int),
      ((selectBestScan l bn bl mi).1 = bn
          ∧ l.foldl (fun m p => max m p.2) mi = mi)
        ∨ ∃ j, (selectBestScan l bn bl mi).1 = some j
            ∧ (j, l.foldl (fun m p => max m p.2) mi) ∈ l := by
  induction l with
  | nil => intro bn bl mi; exact Or.inl ⟨rfl, rfl⟩
  | cons p rest ih =>
      intro bn bl mi
      simp only [selectBestScan, List.foldl_cons]
      split_ifs with h1 h2
      · rw [max_eq_right (le_of_lt h1)]
        rcases ih (some p.1) [p.1] p.2 with ⟨heq, hstable⟩ | ⟨j, hj, hmem⟩
        · refine Or.inr ⟨p.1, heq, ?_⟩
          rw [hstable]
          exact List.mem_cons_self _ _
        · exact Or.inr ⟨j, hj, List.mem_cons_of_mem _ hmem⟩
      · rw [max_eq_left (not_lt.mp h1)]
        rcases ih bn (bl ++ [p.1]) mi with ⟨heq, hst⟩ | ⟨j, hj, hmem⟩
        · exact Or.inl ⟨heq, hst⟩
        · exact Or.inr ⟨j, hj, List.mem_cons_of_mem _ hmem⟩
      · rw [max_eq_left (not_lt.mp h1)]
        rcases ih bn bl mi with ⟨heq, hst⟩ | ⟨j, hj, hmem⟩
        · exact Or.inl ⟨heq, hst⟩
        · exact Or.inr ⟨j, hj, List.mem_cons_of_mem _ hmem⟩

/-- The final tie list collects exactly the scanned pairs attaining the final
maximum (prefixed by the inherited list when the maximum never increased). -/
theorem selectBestScan_bestList (l : List (Node × Int)) :
    ∀ (bn : Option Node) (bl : List Node) (mi : Int),
      (selectBestScan l bn bl mi).2.1
        = (if l.foldl (fun m p => max m p.2) mi = mi then bl else [])
            ++ (l.filter
                (fun p => p.2 = l.foldl (fun m q => max m q.2) mi)).map
              Prod.fst := by
  induction l with
  | nil =>
      intro bn bl mi
      simp [selectBestScan]
  | cons p rest ih =>
      intro bn bl mi
      simp only [selectBestScan, List.foldl_cons]
      by_cases h1 : mi < p.2
      · simp only [if_pos h1, max_eq_right (le_of_lt h1)]
        rw [ih (some p.1) [p.1] p.2]
        have hge : p.2 ≤ rest.foldl (fun m q => max m q.2) p.2 :=
          foldl_max_le_init rest p.2
        have hne : ¬ rest.foldl (fun m q => max m q.2) p.2 = mi := by omega
        simp only [if_neg hne, List.filter_cons]
        by_cases hp : p.2 = rest.foldl (fun m q => max m q.2) p.2
        · simp [← hp]
        · simp [hp]
          intro h
          exact absurd h.symm hp
      · simp only [if_neg h1, max_eq_left (not_lt.mp h1)]
        by_cases h2 : p.2 = mi
        · simp only [if_pos h2]
          rw [ih bn (bl ++ [p.1]) mi]
          have hge : mi ≤ rest.foldl (fun m q => max m q.2) mi :=
            foldl_max_le_init rest mi
          by_cases hst : rest.foldl (fun m q => max m q.2) mi = mi
          · have hph : p.2 = rest.foldl (fun m q => max m q.2) mi := by
              rw [h2, hst]
            simp [hst, hph, List.filter_cons, List.append_assoc]
          · have hph : ¬ p.2 = rest.foldl (fun m q => max m q.2) mi := by
              omega
            simp [hst, hph, List.filter_cons]
        · simp only [if_neg h2]
          rw [ih bn bl mi]
          have hge : mi ≤ rest.foldl (fun m q => max m q.2) mi :=
            foldl_max_le_init rest mi
          have hph : ¬ p.2 = rest.foldl (fun m q => max m q.2) mi := by omega
          simp [List.filter_cons, hph]

/-- The `(vertex, improvement)` pairs examined by a full
`findBestNodeToRemove` scan. -/
def removeScanPairs (st : DcnpState) : List (Node × Int) :=
  tentativeRemoveImprovements (calculateKhopTreeSize st)
    (List.range st.numNodes) st

/-- The maximum improvement over the scan, floored at the initial
`maxImprovement = 0`. -/
def removeScanMaxImprovement (st : DcnpState) : Int :=
  (removeScanPairs st).foldl (fun m p => max m p.2) 0

/-- The vertices attaining the maximum improvement, in scan order. -/
def removeScanTies (st : DcnpState) : List Node :=
  ((removeScanPairs st).filter
    (fun p => p.2 = removeScanMaxImprovement st)).map Prod.fst

theorem mem_removeScanPairs_of_mem_ties {st : DcnpState} {j : Node}
    (hj : j ∈ removeScanTies st) :
    (j, removeScanMaxImprovement st) ∈ removeScanPairs st := by
  rcases List.mem_map.mp hj with ⟨p, hpfilter, hpfst⟩
  have hmem := List.mem_of_mem_filter hpfilter
  have hsnd := List.of_mem_filter hpfilter
  have : p = (j, removeScanMaxImprovement st) := by
    rcases p with ⟨a, b⟩
    simp only at hpfst
    simp only [decide_eq_true_eq] at hsnd
    rw [hpfst] at *
    simp [hsnd]
  rw [← this]
  exact hmem

theorem foldl_max_eq_init_iff (l : List (Node × Int)) :
    ∀ mi : Int, l.foldl (fun m p => max m p.2) mi = mi ↔ ∀ p ∈ l, p.2 ≤ mi := by
  induction l with
  | nil => intro mi; simp
  | cons p rest ih =>
      intro mi
      rw [List.foldl_cons]
      constructor
      · intro h
        have hini := foldl_max_le_init rest (max mi p.2)
        rw [h] at hini
        have hple : p.2 ≤ mi := le_trans (le_max_right _ _) hini
        have hmx : max mi p.2 = mi := max_eq_left hple
        rw [hmx] at h
        intro q hq
        rcases List.mem_cons.mp hq with rfl | hq'
        · exact hple
        · exact (ih mi).mp h q hq'
      · intro h
        have hple : p.2 ≤ mi := h p (List.mem_cons_self _ _)
        rw [max_eq_left hple]
        exact (ih mi).mpr (fun q hq => h q (List.mem_cons_of_mem _ hq))

/-- C2 (amended): `DCNP_Graph::findBestNodeToRemove` returns the INVALID
sentinel iff no tentative single-node removal yields a strictly positive
improvement AND at most one scanned vertex ties at the floor improvement 0;
whenever a node is returned it attains the maximum improvement of the scan
(floored at 0) — in particular, with no positive improvement but two or more
zero-improvement candidates the function returns one of those candidates
instead of INVALID. -/
theorem c2_findBestNodeToRemove_characterisation (st : DcnpState) (rng : Rng) :
    ((findBestNodeToRemove st rng).1 = none
        ↔ (∀ p ∈ removeScanPairs st, p.2 ≤ 0)
            ∧ (removeScanTies st).length ≤ 1)
      ∧ (∀ j, (findBestNodeToRemove st rng).1 = some j
          → (j, removeScanMaxImprovement st) ∈ removeScanPairs st) := by
  have hscan :
      (findBestToRemoveScan (calculateKhopTreeSize st)
          (List.range st.numNodes) st none [] 0).2
        = selectBestScan (removeScanPairs st) none [] 0 :=
    findBestToRemoveScan_eq_selectBestScan _ _ _ _ _ _
  have hlist :
      (selectBestScan (removeScanPairs st) none [] 0).2.1
        = removeScanTies st := by
    rw [selectBestScan_bestList]
    split_ifs <;>
      simp [removeScanTies, removeScanMaxImprovement]
  have hzero :
      removeScanMaxImprovement st = 0
        ↔ ∀ p ∈ removeScanPairs st, p.2 ≤ 0 :=
    foldl_max_eq_init_iff (removeScanPairs st) 0
  have hresult :
      findBestNodeToRemove st rng
        = if 1 < (removeScanTies st).length then
            ((removeScanTies st).getD
              (rng.generateIndex (removeScanTies st).length).1 0
                |> some,
              (findBestToRemoveScan (calculateKhopTreeSize st)
                (List.range st.numNodes) st none [] 0).1,
              (rng.generateIndex (removeScanTies st).length).2)
          else
            ((selectBestScan (removeScanPairs st) none [] 0).1,
              (findBestToRemoveScan (calculateKhopTreeSize st)
                (List.range st.numNodes) st none [] 0).1,
              rng) := by
    simp only [findBestNodeToRemove]
    rw [show (findBestToRemoveScan (calculateKhopTreeSize st)
        (List.range st.numNodes) st none [] 0).2.2.1
          = removeScanTies st by rw [hscan, hlist]]
    rw [show (findBestToRemoveScan (calculateKhopTreeSize st)
        (List.range st.numNodes) st none [] 0).2.1
          = (selectBestScan (removeScanPairs st) none [] 0).1 by rw [hscan]]
  by_cases hlen : 1 < (removeScanTies st).length
  · rw [hresult, if_pos hlen]
    constructor
    · simp only []
      constructor
      · intro h
        exact absurd h (by simp)
      · intro ⟨_, hle⟩
        omega
    · intro j hj
      simp only [] at hj
      have hmemtie : (removeScanTies st).getD
          (rng.generateIndex (removeScanTies st).length).1 0
            ∈ removeScanTies st := by
        have hidx : (rng.generateIndex (removeScanTies st).length).1
            < (removeScanTies st).length := by
          simp only [Rng.generateIndex]
          have hpos : (removeScanTies st).length ≠ 0 := by omega
          simp only [hpos, if_false]
          exact Nat.mod_lt _ (Nat.pos_of_ne_zero hpos)
        rw [List.getD_eq_getElem _ _ hidx]
        exact List.getElem_mem _
      have : j ∈ removeScanTies st := by
        have hj' := Option.some.inj hj
        rw [← hj']
        exact hmemtie
      exact mem_removeScanPairs_of_mem_ties this
  · rw [hresult, if_neg hlen]
    simp only []
    rcases selectBestScan_bestNode (removeScanPairs st) none [] 0 with
      ⟨heq, hstable⟩ | ⟨j, hj, hmem⟩
    · constructor
      · rw [heq]
        constructor
        · intro _
          exact ⟨hzero.mp hstable, by omega⟩
        · intro _
          rfl
      · intro j hj
        rw [heq] at hj
        exact absurd hj (by simp)
    · constructor
      · rw [hj]
        constructor
        · intro h
          exact absurd h (by simp)
        · intro ⟨hle, _⟩
          have hst : removeScanMaxImprovement st = 0 := hzero.mpr hle
          have := selectBestScan_bestNode_of_stable (removeScanPairs st)
            none [] 0 hst
          rw [this] at hj
          exact absurd hj (by simp)
      · intro j' hj'
        rw [hj] at hj'
        have : j = j' := Option.some.inj hj'
        rw [← this]
        exact hmem

/-- A DCNP engine on two isolated vertices with K = 1 and budget 1, as built
by the constructor: no removal changes the objective. -/
def dcnpTwoIsolated : DcnpState := dcnpBuild [0, 1] 1 [[], []] 1

/-- C2 counterexample: on two isolated vertices no tentative removal yields a
strictly positive improvement (both improvements are 0), yet
`findBestNodeToRemove` returns node 0 — not the INVALID sentinel — because
both zero-improvement vertices enter the tie list and the final tie-break
overwrites `bestNode`. -/
theorem c2_counterexample :
    removeScanPairs dcnpTwoIsolated = [(0, 0), (1, 0)]
      ∧ (findBestNodeToRemove dcnpTwoIsolated ⟨fun _ => 0, 0⟩).1 = some 0 :=
  ⟨rfl, rfl⟩

/-- Witness for the amended C2 theorem at a concrete input: node 0 attains the
maximum improvement of the scan on the two-isolated-vertices engine. -/
theorem c2_witness :
    ((0 : Node), (0 : Int)) ∈ removeScanPairs dcnpTwoIsolated :=
  (c2_findBestNodeToRemove_characterisation dcnpTwoIsolated
    ⟨fun _ => 0, 0⟩).2 0 rfl

/-! ## The CNP engine (`CNP_Graph`)

State and operations of `CNP_Graph` (`CNP_Graph.cpp`).  `Component.size` is a
C++ `size_t`, modelled as `Nat` (they differ only on underflow, which occurs
only in states the engine never reaches through its documented contracts);
`nodeToComponentIndex` entries use `Option Nat` for the `-1` sentinel;
`connectedPairs` is a C++ `int`, modelled as `Int`.  The DFS epoch machinery
(`dfsVisitEpoch_`/`dfsCurrentEpoch_`) only re-zeroes the visited marks between
calls, so it is modelled as a fresh visited array per call. -/

structure Component where
  size : Nat
  nodes : List Node
  deriving Repr, DecidableEq

structure CnpState where
  numNodes : Nat
  originalNodesSet : NodeSet
  nodeAge : List Int
  currentAdjList : AdjList
  originalAdjList : AdjList
  numToRemove : Int
  nodeToComponentIndex : List (Option Nat)
  connectedComponents : List Component
  connectedPairs : Int
  removedNodes : NodeSet
  deriving Repr, DecidableEq

/-- Insert the undirected edge `(u, v)` into the current adjacency
(`currentAdjList_[u].insert(v); currentAdjList_[v].insert(u);`). -/
def adjInsertEdge (adj : AdjList) (u v : Node) : AdjList :=
  let a1 := adj.set u (nsInsert v (adjAt adj u))
  a1.set v (nsInsert u (adjAt a1 v))

/-- The loop of `CNP_Graph::dfsFindComponent`: pop the top of the stack, skip
it when already visited or removed, otherwise mark it, append it to the
component and push its unvisited unremoved neighbours (the last neighbour
pushed is popped first, as with `push_back`/`pop_back`).  `fuel` bounds the
number of pops. -/
def dfsLoop (adj : AdjList) (removed : NodeSet) :
    Nat → List Node → List Bool → List Node → List Node
  | 0, _, _, acc => acc
  | _ + 1, [], _, acc => acc
  | fuel + 1, node :: stackRest, visited, acc =>
      if visited.getD node false || nsMem node removed then
        dfsLoop adj removed fuel stackRest visited acc
      else
        let visited' := visited.set node true
        let pushes := (adjAt adj node).filter
          (fun nb => !(visited'.getD nb false || nsMem nb removed))
        dfsLoop adj removed fuel (pushes.reverse ++ stackRest) visited'
          (acc ++ [node])

/-- `CNP_Graph::dfsFindComponent`: iterative DFS from `startNode` over the
current adjacency, skipping removed vertices.  The fuel bound
`n*n + n + 1` dominates the number of pops (at most `1 + Σ deg ≤ 1 + n²`
pushes ever happen). -/
def dfsFindComponent (st : CnpState) (startNode : Node) : Component :=
  let nodes := dfsLoop st.currentAdjList st.removedNodes
    (st.numNodes * st.numNodes + st.numNodes + 1) [startNode]
    (List.replicate st.numNodes false) []
  { size := nodes.length, nodes := nodes }

/-- `CNP_Graph::initializeComponentsAndMapping`: reset the mapping, the
component list and the pair count, then iterate the node set; each unvisited
non-removed node seeds a DFS, the found component is appended, its members are
mapped to its index and its pair count added. -/
def initializeComponentsAndMapping (st : CnpState) : CnpState :=
  let base := { st with
    nodeToComponentIndex := List.replicate st.numNodes (none : Option Nat),
    connectedComponents := ([] : List Component),
    connectedPairs := (0 : Int) }
  (st.originalNodesSet.foldl
    (fun (acc : CnpState × List Bool) node =>
      if !(acc.2.getD node false) && !(nsMem node acc.1.removedNodes) then
        let component := dfsFindComponent acc.1 node
        if component.nodes.isEmpty then acc
        else
          let idx := acc.1.connectedComponents.length
          ({ acc.1 with
              connectedComponents := acc.1.connectedComponents ++ [component],
              nodeToComponentIndex := component.nodes.foldl
                (fun m cn => m.set cn (some idx)) acc.1.nodeToComponentIndex,
              connectedPairs := acc.1.connectedPairs
                + ((component.size : Int) * ((component.size : Int) - 1)) / 2 },
            component.nodes.foldl (fun cv cn => cv.set cn true) acc.2)
      else acc)
    (base, List.replicate st.numNodes false)).1

/-- The `CNP_Graph` constructor.  Note that, unlike the DCNP constructor
(which calls `buildTree`), it does **not** call
`initializeComponentsAndMapping`: the component list stays empty, the mapping
stays all `-1` and `connectedPairs_` is left uninitialised (an indeterminate
C++ `int`; the model picks 0 as one admissible value). -/
def cnpBuild (nodes : NodeSet) (adjList : AdjList) (budget : Int) : CnpState :=
  let n := nodes.length
  { numNodes := n, originalNodesSet := nodes,
    nodeAge := List.replicate n 0,
    currentAdjList := adjList, originalAdjList := adjList,
    numToRemove := budget,
    nodeToComponentIndex := List.replicate n none,
    connectedComponents := [],
    connectedPairs := 0,
    removedNodes := [] }

/-- `CNP_Graph::updateGraphByRemovedNodes` (set_removed_all): reset the mask
and the current adjacency, insert the given nodes into the mask, elide their
incident edges and rebuild the components from scratch. -/
def cnpUpdateGraphByRemovedNodes (st : CnpState) (nodesToRemove : NodeSet) :
    CnpState :=
  let removed := nodesToRemove.foldl (fun s v => nsInsert v s) []
  let adj := nodesToRemove.foldl
    (fun (a : AdjList) node =>
      ((adjAt st.originalAdjList node).foldl
        (fun (a' : AdjList) neighbor =>
          a'.set neighbor (nsErase node (adjAt a' neighbor)))
        a).set node [])
    st.originalAdjList
  initializeComponentsAndMapping
    { st with removedNodes := removed, currentAdjList := adj }

/-- `CNP_Graph::addNode`.  Erase `v` from the mask; restore the edges to every
neighbour that is assigned to a component, remembering the first such
neighbour's component as the host; then
* no assigned neighbour: push a fresh singleton component;
* otherwise append `v` to the host (size++), DFS from `v`; when the DFS piece
  is strictly bigger than the host the touched components are merged (host
  size is first decremented back, the touched indices are collected into an
  ordered set, every assigned vertex's index is remapped by the shift map,
  the touched components are erased in descending order with their pair
  counts subtracted, the merged piece is pushed and its pair count added and
  its members mapped to the last index); when the DFS piece equals the host
  size, `connectedPairs` grows by `size - 1`; a smaller piece leaves
  everything as after the append. -/
def cnpAddNode (st : CnpState) (nodeToAdd : Node) : CnpState :=
  let st0 := { st with removedNodes := nsErase nodeToAdd st.removedNodes }
  let step := (adjAt st0.originalAdjList nodeToAdd).foldl
    (fun (acc : CnpState × Option Nat) neighbor =>
      match acc.1.nodeToComponentIndex.getD neighbor none with
      | some cIdx =>
          ({ acc.1 with currentAdjList :=
              adjInsertEdge acc.1.currentAdjList nodeToAdd neighbor },
            if acc.2 = none then some cIdx else acc.2)
      | none => acc)
    (st0, none)
  let s1 := step.1
  match step.2 with
  | some componentIndex =>
      let host := s1.connectedComponents.getD componentIndex ⟨0, []⟩
      let host' : Component :=
        { size := host.size + 1, nodes := host.nodes ++ [nodeToAdd] }
      let s2 := { s1 with
        connectedComponents :=
          s1.connectedComponents.set componentIndex host',
        nodeToComponentIndex :=
          s1.nodeToComponentIndex.set nodeToAdd (some componentIndex) }
      let newComponent := dfsFindComponent s2 nodeToAdd
      if host'.size < newComponent.size then
        let hostShrunk : Component := { host' with size := host'.size - 1 }
        let s3 := { s2 with connectedComponents :=
          s2.connectedComponents.set componentIndex hostShrunk }
        let mergeIdxs := newComponent.nodes.foldl
          (fun (m : List Nat) node =>
            match s3.nodeToComponentIndex.getD node none with
            | some ci => nsInsert ci m
            | none => m) []
        let indexMapping := fun (old : Nat) =>
          old - (mergeIdxs.filter (fun idx => idx < old)).length
        let s4 := { s3 with nodeToComponentIndex :=
          (s3.originalNodesSet.foldl
            (fun m node =>
              match m.getD node none with
              | some ci => m.set node (some (indexMapping ci))
              | none => m)
            s3.nodeToComponentIndex) }
        let merged := mergeIdxs.reverse.foldl
          (fun (pc : Int × List Component) idx =>
            let c := pc.2.getD idx ⟨0, []⟩
            (pc.1 - ((c.size : Int) * ((c.size : Int) - 1)) / 2,
              pc.2.eraseIdx idx))
          (s4.connectedPairs, s4.connectedComponents)
        let s5 := { s4 with connectedPairs := merged.1,
                            connectedComponents := merged.2 }
        let s6 := { s5 with
          connectedComponents := s5.connectedComponents ++ [newComponent],
          connectedPairs := s5.connectedPairs
            + ((newComponent.size : Int) * ((newComponent.size : Int) - 1))
              / 2 }
        { s6 with nodeToComponentIndex := (newComponent.nodes.foldl
            (fun m node =>
              m.set node (some (s6.connectedComponents.length - 1)))
            s6.nodeToComponentIndex) }
      else if newComponent.size = host'.size then
        { s2 with connectedPairs :=
            s2.connectedPairs + ((host'.size : Int) - 1) }
      else s2
  | none =>
      let newComponent : Component := { size := 1, nodes := [nodeToAdd] }
      { s1 with
        connectedComponents := s1.connectedComponents ++ [newComponent],
        nodeToComponentIndex := s1.nodeToComponentIndex.set nodeToAdd
          (some s1.connectedComponents.length) }

/-- `CNP_Graph::removeNode`.  Reads `nodeToComponentIndex[v]` unguarded; for a
removed vertex it is `-1` and the C++ indexes `connectedComponents_[-1]`
(undefined behaviour), modelled as returning the state unchanged.  Otherwise:
mark `v` removed and unmapped, elide its incident edges; a singleton component
is dropped with the higher indices shifted down and no pair delta; otherwise
`v` is erased from its component (size--), a DFS from the first other member
finds the surviving piece; if the piece is smaller than the shrunk component
the component is replaced (with pair bookkeeping `-= size*(size+1)/2`,
`+= new*(new-1)/2`) and the uncovered members seed further DFS pieces pushed
at the end; if the piece covers the shrunk component, `connectedPairs`
decreases by the piece's size. -/
def cnpRemoveNode (st : CnpState) (nodeToRemove : Node) : CnpState :=
  match st.nodeToComponentIndex.getD nodeToRemove none with
  | none => st
  | some componentIndex =>
    let originalComponent := st.connectedComponents.getD componentIndex ⟨0, []⟩
    let s1 := { st with
      removedNodes := nsInsert nodeToRemove st.removedNodes,
      nodeToComponentIndex :=
        st.nodeToComponentIndex.set nodeToRemove none }
    let s2 := { s1 with currentAdjList :=
        ((adjAt s1.currentAdjList nodeToRemove).foldl
          (fun (a : AdjList) neighbor =>
            a.set neighbor (nsErase nodeToRemove (adjAt a neighbor)))
          s1.currentAdjList).set nodeToRemove [] }
    if originalComponent.size = 1 then
      let m' := ((List.range s2.connectedComponents.length).drop
          (componentIndex + 1)).foldl
        (fun (m : List (Option Nat)) i =>
          (s2.connectedComponents.getD i ⟨0, []⟩).nodes.foldl
            (fun mm node =>
              match mm.getD node none with
              | some k => mm.set node (some (k - 1))
              | none => mm)
            m)
        s2.nodeToComponentIndex
      { s2 with
        nodeToComponentIndex := m',
        connectedComponents :=
          s2.connectedComponents.eraseIdx componentIndex }
    else if 1 < originalComponent.size then
      let comp' : Component :=
        { size := originalComponent.size - 1,
          nodes := originalComponent.nodes.filter
            (fun x => x ≠ nodeToRemove) }
      let s3 := { s2 with connectedComponents :=
        s2.connectedComponents.set componentIndex comp' }
      match (originalComponent.nodes.filter
          (fun x => x ≠ nodeToRemove)).head? with
      | none => s3
      | some startNode =>
        let newComponent := dfsFindComponent s3 startNode
        if newComponent.size < comp'.size then
          let s5 := { s3 with
            connectedComponents :=
              s3.connectedComponents.set componentIndex newComponent,
            connectedPairs := s3.connectedPairs
              - ((comp'.size : Int) * ((comp'.size : Int) + 1)) / 2
              + ((newComponent.size : Int)
                  * ((newComponent.size : Int) - 1)) / 2 }
          let s6 := { s5 with nodeToComponentIndex :=
            (newComponent.nodes.foldl
              (fun m n => m.set n (some componentIndex))
              s5.nodeToComponentIndex) }
          let visited0 := newComponent.nodes.foldl
            (fun vb n => vb.set n true)
            (List.replicate st.numNodes false)
          let split := originalComponent.nodes.foldl
            (fun (acc : List Component × Int × List (Option Nat) × List Bool)
                node =>
              if acc.2.2.2.getD node false || node = nodeToRemove then acc
              else
                let splitComponent := dfsFindComponent s6 node
                let newIndex := acc.1.length
                (acc.1 ++ [splitComponent],
                  acc.2.1 + ((splitComponent.size : Int)
                    * ((splitComponent.size : Int) - 1)) / 2,
                  splitComponent.nodes.foldl
                    (fun m n => m.set n (some newIndex)) acc.2.2.1,
                  splitComponent.nodes.foldl (fun vb n => vb.set n true)
                    acc.2.2.2))
            (s6.connectedComponents, s6.connectedPairs,
              s6.nodeToComponentIndex, visited0)
          { s6 with connectedComponents := split.1,
                    connectedPairs := split.2.1,
                    nodeToComponentIndex := split.2.2.1 }
        else
          { s3 with connectedPairs :=
              s3.connectedPairs - (newComponent.size : Int) }
    else s2

/-! ### NodeSet lemmas -/

theorem nsInsert_eq_of_mem {v : Node} :
    ∀ {s : NodeSet}, s.Sorted (· < ·) → v ∈ s → nsInsert v s = s := by
  intro s
  induction s with
  | nil => intro _ hv; simp at hv
  | cons u rest ih =>
      intro hsorted hv
      rcases List.mem_cons.mp hv with rfl | hv'
      · simp [nsInsert]
      · have hu : u < v := by
          simpa using (List.sorted_cons.mp hsorted).1 v hv'
        have h1 : ¬ v < u := Nat.lt_asymm hu
        have h2 : ¬ v = u := (Nat.ne_of_lt hu).symm
        simp only [nsInsert, if_neg h1, if_neg h2]
        rw [ih (List.sorted_cons.mp hsorted).2 hv']

theorem nsErase_sorted {v : Node} {s : NodeSet} (h : s.Sorted (· < ·)) :
    (nsErase v s).Sorted (· < ·) :=
  h.filter _

theorem nsErase_not_mem {v : Node} {s : NodeSet} : v ∉ nsErase v s := by
  intro hv
  have := List.of_mem_filter hv
  simp at this

theorem nsInsert_nsErase_of_mem {v : Node} :
    ∀ {s : NodeSet}, s.Sorted (· < ·) → v ∈ s →
      nsInsert v (nsErase v s) = s := by
  intro s
  induction s with
  | nil => intro _ hv; simp at hv
  | cons u rest ih =>
      intro hsorted hv
      have hs' := (List.sorted_cons.mp hsorted).2
      rcases List.mem_cons.mp hv with rfl | hv'
      · have hgt : ∀ b ∈ rest, v < b := by
          intro b hb
          simpa using (List.sorted_cons.mp hsorted).1 b hb
        have herase : nsErase v (v :: rest) = rest := by
          unfold nsErase
          rw [List.filter_cons]
          have h0 : (decide (v ≠ v)) = false := by simp
          rw [h0]
          simp only [Bool.false_eq_true, if_false]
          rw [List.filter_eq_self]
          intro b hb
          have hvb := hgt b hb
          simp only [ne_eq, decide_eq_true_eq]
          exact (Nat.ne_of_lt hvb).symm
        rw [herase]
        cases rest with
        | nil => rfl
        | cons w ws =>
            have hvw : v < w := hgt w (List.mem_cons_self _ _)
            simp [nsInsert, hvw]
      · have hu : u < v := by
          simpa using (List.sorted_cons.mp hsorted).1 v hv'
        have hune : ¬ (u = v) := Nat.ne_of_lt hu
        have herase : nsErase v (u :: rest) = u :: nsErase v rest := by
          unfold nsErase
          rw [List.filter_cons]
          have h0 : (decide (u ≠ v)) = true := by simp [hune]
          rw [h0]
          simp
        rw [herase]
        have h1 : ¬ v < u := Nat.lt_asymm hu
        have h2 : ¬ v = u := (Nat.ne_of_lt hu).symm
        simp only [nsInsert, if_neg h1, if_neg h2]
        rw [ih hs' hv']

theorem nsErase_nsInsert_of_not_mem {v : Node} :
    ∀ {s : NodeSet}, v ∉ s → nsErase v (nsInsert v s) = s := by
  intro s
  induction s with
  | nil =>
      intro _
      simp [nsInsert, nsErase]
  | cons u rest ih =>
      intro hv
      have hvu : v ≠ u := fun h => hv (h ▸ List.mem_cons_self _ _)
      have hvr : v ∉ rest := fun h => hv (List.mem_cons_of_mem _ h)
      have hfilter : nsErase v (u :: rest) = u :: rest := by
        unfold nsErase
        rw [List.filter_eq_self]
        intro b hb
        simp only [ne_eq, decide_eq_true_eq]
        rcases List.mem_cons.mp hb with rfl | hb'
        · exact Ne.symm hvu
        · intro heq
          exact hvr (heq ▸ hb')
      by_cases h1 : v < u
      · simp only [nsInsert, if_pos h1]
        have hstep : nsErase v (v :: u :: rest) = nsErase v (u :: rest) := by
          unfold nsErase
          rw [List.filter_cons]
          simp
        rw [hstep, hfilter]
      · simp only [nsInsert, if_neg h1, if_neg hvu]
        have hstep : nsErase v (u :: nsInsert v rest)
            = u :: nsErase v (nsInsert v rest) := by
          unfold nsErase
          rw [List.filter_cons]
          have h0 : (decide (u ≠ v)) = true := by simp [Ne.symm hvu]
          rw [h0]
          simp
        rw [hstep, ih hvr]

/-- A fold of guarded updates where every guard is false is the identity. -/
theorem foldl_guard_false {α β : Type} (f : α → β → α) (P : β → Bool) :
    ∀ (l : List β) (s : α), (∀ i ∈ l, P i = false) →
      l.foldl (fun acc i => if P i then f acc i else acc) s = s := by
  intro l
  induction l with
  | nil => intro s _; rfl
  | cons i rest ih =>
      intro s h
      rw [List.foldl_cons, h i (List.mem_cons_self _ _)]
      simp only [Bool.false_eq_true, if_false]
      exact ih s (fun j hj => h j (List.mem_cons_of_mem _ hj))

/-! ## C1: the CNP constructor does not build the component structure -/

/-- C1: the `CNP_Graph` constructor (`cnpBuild`), unlike the spec's `build`,
never calls `initializeComponentsAndMapping`.  On the 3-vertex path with
budget 1 the freshly built engine has an empty component list (so the
component sizes sum to 0, not `n − |RemovedMask| = 3`), maps every
(non-removed) vertex to `-1`, and its `connectedPairs_` is an uninitialised
C++ `int` rather than `Σ C(size,2) = 3`. -/
theorem c1_cnp_build_violates_invariants :
    (cnpBuild [0, 1, 2] [[1], [0, 2], [1]] 1).connectedComponents = []
      ∧ ((cnpBuild [0, 1, 2] [[1], [0, 2], [1]] 1).connectedComponents.foldl
          (fun sum c => sum + c.size) 0) = 0
      ∧ (cnpBuild [0, 1, 2] [[1], [0, 2], [1]] 1).numNodes
          - (cnpBuild [0, 1, 2] [[1], [0, 2], [1]] 1).removedNodes.length = 3
      ∧ (cnpBuild [0, 1, 2] [[1], [0, 2], [1]] 1).nodeToComponentIndex
          = [none, none, none] := by
  decide

/-! ## C8: no contract check on double remove / spurious add -/

/-- A reachable DCNP state with vertex 1 removed, used as the concrete
counterexample state. -/
def dcnpPathRemoved1 : DcnpState :=
  dcnpUpdateGraphByRemovedNodes (dcnpBuild [0, 1, 2] 2 [[1], [0, 2], [1]] 1) [1]

/-- C8 counterexample: removing the already-removed vertex 1 of a DCNP engine
returns normally with the state unchanged, and adding the non-removed vertex
0 returns normally with 0 still outside the mask — no ContractViolation is
surfaced in either case (`DCNP_Graph::removeNode`/`addNode` perform no
precondition check). -/
theorem c8_counterexample :
    dcnpRemoveNode dcnpPathRemoved1 1 = dcnpPathRemoved1
      ∧ (dcnpAddNode dcnpPathRemoved1 0).removedNodes = [1] := by
  decide

/-- C8 (amended): the engines perform no contract check.  On any DCNP state
whose rows are consistent with the mask (no row contains the removed vertex,
which holds in every reachable state), `removeNode` of an already-removed
vertex is a silent no-op; `CNP_Graph::removeNode` of an already-removed vertex
reads component index `-1` and indexes `connectedComponents_[-1]` (undefined
behaviour) instead of raising ContractViolation. -/
theorem c8_double_remove_silent_noop (st : DcnpState) (v : Node)
    (hmem : v ∈ st.removedNodes)
    (hsorted : st.removedNodes.Sorted (· < ·))
    (hrows : ∀ i < st.numNodes, (st.intree.getD i []).getD v false = false) :
    dcnpRemoveNode st v = st := by
  have hins : nsInsert v st.removedNodes = st.removedNodes :=
    nsInsert_eq_of_mem hsorted hmem
  show (List.range
        ({ st with removedNodes := nsInsert v st.removedNodes } :
          DcnpState).numNodes).foldl _ _ = st
  rw [hins]
  have hself : ({ st with removedNodes := st.removedNodes } : DcnpState)
      = st := rfl
  rw [hself]
  exact foldl_guard_false bfsKTree
    (fun i => (st.intree.getD i []).getD v false)
    (List.range st.numNodes) st
    (fun i hi => hrows i (List.mem_range.mp hi))

/-- Witness for the amended C8 theorem at a concrete reachable state. -/
theorem c8_witness : dcnpRemoveNode dcnpPathRemoved1 1 = dcnpPathRemoved1 :=
  c8_double_remove_silent_noop dcnpPathRemoved1 1 (by decide)
    (by decide) (by decide)

/-! ## C4: the no-split pair decrement of `CNP_Graph::removeNode` -/

/-- The state `CNP_Graph::removeNode` has built just before it runs the
surviving-piece DFS (non-singleton branch): mask and mapping updated, incident
edges elided, `v` erased from its component with the size decremented. -/
def cnpRemoveNodePreDfs (st : CnpState) (nodeToRemove : Node)
    (componentIndex : Nat) : CnpState :=
  let originalComponent := st.connectedComponents.getD componentIndex ⟨0, []⟩
  let s1 := { st with
    removedNodes := nsInsert nodeToRemove st.removedNodes,
    nodeToComponentIndex :=
      st.nodeToComponentIndex.set nodeToRemove none }
  let s2 := { s1 with currentAdjList :=
      ((adjAt s1.currentAdjList nodeToRemove).foldl
        (fun (a : AdjList) neighbor =>
          a.set neighbor (nsErase nodeToRemove (adjAt a neighbor)))
        s1.currentAdjList).set nodeToRemove [] }
  let comp' : Component :=
    { size := originalComponent.size - 1,
      nodes := originalComponent.nodes.filter (fun x => x ≠ nodeToRemove) }
  { s2 with connectedComponents :=
    s2.connectedComponents.set componentIndex comp' }

/-- C4: in `CNP_Graph::removeNode`, when the DFS piece found from the first
surviving member covers all remaining members of `v`'s old component (its
size equals `old_size - 1`, i.e. no split), the code's decrement of
`connectedPairs` by the new piece's size coincides with `old_size - 1`. -/
theorem c4_remove_no_split_decrement (st : CnpState) (v : Node) (ci : Nat)
    (startNode : Node)
    (hidx : st.nodeToComponentIndex.getD v none = some ci)
    (hsz : 1 < (st.connectedComponents.getD ci ⟨0, []⟩).size)
    (hstart : ((st.connectedComponents.getD ci ⟨0, []⟩).nodes.filter
        (fun x => x ≠ v)).head? = some startNode)
    (hcover : (dfsFindComponent (cnpRemoveNodePreDfs st v ci) startNode).size
        = (st.connectedComponents.getD ci ⟨0, []⟩).size - 1) :
    (cnpRemoveNode st v).connectedPairs
      = st.connectedPairs
        - (((st.connectedComponents.getD ci ⟨0, []⟩).size : Int) - 1) := by
  simp only [cnpRemoveNodePreDfs] at hcover
  have hne1 : ¬ (st.connectedComponents.getD ci ⟨0, []⟩).size = 1 := by omega
  simp only [cnpRemoveNode, hidx, hne1, Bool.false_eq_true, if_false,
    if_pos hsz, hstart]
  rw [hcover]
  have hnl : ¬ (st.connectedComponents.getD ci ⟨0, []⟩).size - 1
      < (st.connectedComponents.getD ci ⟨0, []⟩).size - 1 := by omega
  simp only [if_neg hnl]
  have hcast : (((st.connectedComponents.getD ci ⟨0, []⟩).size - 1 : Nat)
      : Int) = ((st.connectedComponents.getD ci ⟨0, []⟩).size : Int) - 1 := by
    have h1 : 1 ≤ (st.connectedComponents.getD ci ⟨0, []⟩).size := by omega
    omega
  rw [hcast]

/-- The P4 path engine 0-1-2-3 with everything present, used for the C4
witness: removing the end vertex 3 leaves one piece of size 3 = old_size - 1
and the pair count drops from 6 to 3. -/
def cnpP4 : CnpState :=
  cnpUpdateGraphByRemovedNodes (cnpBuild [0, 1, 2, 3]
    [[1], [0, 2], [1, 3], [2]] 1) []

/-- Witness for C4 at a concrete input. -/
theorem c4_witness : (cnpRemoveNode cnpP4 3).connectedPairs
    = cnpP4.connectedPairs - 3 :=
  (c4_remove_no_split_decrement cnpP4 3 0 0 (by decide) (by decide)
    (by decide) (by decide)).trans (by decide)

/-! ## C9: add-then-remove of the same vertex -/

/-- A reachable CNP state: path 0-1-2 with vertex 1 removed. -/
def cnpPathRemoved1 : CnpState :=
  cnpRemoveNode (cnpUpdateGraphByRemovedNodes
    (cnpBuild [0, 1, 2] [[1], [0, 2], [1]] 1) []) 1

/-- C9 counterexample: on the reachable CNP state "path 0-1-2 with vertex 1
removed", `add(1)` followed by `remove(1)` does not restore the state — the
two singleton components come back in the opposite order with their
`node_to_component` indices swapped — although the RemovedMask and the
current adjacency are restored. -/
theorem c9_counterexample :
    cnpRemoveNode (cnpAddNode cnpPathRemoved1 1) 1 ≠ cnpPathRemoved1
      ∧ (cnpRemoveNode (cnpAddNode cnpPathRemoved1 1) 1).connectedComponents
          = [⟨1, [2]⟩, ⟨1, [0]⟩]
      ∧ cnpPathRemoved1.connectedComponents = [⟨1, [0]⟩, ⟨1, [2]⟩]
      ∧ (cnpRemoveNode (cnpAddNode cnpPathRemoved1 1) 1).removedNodes
          = cnpPathRemoved1.removedNodes
      ∧ (cnpRemoveNode (cnpAddNode cnpPathRemoved1 1) 1).currentAdjList
          = cnpPathRemoved1.currentAdjList := by
  decide

/-! ### Field-preservation lemmas for the DCNP operations -/

theorem bfsKTree_preserves_frame (s : DcnpState) (v : Node) :
    (bfsKTree s v).currentAdjList = s.currentAdjList
      ∧ (bfsKTree s v).removedNodes = s.removedNodes
      ∧ (bfsKTree s v).nodeAge = s.nodeAge
      ∧ (bfsKTree s v).numToRemove = s.numToRemove
      ∧ (bfsKTree s v).numNodes = s.numNodes
      ∧ (bfsKTree s v).kHops = s.kHops
      ∧ (bfsKTree s v).originalAdjList = s.originalAdjList
      ∧ (bfsKTree s v).originalNodesSet = s.originalNodesSet := by
  unfold bfsKTree
  by_cases h : nsMem v s.removedNodes
  · simp [h]
  · simp [h]

theorem foldl_bfs_guard_preserves_frame (guard : Nat → Bool) :
    ∀ (l : List Nat) (s : DcnpState),
      ((l.foldl (fun acc i => if guard i then bfsKTree acc i else acc)
          s).currentAdjList = s.currentAdjList)
        ∧ ((l.foldl (fun acc i => if guard i then bfsKTree acc i else acc)
            s).removedNodes = s.removedNodes)
        ∧ ((l.foldl (fun acc i => if guard i then bfsKTree acc i else acc)
            s).nodeAge = s.nodeAge)
        ∧ ((l.foldl (fun acc i => if guard i then bfsKTree acc i else acc)
            s).numToRemove = s.numToRemove) := by
  intro l
  induction l with
  | nil => intro s; exact ⟨rfl, rfl, rfl, rfl⟩
  | cons i rest ih =>
      intro s
      rw [List.foldl_cons]
      by_cases h : guard i
      · rw [if_pos h]
        obtain ⟨h1, h2, h3, h4⟩ := ih (bfsKTree s i)
        obtain ⟨g1, g2, g3, g4, _⟩ := bfsKTree_preserves_frame s i
        exact ⟨h1.trans g1, h2.trans g2, h3.trans g3, h4.trans g4⟩
      · rw [if_neg h]
        exact ih s

/-- The DCNP half of the amended C9: `add(v)` then `remove(v)` restores the
RemovedMask and leaves the adjacency, ages and budget untouched. -/
theorem dcnp_add_remove_restores (d : DcnpState) (v : Node)
    (hmem : v ∈ d.removedNodes) (hsorted : d.removedNodes.Sorted (· < ·)) :
    (dcnpRemoveNode (dcnpAddNode d v) v).removedNodes = d.removedNodes
      ∧ (dcnpRemoveNode (dcnpAddNode d v) v).currentAdjList
          = d.currentAdjList
      ∧ (dcnpRemoveNode (dcnpAddNode d v) v).nodeAge = d.nodeAge
      ∧ (dcnpRemoveNode (dcnpAddNode d v) v).numToRemove = d.numToRemove := by
  have haddmask : (dcnpAddNode d v).removedNodes = nsErase v d.removedNodes := by
    unfold dcnpAddNode
    obtain ⟨_, h2, _⟩ := foldl_bfs_guard_preserves_frame _
      (List.range (bfsKTree { d with removedNodes := nsErase v d.removedNodes }
        v).numNodes)
      (bfsKTree { d with removedNodes := nsErase v d.removedNodes } v)
    rw [h2]
    exact (bfsKTree_preserves_frame _ v).2.1
  have haddadj : (dcnpAddNode d v).currentAdjList = d.currentAdjList := by
    unfold dcnpAddNode
    obtain ⟨h1, _⟩ := foldl_bfs_guard_preserves_frame _
      (List.range (bfsKTree { d with removedNodes := nsErase v d.removedNodes }
        v).numNodes)
      (bfsKTree { d with removedNodes := nsErase v d.removedNodes } v)
    rw [h1]
    exact (bfsKTree_preserves_frame _ v).1
  have haddage : (dcnpAddNode d v).nodeAge = d.nodeAge := by
    unfold dcnpAddNode
    obtain ⟨_, _, h3, _⟩ := foldl_bfs_guard_preserves_frame _
      (List.range (bfsKTree { d with removedNodes := nsErase v d.removedNodes }
        v).numNodes)
      (bfsKTree { d with removedNodes := nsErase v d.removedNodes } v)
    rw [h3]
    exact (bfsKTree_preserves_frame _ v).2.2.1
  have haddbud : (dcnpAddNode d v).numToRemove = d.numToRemove := by
    unfold dcnpAddNode
    obtain ⟨_, _, _, h4⟩ := foldl_bfs_guard_preserves_frame _
      (List.range (bfsKTree { d with removedNodes := nsErase v d.removedNodes }
        v).numNodes)
      (bfsKTree { d with removedNodes := nsErase v d.removedNodes } v)
    rw [h4]
    exact (bfsKTree_preserves_frame _ v).2.2.2.1
  unfold dcnpRemoveNode
  obtain ⟨r1, r2, r3, r4⟩ := foldl_bfs_guard_preserves_frame _
    (List.range
      ({ dcnpAddNode d v with
          removedNodes := nsInsert v (dcnpAddNode d v).removedNodes } :
        DcnpState).numNodes)
    { dcnpAddNode d v with
        removedNodes := nsInsert v (dcnpAddNode d v).removedNodes }
  refine ⟨?_, ?_, ?_, ?_⟩
  · rw [r2]
    show nsInsert v (dcnpAddNode d v).removedNodes = d.removedNodes
    rw [haddmask]
    exact nsInsert_nsErase_of_mem hsorted hmem
  · rw [r1]
    exact haddadj
  · rw [r3]
    exact haddage
  · rw [r4]
    exact haddbud

/-! ### Pointwise characterisation of the edge folds of
`CNP_Graph::addNode` / `removeNode` -/

theorem adjAt_set_self {adj : AdjList} {i : Node} {x : NodeSet}
    (h : i < adj.length) : adjAt (adj.set i x) i = x := by
  unfold adjAt
  rw [List.getD_eq_getElem?_getD, List.getElem?_set_self]
  · simp
  · simpa using h

theorem adjAt_set_ne {adj : AdjList} {i j : Node} {x : NodeSet}
    (h : i ≠ j) : adjAt (adj.set i x) j = adjAt adj j := by
  unfold adjAt
  rw [List.getD_eq_getElem?_getD, List.getD_eq_getElem?_getD,
    List.getElem?_set_ne h]

theorem adjAt_of_length_le {adj : AdjList} {i : Node}
    (h : adj.length ≤ i) : adjAt adj i = [] := by
  unfold adjAt
  rw [List.getD_eq_getElem?_getD, List.getElem?_eq_none (by simpa using h)]
  rfl

theorem mem_nsInsert {x u : Node} :
    ∀ {s : NodeSet}, x ∈ nsInsert u s ↔ x = u ∨ x ∈ s := by
  intro s
  induction s with
  | nil => simp [nsInsert]
  | cons w rest ih =>
      by_cases h1 : u < w
      · simp [nsInsert, h1]
      · by_cases h2 : u = w
        · subst h2
          simp only [nsInsert, if_neg h1, if_pos rfl]
          constructor
          · intro h
            rcases List.mem_cons.mp h with rfl | h'
            · exact Or.inl rfl
            · exact Or.inr (List.mem_cons_of_mem _ h')
          · intro h
            rcases h with rfl | h'
            · exact List.mem_cons_self _ _
            · exact h'
        · simp only [nsInsert, if_neg h1, if_neg h2, List.mem_cons, ih]
          tauto

theorem nsInsert_idem {v : Node} :
    ∀ (s : NodeSet), nsInsert v (nsInsert v s) = nsInsert v s := by
  intro s
  induction s with
  | nil => simp [nsInsert]
  | cons u rest ih =>
      by_cases h1 : v < u
      · simp [nsInsert, h1]
      · by_cases h2 : v = u
        · simp [nsInsert, h1, h2]
        · simp only [nsInsert, if_neg h1, if_neg h2]
          rw [ih]

theorem nsErase_idem {v : Node} (s : NodeSet) :
    nsErase v (nsErase v s) = nsErase v s := by
  unfold nsErase
  rw [List.filter_filter]
  simp

theorem mem_foldl_nsInsert {x : Node} :
    ∀ (L : List Node) (s0 : NodeSet),
      x ∈ L.foldl (fun s u => nsInsert u s) s0 ↔ x ∈ L ∨ x ∈ s0 := by
  intro L
  induction L with
  | nil => intro s0; simp
  | cons u rest ih =>
      intro s0
      rw [List.foldl_cons, ih, mem_nsInsert]
      simp [List.mem_cons]
      tauto

theorem insertFold_length (v : Node) :
    ∀ (L : List Node) (adj : AdjList),
      (L.foldl (fun a u => adjInsertEdge a v u) adj).length = adj.length := by
  intro L
  induction L with
  | nil => intro adj; rfl
  | cons u rest ih =>
      intro adj
      rw [List.foldl_cons, ih]
      simp [adjInsertEdge]

theorem insertFold_at_v (v : Node) :
    ∀ (L : List Node) (adj : AdjList), v < adj.length →
      (∀ u ∈ L, u ≠ v) →
      adjAt (L.foldl (fun a u => adjInsertEdge a v u) adj) v
        = L.foldl (fun s u => nsInsert u s) (adjAt adj v) := by
  intro L
  induction L with
  | nil => intro adj _ _; rfl
  | cons u rest ih =>
      intro adj hv hne
      have hunv : u ≠ v := hne u (List.mem_cons_self _ _)
      rw [List.foldl_cons, List.foldl_cons]
      have hstep : adjAt (adjInsertEdge adj v u) v
          = nsInsert u (adjAt adj v) := by
        simp only [adjInsertEdge]
        rw [adjAt_set_ne hunv, adjAt_set_self hv]
      have hlen : v < (adjInsertEdge adj v u).length := by
        simpa [adjInsertEdge] using hv
      rw [ih (adjInsertEdge adj v u) hlen
        (fun w hw => hne w (List.mem_cons_of_mem _ hw)), hstep]

theorem insertFold_at_w (v w : Node) (hwv : w ≠ v) :
    ∀ (L : List Node) (adj : AdjList),
      (∀ u ∈ L, u ≠ v) → (∀ u ∈ L, u < adj.length) →
      adjAt (L.foldl (fun a u => adjInsertEdge a v u) adj) w
        = if w ∈ L then nsInsert v (adjAt adj w) else adjAt adj w := by
  intro L
  induction L with
  | nil => intro adj _ _; simp
  | cons u rest ih =>
      intro adj hne hlt
      have hunv : u ≠ v := hne u (List.mem_cons_self _ _)
      have hult : u < adj.length := hlt u (List.mem_cons_self _ _)
      rw [List.foldl_cons]
      have hlen : (adjInsertEdge adj v u).length = adj.length := by
        simp [adjInsertEdge]
      have hrec := ih (adjInsertEdge adj v u)
        (fun x hx => hne x (List.mem_cons_of_mem _ hx))
        (fun x hx => hlen ▸ hlt x (List.mem_cons_of_mem _ hx))
      by_cases huw : u = w
      · subst huw
        have hstep : adjAt (adjInsertEdge adj v u) u
            = nsInsert v (adjAt adj u) := by
          simp only [adjInsertEdge]
          have h1 : adjAt (adj.set v (nsInsert u (adjAt adj v))) u
              = adjAt adj u := adjAt_set_ne (Ne.symm hunv)
          rw [adjAt_set_self (by
            rw [List.length_set]
            exact hult), h1]
        rw [hrec, hstep]
        by_cases hmem : u ∈ rest
        · rw [if_pos hmem, if_pos (List.mem_cons_self _ _),
            nsInsert_idem]
        · rw [if_neg hmem, if_pos (List.mem_cons_self _ _)]
      · have hstep : adjAt (adjInsertEdge adj v u) w = adjAt adj w := by
          simp only [adjInsertEdge]
          rw [adjAt_set_ne huw, adjAt_set_ne (fun h => hwv h.symm)]
        rw [hrec, hstep]
        have hmemiff : (w ∈ u :: rest) ↔ (w ∈ rest) := by
          rw [List.mem_cons]
          constructor
          · intro h
            rcases h with rfl | h'
            · exact absurd rfl huw
            · exact h'
          · exact Or.inr
        by_cases hmem : w ∈ rest
        · rw [if_pos hmem, if_pos (hmemiff.mpr hmem)]
        · rw [if_neg hmem, if_neg (fun h => hmem (hmemiff.mp h))]

theorem eraseFold_length (v : Node) :
    ∀ (M : List Node) (adj : AdjList),
      (M.foldl (fun a u => a.set u (nsErase v (adjAt a u))) adj).length
        = adj.length := by
  intro M
  induction M with
  | nil => intro adj; rfl
  | cons u rest ih =>
      intro adj
      rw [List.foldl_cons, ih, List.length_set]

theorem eraseFold_at (v : Node) :
    ∀ (M : List Node) (adj : AdjList) (w : Node),
      adjAt (M.foldl (fun a u => a.set u (nsErase v (adjAt a u))) adj) w
        = if w ∈ M ∧ w < adj.length then nsErase v (adjAt adj w)
          else adjAt adj w := by
  intro M
  induction M with
  | nil => intro adj w; simp
  | cons u rest ih =>
      intro adj w
      rw [List.foldl_cons]
      have hlen : (adj.set u (nsErase v (adjAt adj u))).length = adj.length :=
        List.length_set _ _ _
      rw [ih _ w, hlen]
      by_cases huw : u = w
      · subst huw
        by_cases hlt : u < adj.length
        · have hstep : adjAt (adj.set u (nsErase v (adjAt adj u))) u
              = nsErase v (adjAt adj u) := adjAt_set_self hlt
          rw [hstep]
          by_cases hmem : u ∈ rest
          · simp [hmem, hlt, nsErase_idem]
          · simp [hmem, hlt]
        · have hstep : adjAt (adj.set u (nsErase v (adjAt adj u))) u
              = adjAt adj u := by
            have h2 : adjAt (adj.set u (nsErase v (adjAt adj u))) u = [] := by
              apply adjAt_of_length_le
              rw [List.length_set]
              exact Nat.le_of_not_lt hlt
            rw [h2, adjAt_of_length_le (Nat.le_of_not_lt hlt)]
          rw [hstep]
          simp [hlt]
      · have hstep : adjAt (adj.set u (nsErase v (adjAt adj u))) w
            = adjAt adj w := adjAt_set_ne huw
        rw [hstep]
        have hmemiff : (w ∈ u :: rest) ↔ (w ∈ rest) := by
          rw [List.mem_cons]
          constructor
          · intro h
            rcases h with rfl | h'
            · exact absurd rfl huw
            · exact h'
          · exact Or.inr
        by_cases hmem : w ∈ rest ∧ w < adj.length
        · rw [if_pos hmem, if_pos ⟨hmemiff.mpr hmem.1, hmem.2⟩]
        · rw [if_neg hmem,
            if_neg (fun h => hmem ⟨hmemiff.mp h.1, h.2⟩)]

/-! ### Frame lemmas for the CNP bookkeeping folds -/

theorem foldl_cnp_frame {β : Type} (f : CnpState → β → CnpState)
    (hf : ∀ s x, (f s x).removedNodes = s.removedNodes
      ∧ (f s x).currentAdjList = s.currentAdjList
      ∧ (f s x).nodeAge = s.nodeAge
      ∧ (f s x).numToRemove = s.numToRemove
      ∧ (f s x).nodeToComponentIndex = s.nodeToComponentIndex) :
    ∀ (l : List β) (s : CnpState),
      ((l.foldl f s).removedNodes = s.removedNodes)
        ∧ ((l.foldl f s).currentAdjList = s.currentAdjList)
        ∧ ((l.foldl f s).nodeAge = s.nodeAge)
        ∧ ((l.foldl f s).numToRemove = s.numToRemove)
        ∧ ((l.foldl f s).nodeToComponentIndex = s.nodeToComponentIndex) := by
  intro l
  induction l with
  | nil => intro s; exact ⟨rfl, rfl, rfl, rfl, rfl⟩
  | cons x rest ih =>
      intro s
      rw [List.foldl_cons]
      obtain ⟨h1, h2, h3, h4, h5⟩ := ih (f s x)
      obtain ⟨g1, g2, g3, g4, g5⟩ := hf s x
      exact ⟨h1.trans g1, h2.trans g2, h3.trans g3, h4.trans g4, h5.trans g5⟩

theorem foldl_cnp_frame_fst {β γ : Type} (f : CnpState × γ → β → CnpState × γ)
    (hf : ∀ s x, ((f s x).1.removedNodes = s.1.removedNodes)
      ∧ ((f s x).1.currentAdjList = s.1.currentAdjList)
      ∧ ((f s x).1.nodeAge = s.1.nodeAge)
      ∧ ((f s x).1.numToRemove = s.1.numToRemove)) :
    ∀ (l : List β) (s : CnpState × γ),
      ((l.foldl f s).1.removedNodes = s.1.removedNodes)
        ∧ ((l.foldl f s).1.currentAdjList = s.1.currentAdjList)
        ∧ ((l.foldl f s).1.nodeAge = s.1.nodeAge)
        ∧ ((l.foldl f s).1.numToRemove = s.1.numToRemove) := by
  intro l
  induction l with
  | nil => intro s; exact ⟨rfl, rfl, rfl, rfl⟩
  | cons x rest ih =>
      intro s
      rw [List.foldl_cons]
      obtain ⟨h1, h2, h3, h4⟩ := ih (f s x)
      obtain ⟨g1, g2, g3, g4⟩ := hf s x
      exact ⟨h1.trans g1, h2.trans g2, h3.trans g3, h4.trans g4⟩

theorem optGetD_set_self {m : List (Option Nat)} {v : Node} {x : Option Nat}
    (h : v < m.length) : (m.set v x).getD v none = x := by
  rw [List.getD_eq_getElem?_getD, List.getElem?_set_self (by simpa using h)]
  simp

theorem optGetD_set_ne {m : List (Option Nat)} {v node : Node}
    {x : Option Nat} (h : node ≠ v) :
    (m.set node x).getD v none = m.getD v none := by
  rw [List.getD_eq_getElem?_getD, List.getD_eq_getElem?_getD,
    List.getElem?_set_ne h]

theorem lt_length_of_optGetD_isSome {m : List (Option Nat)} {v : Node}
    (h : (m.getD v none).isSome) : v < m.length := by
  by_contra hlt
  rw [List.getD_eq_getElem?_getD,
    List.getElem?_eq_none (by simpa using Nat.le_of_not_lt hlt)] at h
  simp at h

theorem foldl_set_some_preserves_isSome (K : Nat) :
    ∀ (l : List Node) (m : List (Option Nat)) (v : Node),
      (m.getD v none).isSome →
      ((l.foldl (fun mm node => mm.set node (some K)) m).getD v
        none).isSome := by
  intro l
  induction l with
  | nil => intro m v h; exact h
  | cons node rest ih =>
      intro m v h
      rw [List.foldl_cons]
      apply ih
      by_cases hnv : node = v
      · subst hnv
        rw [optGetD_set_self (lt_length_of_optGetD_isSome h)]
        simp
      · rw [optGetD_set_ne hnv]
        exact h

theorem foldl_remap_preserves_isSome (g : Nat → Nat) :
    ∀ (l : List Node) (m : List (Option Nat)) (v : Node),
      (m.getD v none).isSome →
      ((l.foldl (fun mm node =>
          match mm.getD node none with
          | some ci => mm.set node (some (g ci))
          | none => mm) m).getD v none).isSome := by
  intro l
  induction l with
  | nil => intro m v h; exact h
  | cons node rest ih =>
      intro m v h
      rw [List.foldl_cons]
      apply ih
      rcases hm : m.getD node none with _ | ci
      · simpa [hm] using h
      · simp only [hm]
        by_cases hnv : node = v
        · subst hnv
          rw [optGetD_set_self (lt_length_of_optGetD_isSome h)]
          simp
        · rw [optGetD_set_ne hnv]
          exact h

/-- The neighbour fold of `CNP_Graph::addNode` only inserts edges: every
other field is framed, the mapping never changes during the fold, and the
adjacency result is the plain edge-insert fold over the assigned
neighbours. -/
theorem cnpAddFold_characterise (v : Node) :
    ∀ (ns : List Node) (s : CnpState) (h : Option Nat),
      ((ns.foldl
          (fun (acc : CnpState × Option Nat) neighbor =>
            match acc.1.nodeToComponentIndex.getD neighbor none with
            | some cIdx =>
                ({ acc.1 with currentAdjList :=
                    adjInsertEdge acc.1.currentAdjList v neighbor },
                  if acc.2 = none then some cIdx else acc.2)
            | none => acc)
          (s, h)).1.nodeToComponentIndex = s.nodeToComponentIndex)
        ∧ ((ns.foldl
            (fun (acc : CnpState × Option Nat) neighbor =>
              match acc.1.nodeToComponentIndex.getD neighbor none with
              | some cIdx =>
                  ({ acc.1 with currentAdjList :=
                      adjInsertEdge acc.1.currentAdjList v neighbor },
                    if acc.2 = none then some cIdx else acc.2)
              | none => acc)
            (s, h)).1.removedNodes = s.removedNodes)
        ∧ ((ns.foldl
            (fun (acc : CnpState × Option Nat) neighbor =>
              match acc.1.nodeToComponentIndex.getD neighbor none with
              | some cIdx =>
                  ({ acc.1 with currentAdjList :=
                      adjInsertEdge acc.1.currentAdjList v neighbor },
                    if acc.2 = none then some cIdx else acc.2)
              | none => acc)
            (s, h)).1.nodeAge = s.nodeAge)
        ∧ ((ns.foldl
            (fun (acc : CnpState × Option Nat) neighbor =>
              match acc.1.nodeToComponentIndex.getD neighbor none with
              | some cIdx =>
                  ({ acc.1 with currentAdjList :=
                      adjInsertEdge acc.1.currentAdjList v neighbor },
                    if acc.2 = none then some cIdx else acc.2)
              | none => acc)
            (s, h)).1.numToRemove = s.numToRemove)
        ∧ ((ns.foldl
            (fun (acc : CnpState × Option Nat) neighbor =>
              match acc.1.nodeToComponentIndex.getD neighbor none with
              | some cIdx =>
                  ({ acc.1 with currentAdjList :=
                      adjInsertEdge acc.1.currentAdjList v neighbor },
                    if acc.2 = none then some cIdx else acc.2)
              | none => acc)
            (s, h)).1.currentAdjList
          = (ns.filter
              (fun u => (s.nodeToComponentIndex.getD u none).isSome)).foldl
              (fun a u => adjInsertEdge a v u) s.currentAdjList) := by
  intro ns
  induction ns with
  | nil => intro s h; exact ⟨rfl, rfl, rfl, rfl, rfl⟩
  | cons u rest ih =>
      intro s h
      rw [List.foldl_cons, List.filter_cons]
      rcases hmap : s.nodeToComponentIndex.getD u none with _ | ci
      · simp only [hmap, Option.isSome_none, Bool.false_eq_true, if_false]
        exact ih s h
      · simp only [hmap, Option.isSome_some, if_true]
        obtain ⟨i1, i2, i3, i4, i5⟩ := ih
          { s with currentAdjList := adjInsertEdge s.currentAdjList v u }
          (if h = none then some ci else h)
        rw [List.foldl_cons]
        exact ⟨i1, i2, i3, i4, i5⟩

/-- Frame of `CNP_Graph::addNode`: the mask has `v` erased, ages and budget
are untouched, the adjacency is the edge-insert fold over the assigned
original neighbours of `v`, and `v` ends up assigned to a component. -/
theorem cnpAddNode_frame (c : CnpState) (v : Node)
    (hvmlen : v < c.nodeToComponentIndex.length) :
    (cnpAddNode c v).removedNodes = nsErase v c.removedNodes
      ∧ (cnpAddNode c v).nodeAge = c.nodeAge
      ∧ (cnpAddNode c v).numToRemove = c.numToRemove
      ∧ (cnpAddNode c v).currentAdjList
        = ((adjAt c.originalAdjList v).filter
            (fun u => (c.nodeToComponentIndex.getD u none).isSome)).foldl
            (fun a u => adjInsertEdge a v u) c.currentAdjList
      ∧ ((cnpAddNode c v).nodeToComponentIndex.getD v none).isSome := by
  obtain ⟨f1, f2, f3, f4, f5⟩ := cnpAddFold_characterise v
    (adjAt c.originalAdjList v)
    { c with removedNodes := nsErase v c.removedNodes } none
  unfold cnpAddNode
  rcases hsnd : ((adjAt c.originalAdjList v).foldl
      (fun (acc : CnpState × Option Nat) neighbor =>
        match acc.1.nodeToComponentIndex.getD neighbor none with
        | some cIdx =>
            ({ acc.1 with currentAdjList :=
                adjInsertEdge acc.1.currentAdjList v neighbor },
              if acc.2 = none then some cIdx else acc.2)
        | none => acc)
      ({ c with removedNodes := nsErase v c.removedNodes }, none)).2
    with _ | ci
  · simp only [hsnd]
    refine ⟨f2, f3, f4, f5, ?_⟩
    rw [optGetD_set_self (by rw [f1]; exact hvmlen)]
    simp
  · simp only [hsnd]
    split_ifs with hlt heq
    · refine ⟨f2, f3, f4, f5, ?_⟩
      apply foldl_set_some_preserves_isSome
      apply foldl_remap_preserves_isSome
      rw [optGetD_set_self (by rw [f1]; exact hvmlen)]
      simp
    · refine ⟨f2, f3, f4, f5, ?_⟩
      rw [optGetD_set_self (by rw [f1]; exact hvmlen)]
      simp
    · refine ⟨f2, f3, f4, f5, ?_⟩
      rw [optGetD_set_self (by rw [f1]; exact hvmlen)]
      simp

/-- Frame of `CNP_Graph::removeNode` on a mapped vertex: the mask gains `v`,
ages and budget are untouched, and the adjacency is the incident-edge erase
fold followed by clearing row `v` — uniformly across the singleton, split and
no-split branches, which only touch components, pairs and the mapping. -/
theorem cnpRemoveNode_frame (c : CnpState) (v : Node) (ci : Nat)
    (hci : c.nodeToComponentIndex.getD v none = some ci) :
    (cnpRemoveNode c v).removedNodes = nsInsert v c.removedNodes
      ∧ (cnpRemoveNode c v).nodeAge = c.nodeAge
      ∧ (cnpRemoveNode c v).numToRemove = c.numToRemove
      ∧ (cnpRemoveNode c v).currentAdjList
        = ((adjAt c.currentAdjList v).foldl
            (fun (a : AdjList) neighbor =>
              a.set neighbor (nsErase v (adjAt a neighbor)))
            c.currentAdjList).set v [] := by
  unfold cnpRemoveNode
  simp only [hci]
  split_ifs with h1 h2
  · refine ⟨?_, ?_, ?_, ?_⟩ <;> trivial
  · rcases hh : ((c.connectedComponents.getD ci ⟨0, []⟩).nodes.filter
        (fun x => x ≠ v)).head? with _ | startNode
    · simp only [hh]
      refine ⟨?_, ?_, ?_, ?_⟩ <;> trivial
    · simp only [hh]
      split_ifs with h3
      · refine ⟨?_, ?_, ?_, ?_⟩ <;> trivial
      · refine ⟨?_, ?_, ?_, ?_⟩ <;> trivial
  · refine ⟨?_, ?_, ?_, ?_⟩ <;> trivial

theorem adjList_ext {a b : AdjList} (hlen : a.length = b.length)
    (h : ∀ w, adjAt a w = adjAt b w) : a = b := by
  apply List.ext_getElem hlen
  intro n h1 h2
  have hw := h n
  unfold adjAt at hw
  rw [List.getD_eq_getElem?_getD, List.getD_eq_getElem?_getD,
    List.getElem?_eq_getElem h1, List.getElem?_eq_getElem h2] at hw
  simpa using hw

/-- **C9 (amended).** Add-then-remove of a removed vertex `v` is *not* the
identity on the whole CNP state (the component storage is permuted, see the
counterexample), but for both engines it does restore the RemovedMask and
leaves the current adjacency, the node ages and the removal budget equal to
the starting state's: the DCNP pair restores them on any state with a sorted
mask containing `v`, and the CNP pair restores them on any state whose mask
is sorted and contains `v`, whose mapping and adjacency tables cover `v`,
whose current adjacency has no entry incident to `v`, and whose original
neighbours of `v` are non-loops covered by the adjacency table. -/
theorem c9_add_remove_restores_mask_and_adjacency :
    (∀ (d : DcnpState) (v : Node), v ∈ d.removedNodes →
        d.removedNodes.Sorted (· < ·) →
        (dcnpRemoveNode (dcnpAddNode d v) v).removedNodes = d.removedNodes
          ∧ (dcnpRemoveNode (dcnpAddNode d v) v).currentAdjList
              = d.currentAdjList
          ∧ (dcnpRemoveNode (dcnpAddNode d v) v).nodeAge = d.nodeAge
          ∧ (dcnpRemoveNode (dcnpAddNode d v) v).numToRemove = d.numToRemove)
      ∧ (∀ (c : CnpState) (v : Node), v ∈ c.removedNodes →
          c.removedNodes.Sorted (· < ·) →
          v < c.nodeToComponentIndex.length →
          v < c.currentAdjList.length →
          adjAt c.currentAdjList v = [] →
          (∀ u, u < c.currentAdjList.length →
            v ∉ adjAt c.currentAdjList u) →
          (∀ u ∈ adjAt c.originalAdjList v, u ≠ v) →
          (∀ u ∈ adjAt c.originalAdjList v, u < c.currentAdjList.length) →
          (cnpRemoveNode (cnpAddNode c v) v).removedNodes = c.removedNodes
            ∧ (cnpRemoveNode (cnpAddNode c v) v).currentAdjList
                = c.currentAdjList
            ∧ (cnpRemoveNode (cnpAddNode c v) v).nodeAge = c.nodeAge
            ∧ (cnpRemoveNode (cnpAddNode c v) v).numToRemove
                = c.numToRemove) := by
  constructor
  · exact fun d v hmem hsorted => dcnp_add_remove_restores d v hmem hsorted
  intro c v hmem hsorted hvm hva hrow hcol hneq hltq
  obtain ⟨a1, a2, a3, a4, a5⟩ := cnpAddNode_frame c v hvm
  obtain ⟨ci, hci⟩ := Option.isSome_iff_exists.mp a5
  obtain ⟨r1, r2, r3, r4⟩ := cnpRemoveNode_frame (cnpAddNode c v) v ci hci
  set L := (adjAt c.originalAdjList v).filter
    (fun u => (c.nodeToComponentIndex.getD u none).isSome) with hLdef
  have hneL : ∀ u ∈ L, u ≠ v := fun u hu =>
    hneq u (List.mem_of_mem_filter hu)
  have hltL : ∀ u ∈ L, u < c.currentAdjList.length := fun u hu =>
    hltq u (List.mem_of_mem_filter hu)
  have hlenA : (cnpAddNode c v).currentAdjList.length
      = c.currentAdjList.length := by
    rw [a4]
    exact insertFold_length v L _
  have hrowA : adjAt (cnpAddNode c v).currentAdjList v
      = L.foldl (fun s u => nsInsert u s) [] := by
    rw [a4, insertFold_at_v v L _ hva hneL, hrow]
  refine ⟨?_, ?_, ?_, ?_⟩
  · rw [r1, a1]
    exact nsInsert_nsErase_of_mem hsorted hmem
  · rw [r4]
    apply adjList_ext
    · rw [List.length_set, eraseFold_length, hlenA]
    intro w
    by_cases hwv : w = v
    · subst hwv
      rw [adjAt_set_self (by rw [eraseFold_length, hlenA]; exact hva), hrow]
    · rw [adjAt_set_ne (fun h => hwv h.symm), eraseFold_at]
      have hmemR : w ∈ adjAt (cnpAddNode c v).currentAdjList v ↔ w ∈ L := by
        rw [hrowA, mem_foldl_nsInsert]
        simp
      have hAatw := insertFold_at_w v w hwv L c.currentAdjList hneL hltL
      by_cases hwL : w ∈ L
      · rw [if_pos ⟨hmemR.mpr hwL, by rw [hlenA]; exact hltL w hwL⟩,
          a4, hAatw, if_pos hwL]
        exact nsErase_nsInsert_of_not_mem (hcol w (hltL w hwL))
      · rw [if_neg (fun h => hwL (hmemR.mp h.1)), a4, hAatw, if_neg hwL]
  · exact r2.trans a2
  · exact r3.trans a3

/-- Witness for the amended C9 at the 3-path with vertex 1 removed: the
mask and adjacency of both engines are restored by add-then-remove. -/
theorem c9_amended_witness :
    (dcnpRemoveNode (dcnpAddNode dcnpPathRemoved1 1) 1).removedNodes
        = dcnpPathRemoved1.removedNodes
      ∧ (cnpRemoveNode (cnpAddNode cnpPathRemoved1 1) 1).currentAdjList
        = cnpPathRemoved1.currentAdjList :=
  ⟨(c9_add_remove_restores_mask_and_adjacency.1 dcnpPathRemoved1 1
      (by decide) (by decide)).1,
    (c9_add_remove_restores_mask_and_adjacency.2 cnpPathRemoved1 1
      (by decide) (by decide) (by decide) (by decide) (by decide)
      (by decide) (by decide) (by decide)).2.1⟩

/-! ## C10: the CBNS and CHNS moves

`CBNSStrategy::performMove` / `CHNSStrategy::performMove` operate on the CNP
engine (the `Graph` dispatcher throws `selectRemovedComponent is only
available for CNP graphs` for a DCNP graph before any move step runs). -/

/-- `RandomNumberGenerator::generateProbability`:
`std::uniform_real_distribution<double>(0, 1)` maps raw engine output onto
`[0, 1)` with 53-bit resolution; modelled exactly over `ℚ` from the abstract
stream. -/
def Rng.generateProbability (r : Rng) : ℚ × Rng :=
  (((r.stream r.pos % 2 ^ 53 : Nat) : ℚ) / 2 ^ 53,
    { r with pos := r.pos + 1 })

/-- `RandomNumberGenerator::generateBool(p)`: next probability draw `< p`. -/
def Rng.generateBool (r : Rng) (p : ℚ) : Bool × Rng :=
  let pr := r.generateProbability
  (decide (pr.1 < p), pr.2)

/-- `CNP_Graph::calculateConnectionGain`: pair delta of re-adding `node`,
from the sizes of the distinct assigned components among its original
neighbours (each counted once via the `componentSizes` scratch). -/
def calculateConnectionGain (st : CnpState) (node : Node) : Int :=
  let scan := (adjAt st.originalAdjList node).foldl
    (fun (acc : List Nat × Int) neighbor =>
      match st.nodeToComponentIndex.getD neighbor none with
      | some compIndex =>
          if acc.1.getD compIndex 0 = 0 then
            let sz := (st.connectedComponents.getD compIndex ⟨0, []⟩).size
            (acc.1.set compIndex sz, acc.2 + (sz : Int))
          else acc
      | none => acc)
    (List.replicate st.connectedComponents.length 0, 1)
  let oldConnectionsSum := scan.1.foldl
    (fun (s : Int) size =>
      if 0 < size then s + ((size : Int) * ((size : Int) - 1)) / 2 else s) 0
  (scan.2 * (scan.2 - 1)) / 2 - oldConnectionsSum

/-- `CNP_Graph::greedySelectNodeToAdd`: over the removed vertices, keep the
candidates of minimum connection gain, tie-broken by the RNG.  The C++
throws when no vertex is removed (`none` here); otherwise it always returns
a removed vertex — never the INVALID sentinel. -/
def greedySelectNodeToAdd (st : CnpState) (r : Rng) : Option (Node × Rng) :=
  match st.removedNodes with
  | [] => none
  | firstNode :: rest =>
      let scan := rest.foldl
        (fun (acc : Int × List Node) currentNode =>
          let connectionGain := calculateConnectionGain st currentNode
          if connectionGain < acc.1 then (connectionGain, [currentNode])
          else if connectionGain = acc.1 then (acc.1, acc.2 ++ [currentNode])
          else acc)
        (calculateConnectionGain st firstNode, [firstNode])
      if scan.2.length = 1 then some (scan.2.getD 0 0, r)
      else
        let draw := r.generateIndex scan.2.length
        some (scan.2.getD draw.1 0, draw.2)

/-- The duplicated largest-component fallback scan of
`selectRemovedComponent` / `selectRemovedLargerComponent`: index and size
of the largest stored component (`(0, 0)` when all are empty, which the
C++ turns into a `no components available` throw). -/
def fallbackLargest (st : CnpState) : Nat × Nat :=
  (List.range st.connectedComponents.length).foldl
    (fun (acc : Nat × Nat) i =>
      let currentSize := (st.connectedComponents.getD i ⟨0, []⟩).size
      if acc.2 < currentSize then (i, currentSize) else acc)
    (0, 0)

/-- Accumulator of the large-component scan in
`CNP_Graph::selectRemovedLargerComponent`. -/
structure LcScan where
  largeComponents : List Nat
  componentSizes : List Nat
  totalNodesInBigComponents : Nat
  maxSize : Nat
  maxIndex : Nat
  secondMaxSize : Nat
  secondMaxIndex : Nat
  deriving Repr

/-- The prefix-sum selection loop ending
`selectRemovedLargerComponent`: first component whose cumulative size
exceeds the drawn index; `none` when the loop falls through (the C++ then
returns `largeComponents.back()`). -/
def prefixPick : List Nat → List Nat → Nat → Nat → Option Nat
  | [], _, _, _ => none
  | _ :: _, [], _, _ => none
  | i :: is, s :: ss, idx, sum =>
      if idx < sum + s then some i else prefixPick is ss idx (sum + s)

/-- The average-size bound of `selectRemovedLargerComponent`:
`max(2, round(totalSize / numComponents))` over the remaining vertices. -/
def lcAvgSize (st : CnpState) : Nat :=
  max 2 (round (((st.numNodes - st.removedNodes.length : Nat) : ℚ)
    / ((st.connectedComponents.length : Nat) : ℚ))).toNat

/-- The large-component scan of `selectRemovedLargerComponent`. -/
def lcScan (st : CnpState) : LcScan :=
  (List.range st.connectedComponents.length).foldl
    (fun (acc : LcScan) i =>
      let currentSize := (st.connectedComponents.getD i ⟨0, []⟩).size
      if lcAvgSize st < currentSize then
        let acc1 := { acc with
          largeComponents := acc.largeComponents ++ [i],
          componentSizes := acc.componentSizes ++ [currentSize],
          totalNodesInBigComponents :=
            acc.totalNodesInBigComponents + currentSize }
        if acc1.maxSize < currentSize then
          { acc1 with
            secondMaxSize := acc1.maxSize, secondMaxIndex := acc1.maxIndex,
            maxSize := currentSize, maxIndex := i }
        else if acc1.secondMaxSize < currentSize then
          { acc1 with secondMaxSize := currentSize, secondMaxIndex := i }
        else acc1
      else acc)
    ⟨[], [], 0, 0, 0, 0, 0⟩

/-- `CNP_Graph::selectRemovedLargerComponent` (taken when there are more
than 50 components): a size-weighted choice among the components larger
than the average remaining component size, with a coin between the two
largest when only one qualifies and a largest-component fallback; float
arithmetic is modelled exactly over `ℚ`. -/
def selectRemovedLargerComponent (st : CnpState) (r : Rng) :
    Option (Nat × Rng) :=
  match (lcScan st).largeComponents with
  | [] =>
      let fb := fallbackLargest st
      if fb.2 = 0 then none else some (fb.1, r)
  | lc0 :: lcrest =>
      if lcrest.length = 0 then
        let coin := r.generateBool (1 / 2)
        some (if coin.1 then (lcScan st).secondMaxIndex else lc0, coin.2)
      else
        let draw := r.generateIndex (lcScan st).totalNodesInBigComponents
        some ((prefixPick (lc0 :: lcrest) (lcScan st).componentSizes
            draw.1 0).getD
          ((lc0 :: lcrest).getLast (List.cons_ne_nil _ _)), draw.2)

/-- The min/max sizes (over components of size `> 2`) sampled by
`selectRemovedComponent`; `minSize` starts at `numNodes_`, `maxSize` at 0. -/
def srcMinMax (st : CnpState) : Int × Int :=
  (List.range st.connectedComponents.length).foldl
    (fun (acc : Int × Int) i =>
      let size := (st.connectedComponents.getD i ⟨0, []⟩).size
      if 2 < size then (min acc.1 (size : Int), max acc.2 (size : Int))
      else acc)
    ((st.numNodes : Int), 0)

/-- The components at least as large as the randomized size threshold
`maxSize - (maxSize - minSize)*0.5 - generateIndex(3)` (float arithmetic
modelled exactly over `ℚ`). -/
def srcLarge (st : CnpState) (d3 : Nat) : List Nat :=
  (List.range st.connectedComponents.length).filter
    (fun i =>
      ((srcMinMax st).2 : ℚ) - (((srcMinMax st).2 : ℚ)
          - ((srcMinMax st).1 : ℚ)) * (1 / 2) - (d3 : ℚ)
        ≤ ((st.connectedComponents.getD i ⟨0, []⟩).size : ℚ))

/-- `CNP_Graph::selectRemovedComponent`: with at most 50 components, a
uniform choice among the components at least as large as a randomized
threshold between the extreme sizes (only components of size `> 2` shape
the extremes), falling back to a largest component; `none` models the
`no components available` throw. -/
def selectRemovedComponent (st : CnpState) (r : Rng) : Option (Nat × Rng) :=
  if 50 < st.connectedComponents.length then
    selectRemovedLargerComponent st r
  else
    let draw := r.generateIndex 3
    match srcLarge st draw.1 with
    | [] =>
        let fb := fallbackLargest st
        if fb.2 = 0 then none else some (fb.1, draw.2)
    | lc0 :: lcrest =>
        let draw2 := draw.2.generateIndex (lc0 :: lcrest).length
        some ((lc0 :: lcrest).getD draw2.1 0, draw2.2)

/-- `CNP_Graph::ageSelectNodeFromComponent`: minimum-age member(s) of the
component (scanned by index up to the stored `size`), tie-broken by the
RNG; `none` models the empty-component throw. -/
def ageSelectNodeFromComponent (st : CnpState) (componentIndex : Nat)
    (r : Rng) : Option (Node × Rng) :=
  let component := st.connectedComponents.getD componentIndex ⟨0, []⟩
  if component.size = 0 then none
  else
    let firstNode := component.nodes.getD 0 0
    let scan := ((List.range component.size).drop 1).foldl
      (fun (acc : Int × List Node) i =>
        let currentNode := component.nodes.getD i 0
        let age := st.nodeAge.getD currentNode 0
        if age < acc.1 then (age, [currentNode])
        else if age = acc.1 then (acc.1, acc.2 ++ [currentNode])
        else acc)
      (st.nodeAge.getD firstNode 0, [firstNode])
    if scan.2.length = 1 then some (scan.2.getD 0 0, r)
    else
      let draw := r.generateIndex scan.2.length
      some (scan.2.getD draw.1 0, draw.2)

/-- Scratch state of `CNP_Graph::tarjanInComponent`; indices are 1-based
within the component (entry 0 unused), `nodeRoot_` is always 1. -/
structure TarjanState where
  dfn : List Int
  lowVec : List Int
  stSizeVec : List Int
  cutSizeVec : List Int
  impactVec : List Int
  flagVec : List Int
  isCutVec : List Bool
  timeStamp : Int
  deriving Repr

/-- `lowVec_[nodeIdx] = min(...)` plus the `dfn_[nodeIdx] < dfn_[neighborIdx]`
subtree-size accumulation of `tarjanInComponent` after a recursive call. -/
def tarjanLink (nodeIdx neighborIdx : Nat) (ts2 : TarjanState) : TarjanState :=
  if ts2.dfn.getD nodeIdx 0 < ts2.dfn.getD neighborIdx 0 then
    { ts2 with stSizeVec := (ts2.stSizeVec.set nodeIdx
      (ts2.stSizeVec.getD nodeIdx 0 + ts2.stSizeVec.getD neighborIdx 0)) }
  else ts2

/-- The `lowVec_[neighborIdx] >= dfn_[nodeIdx]` cut-vertex bookkeeping of
`tarjanInComponent` (`nodeRoot_` is always 1). -/
def tarjanCut (nodeIdx neighborIdx : Nat) (ts3 : TarjanState) : TarjanState :=
  if ts3.dfn.getD nodeIdx 0 ≤ ts3.lowVec.getD neighborIdx 0 then
    let ts4 := { ts3 with flagVec := (ts3.flagVec.set nodeIdx
      (ts3.flagVec.getD nodeIdx 0 + 1)) }
    if nodeIdx ≠ 1 then
      { ts4 with
        isCutVec := ts4.isCutVec.set nodeIdx true,
        cutSizeVec := (ts4.cutSizeVec.set nodeIdx
          (ts4.cutSizeVec.getD nodeIdx 0
            + ts4.stSizeVec.getD neighborIdx 0)),
        impactVec := (ts4.impactVec.set nodeIdx
          (ts4.impactVec.getD nodeIdx 0
            + (ts4.stSizeVec.getD neighborIdx 0
                * (ts4.stSizeVec.getD neighborIdx 0 - 1)) / 2)) }
    else if 1 < ts4.flagVec.getD nodeIdx 0 then
      { ts4 with isCutVec := ts4.isCutVec.set nodeIdx true }
    else ts4
  else ts3

/-- The body of `CNP_Graph::tarjanInComponent` for one component member,
with `recur` standing for the recursive call (tied by fuel below): the
articulation-point DFS accumulating subtree sizes, cut flags and split
impacts. -/
def tarjanStep (st : CnpState) (compIndex : Nat) (nodeToIdx : List Int)
    (recur : Nat → TarjanState → TarjanState) (nodeIdx : Nat)
    (ts0 : TarjanState) : TarjanState :=
  let ts1 := { ts0 with
    timeStamp := ts0.timeStamp + 1,
    dfn := ts0.dfn.set nodeIdx (ts0.timeStamp + 1),
    lowVec := ts0.lowVec.set nodeIdx (ts0.timeStamp + 1) }
  let nodeId := (st.connectedComponents.getD compIndex ⟨0, []⟩).nodes.getD
    (nodeIdx - 1) 0
  (adjAt st.currentAdjList nodeId).foldl
    (fun ts neighbor =>
      if nsMem neighbor st.removedNodes = false
          ∧ st.nodeToComponentIndex.getD neighbor none = some compIndex
      then
        let neighborIdx := (nodeToIdx.getD neighbor (-1) + 1).toNat
        if ts.dfn.getD neighborIdx 0 = 0 then
          let tsr := recur neighborIdx ts
          let ts2 := { tsr with lowVec := (tsr.lowVec.set nodeIdx
            (min (tsr.lowVec.getD nodeIdx 0)
              (tsr.lowVec.getD neighborIdx 0))) }
          tarjanCut nodeIdx neighborIdx (tarjanLink nodeIdx neighborIdx ts2)
        else
          { ts with lowVec := (ts.lowVec.set nodeIdx
            (min (ts.lowVec.getD nodeIdx 0)
              (ts.dfn.getD neighborIdx 0))) }
      else ts)
    ts1

/-- `CNP_Graph::tarjanInComponent` with explicit recursion fuel (the C++
recursion depth is bounded by the component size). -/
def tarjanInComponent (st : CnpState) (compIndex : Nat)
    (nodeToIdx : List Int) : Nat → Nat → TarjanState → TarjanState
  | 0 => fun _ ts => ts
  | fuel + 1 => tarjanStep st compIndex nodeToIdx
      (tarjanInComponent st compIndex nodeToIdx fuel)

/-- The scratch produced by running `tarjanInComponent` from the component's
first member (`nodeRoot_ = 1`), as `impactSelectNodeFromComponent` sets it
up: `nodeToIdx` maps members to 0-based indices, all vectors sized
`size + 1`. -/
def impactTarjan (st : CnpState) (componentIndex : Nat) : TarjanState :=
  let component := st.connectedComponents.getD componentIndex ⟨0, []⟩
  let nodeToIdx := (List.range component.size).foldl
    (fun (m : List Int) i => m.set (component.nodes.getD i 0) (i : Int))
    (List.replicate st.numNodes (-1))
  let ts0 : TarjanState :=
    { dfn := List.replicate (component.size + 1) 0,
      lowVec := List.replicate (component.size + 1) 0,
      stSizeVec := List.replicate (component.size + 1) 1,
      cutSizeVec := List.replicate (component.size + 1) 1,
      impactVec := List.replicate (component.size + 1) 0,
      flagVec := List.replicate (component.size + 1) 0,
      isCutVec := List.replicate (component.size + 1) false,
      timeStamp := 0 }
  tarjanInComponent st componentIndex nodeToIdx (component.size + 1) 1 ts0

/-- The final impact of member `i` (1-based) in
`impactSelectNodeFromComponent`: the accumulated split impact plus the
remainder-piece pairs (cut vertices) or the whole-rest pairs. -/
def impactOf (st : CnpState) (componentIndex : Nat) (i : Nat) : Int :=
  (impactTarjan st componentIndex).impactVec.getD i 0
    + (if (impactTarjan st componentIndex).isCutVec.getD i false then
        (((impactTarjan st componentIndex).timeStamp
            - (impactTarjan st componentIndex).cutSizeVec.getD i 0)
          * ((impactTarjan st componentIndex).timeStamp
            - (impactTarjan st componentIndex).cutSizeVec.getD i 0 - 1)) / 2
      else (((impactTarjan st componentIndex).timeStamp - 1)
        * ((impactTarjan st componentIndex).timeStamp - 2)) / 2)

/-- `CNP_Graph::impactSelectNodeFromComponent`: run the cut-vertex DFS from
the component's first member and keep the members of minimum split impact,
tie-broken by the RNG; the `INT_MAX` floor of the final scan is modelled as
`none`, and `none` overall models the empty-component throw. -/
def impactSelectNodeFromComponent (st : CnpState) (componentIndex : Nat)
    (r : Rng) : Option (Node × Rng) :=
  let component := st.connectedComponents.getD componentIndex ⟨0, []⟩
  if component.size = 0 then none
  else
    let scan := ((List.range component.size).map (fun i => i + 1)).foldl
      (fun (acc : Option Int × List Node) i =>
        match acc.1 with
        | none => (some (impactOf st componentIndex i),
            [component.nodes.getD (i - 1) 0])
        | some minImpact =>
            if impactOf st componentIndex i < minImpact then
              (some (impactOf st componentIndex i),
                [component.nodes.getD (i - 1) 0])
            else if impactOf st componentIndex i = minImpact then
              (acc.1, acc.2 ++ [component.nodes.getD (i - 1) 0])
            else acc)
      (none, [])
    if scan.2.length = 1 then some (scan.2.getD 0 0, r)
    else
      let draw := r.generateIndex scan.2.length
      some (scan.2.getD draw.1 0, draw.2)

/-- `Graph::setNodeAge` (CNP dispatch): `nodeAge_[node] = age`. -/
def setNodeAge (st : CnpState) (node : Node) (age : Int) : CnpState :=
  { st with nodeAge := st.nodeAge.set node age }

/-- `CNP_Graph::getObjectiveValue`: the cached pair count. -/
def cnpGetObjectiveValue (st : CnpState) : Int := st.connectedPairs

/-- `CBNSStrategy::performMove`: pick a component, evict its minimum-age
member, then greedily re-add the cheapest removed vertex.  The C++
`nodeToAdd != INVALID_NODE` guard is always taken, since
`greedySelectNodeToAdd` either throws or returns a removed vertex; `none`
propagates the selection throws. -/
def cbnsPerformMove (st : CnpState) (numSteps : Int) (r : Rng) :
    Option (CnpState × Int × Rng) :=
  match selectRemovedComponent st r with
  | none => none
  | some (componentToRemove, r1) =>
      match ageSelectNodeFromComponent st componentToRemove r1 with
      | none => none
      | some (nodeToRemove, r2) =>
          let st1 := setNodeAge (cnpRemoveNode st nodeToRemove) nodeToRemove
            numSteps
          match greedySelectNodeToAdd st1 r2 with
          | none => none
          | some (nodeToAdd, r3) =>
              let st2 := setNodeAge (cnpAddNode st1 nodeToAdd) nodeToAdd
                numSteps
              some (st2, cnpGetObjectiveValue st2, r3)

/-- `CHNSStrategy::performMove`: as CBNS, but the evicted member is chosen
by split impact with probability `θ` and by age otherwise. -/
def chnsPerformMove (st : CnpState) (theta : ℚ) (numSteps : Int) (r : Rng) :
    Option (CnpState × Int × Rng) :=
  match selectRemovedComponent st r with
  | none => none
  | some (componentToRemove, r1) =>
      let coin := r1.generateProbability
      match (if coin.1 < theta then
          impactSelectNodeFromComponent st componentToRemove coin.2
        else ageSelectNodeFromComponent st componentToRemove coin.2) with
      | none => none
      | some (nodeToRemove, r2) =>
          let st1 := setNodeAge (cnpRemoveNode st nodeToRemove) nodeToRemove
            numSteps
          match greedySelectNodeToAdd st1 r2 with
          | none => none
          | some (nodeToAdd, r3) =>
              let st2 := setNodeAge (cnpAddNode st1 nodeToAdd) nodeToAdd
                numSteps
              some (st2, cnpGetObjectiveValue st2, r3)

/-! ### Mask-cardinality toolkit for C10 -/

theorem nsInsert_sorted {v : Node} :
    ∀ {s : NodeSet}, s.Sorted (· < ·) → (nsInsert v s).Sorted (· < ·) := by
  intro s
  induction s with
  | nil => intro _; simp [nsInsert]
  | cons u rest ih =>
      intro hsorted
      by_cases h1 : v < u
      · simp only [nsInsert, if_pos h1]
        refine List.sorted_cons.mpr ⟨?_, hsorted⟩
        intro b hb
        rcases List.mem_cons.mp hb with rfl | hb'
        · exact h1
        · exact Nat.lt_trans h1 ((List.sorted_cons.mp hsorted).1 b hb')
      · by_cases h2 : v = u
        · simp only [nsInsert, if_neg h1, if_pos h2]
          exact hsorted
        · simp only [nsInsert, if_neg h1, if_neg h2]
          have huv : u < v :=
            Nat.lt_of_le_of_ne (Nat.le_of_not_lt h1) (fun h => h2 h.symm)
          refine List.sorted_cons.mpr
            ⟨?_, ih (List.sorted_cons.mp hsorted).2⟩
          intro b hb
          rcases mem_nsInsert.mp hb with rfl | hb'
          · exact huv
          · exact (List.sorted_cons.mp hsorted).1 b hb'

theorem nsInsert_length_of_not_mem {v : Node} :
    ∀ {s : NodeSet}, v ∉ s → (nsInsert v s).length = s.length + 1 := by
  intro s
  induction s with
  | nil => intro _; rfl
  | cons u rest ih =>
      intro hv
      have h2 : v ≠ u := fun h => hv (h ▸ List.mem_cons_self _ _)
      by_cases h1 : v < u
      · simp [nsInsert, h1]
      · simp only [nsInsert, if_neg h1, if_neg h2, List.length_cons]
        rw [ih (fun h => hv (List.mem_cons_of_mem _ h))]

theorem nsErase_length_of_mem {v : Node} :
    ∀ {s : NodeSet}, s.Sorted (· < ·) → v ∈ s →
      (nsErase v s).length + 1 = s.length := by
  intro s
  induction s with
  | nil => intro _ hv; simp at hv
  | cons u rest ih =>
      intro hsorted hv
      rcases List.mem_cons.mp hv with rfl | hv'
      · have hrest : nsErase v rest = rest := by
          unfold nsErase
          rw [List.filter_eq_self]
          intro b hb
          have := (List.sorted_cons.mp hsorted).1 b hb
          simpa using (Nat.ne_of_lt this).symm
        unfold nsErase
        rw [List.filter_cons]
        simp [hrest]
        intro b hb
        exact Ne.symm (Nat.ne_of_lt ((List.sorted_cons.mp hsorted).1 b hb))
      · have huv : u < v := (List.sorted_cons.mp hsorted).1 v hv'
        have hne : u ≠ v := Nat.ne_of_lt huv
        unfold nsErase
        rw [List.filter_cons]
        simp only [hne, decide_eq_true_eq, if_pos, ne_eq,
          not_false_eq_true, List.length_cons]
        rw [← ih (List.sorted_cons.mp hsorted).2 hv']
        rfl

theorem nsInsert_ne_nil {v : Node} (s : NodeSet) : nsInsert v s ≠ [] := by
  cases s with
  | nil => simp [nsInsert]
  | cons u rest =>
      unfold nsInsert
      split_ifs <;> simp

theorem rngGenerateIndex_lt (r : Rng) {max : Nat} (h : 0 < max) :
    (r.generateIndex max).1 < max := by
  unfold Rng.generateIndex
  rw [if_neg (Nat.pos_iff_ne_zero.mp h)]
  exact Nat.mod_lt _ h

theorem getD_mem_of_lt {α : Type} {l : List α} {n : Nat} {d : α}
    (h : n < l.length) : l.getD n d ∈ l := by
  rw [List.getD_eq_getElem?_getD, List.getElem?_eq_getElem h]
  exact List.getElem_mem h

theorem getD_of_length_le {α : Type} {l : List α} {n : Nat} {d : α}
    (h : l.length ≤ n) : l.getD n d = d := by
  rw [List.getD_eq_getElem?_getD, List.getElem?_eq_none (by simpa using h)]
  rfl

/-- The shared tail of the four candidate selectors: a lone candidate is
returned directly, otherwise the RNG picks one — always a member. -/
theorem pick_mem (cands : List Node) (r : Rng) (hne : cands ≠ [])
    (w : Node) (r' : Rng)
    (h : (if cands.length = 1 then some (cands.getD 0 0, r)
        else some (cands.getD (r.generateIndex cands.length).1 0,
          (r.generateIndex cands.length).2)) = some (w, r')) :
    w ∈ cands := by
  have hpos : 0 < cands.length := List.length_pos.mpr hne
  by_cases hl : cands.length = 1
  · rw [if_pos hl] at h
    obtain ⟨h1, _⟩ := Prod.mk.injEq .. ▸ Option.some.inj h
    exact h1 ▸ getD_mem_of_lt hpos
  · rw [if_neg hl] at h
    obtain ⟨h1, _⟩ := Prod.mk.injEq .. ▸ Option.some.inj h
    exact h1 ▸ getD_mem_of_lt (rngGenerateIndex_lt r hpos)

theorem pick_isSome (cands : List Node) (r : Rng) :
    (if cands.length = 1 then some (cands.getD 0 0, r)
      else some (cands.getD (r.generateIndex cands.length).1 0,
        (r.generateIndex cands.length).2)).isSome = true := by
  split_ifs <;> rfl

/-- The min-key-with-ties scan shared by `greedySelectNodeToAdd` and
`ageSelectNodeFromComponent`: candidates stay inside `P` and never die. -/
theorem minScanInt_candidates {α : Type} (keyOf : α → Int)
    (nodeOf : α → Node) (P : Node → Prop) :
    ∀ (l : List α) (acc : Int × List Node),
      (∀ x ∈ acc.2, P x) → (∀ a ∈ l, P (nodeOf a)) → acc.2 ≠ [] →
      (∀ x ∈ (l.foldl (fun acc a =>
          if keyOf a < acc.1 then (keyOf a, [nodeOf a])
          else if keyOf a = acc.1 then (acc.1, acc.2 ++ [nodeOf a])
          else acc) acc).2, P x)
        ∧ (l.foldl (fun acc a =>
          if keyOf a < acc.1 then (keyOf a, [nodeOf a])
          else if keyOf a = acc.1 then (acc.1, acc.2 ++ [nodeOf a])
          else acc) acc).2 ≠ [] := by
  intro l
  induction l with
  | nil => intro acc h1 _ h3; exact ⟨h1, h3⟩
  | cons a rest ih =>
      intro acc h1 h2 h3
      rw [List.foldl_cons]
      have h2' : ∀ b ∈ rest, P (nodeOf b) :=
        fun b hb => h2 b (List.mem_cons_of_mem _ hb)
      split_ifs with hc1 hc2
      · refine ih _ ?_ h2' (by simp)
        intro x hx
        rw [List.mem_singleton.mp hx]
        exact h2 a (List.mem_cons_self _ _)
      · refine ih _ ?_ h2' (by simp)
        intro x hx
        rcases List.mem_append.mp hx with hx' | hx'
        · exact h1 x hx'
        · rw [List.mem_singleton.mp hx']
          exact h2 a (List.mem_cons_self _ _)
      · exact ih _ h1 h2' h3

/-- As `minScanInt_candidates` for `impactSelectNodeFromComponent`, whose
`INT_MAX` floor is the `none` of an `Option Int` accumulator. -/
theorem minScanOpt_candidates {α : Type} (keyOf : α → Int)
    (nodeOf : α → Node) (P : Node → Prop) :
    ∀ (l : List α) (acc : Option Int × List Node),
      (∀ x ∈ acc.2, P x) → (∀ a ∈ l, P (nodeOf a)) →
      (acc.1 ≠ none → acc.2 ≠ []) →
      (∀ x ∈ (l.foldl (fun acc a =>
          match acc.1 with
          | none => (some (keyOf a), [nodeOf a])
          | some m =>
              if keyOf a < m then (some (keyOf a), [nodeOf a])
              else if keyOf a = m then (acc.1, acc.2 ++ [nodeOf a])
              else acc) acc).2, P x)
        ∧ ((l.foldl (fun acc a =>
          match acc.1 with
          | none => (some (keyOf a), [nodeOf a])
          | some m =>
              if keyOf a < m then (some (keyOf a), [nodeOf a])
              else if keyOf a = m then (acc.1, acc.2 ++ [nodeOf a])
              else acc) acc).1 ≠ none → (l.foldl (fun acc a =>
          match acc.1 with
          | none => (some (keyOf a), [nodeOf a])
          | some m =>
              if keyOf a < m then (some (keyOf a), [nodeOf a])
              else if keyOf a = m then (acc.1, acc.2 ++ [nodeOf a])
              else acc) acc).2 ≠ [])
        ∧ (l ≠ [] ∨ acc.1 ≠ none → (l.foldl (fun acc a =>
          match acc.1 with
          | none => (some (keyOf a), [nodeOf a])
          | some m =>
              if keyOf a < m then (some (keyOf a), [nodeOf a])
              else if keyOf a = m then (acc.1, acc.2 ++ [nodeOf a])
              else acc) acc).1 ≠ none) := by
  intro l
  induction l with
  | nil =>
      intro acc h1 _ h3
      refine ⟨h1, h3, ?_⟩
      intro h
      rcases h with h | h
      · exact absurd rfl h
      · exact h
  | cons a rest ih =>
      intro acc h1 h2 h3
      rw [List.foldl_cons]
      have h2' : ∀ b ∈ rest, P (nodeOf b) :=
        fun b hb => h2 b (List.mem_cons_of_mem _ hb)
      have hstep : ∀ acc' : Option Int × List Node,
          (∀ x ∈ acc'.2, P x) → (acc'.1 ≠ none → acc'.2 ≠ []) →
          ((match acc'.1 with
            | none => (some (keyOf a), [nodeOf a])
            | some m =>
                if keyOf a < m then (some (keyOf a), [nodeOf a])
                else if keyOf a = m then (acc'.1, acc'.2 ++ [nodeOf a])
                else acc') : Option Int × List Node).1 ≠ none
            ∧ (∀ x ∈ (match acc'.1 with
              | none => (some (keyOf a), [nodeOf a])
              | some m =>
                  if keyOf a < m then (some (keyOf a), [nodeOf a])
                  else if keyOf a = m then (acc'.1, acc'.2 ++ [nodeOf a])
                  else acc' : Option Int × List Node).2, P x)
            ∧ ((match acc'.1 with
              | none => (some (keyOf a), [nodeOf a])
              | some m =>
                  if keyOf a < m then (some (keyOf a), [nodeOf a])
                  else if keyOf a = m then (acc'.1, acc'.2 ++ [nodeOf a])
                  else acc' : Option Int × List Node).2 ≠ []) := by
        intro acc' g1 g2
        rcases hfst : acc'.1 with _ | m
        · simp only [hfst]
          refine ⟨by simp, ?_, by simp⟩
          intro x hx
          rw [List.mem_singleton.mp hx]
          exact h2 a (List.mem_cons_self _ _)
        · simp only [hfst]
          split_ifs with hc1 hc2
          · refine ⟨by simp, ?_, by simp⟩
            intro x hx
            rw [List.mem_singleton.mp hx]
            exact h2 a (List.mem_cons_self _ _)
          · refine ⟨by simp, ?_, by simp⟩
            intro x hx
            rcases List.mem_append.mp hx with hx' | hx'
            · exact g1 x hx'
            · rw [List.mem_singleton.mp hx']
              exact h2 a (List.mem_cons_self _ _)
          · exact ⟨by rw [hfst]; simp, g1, g2 (by rw [hfst]; simp)⟩
      obtain ⟨s1, s2, s3⟩ := hstep acc h1 h3
      obtain ⟨i1, i2, i3⟩ := ih _ s2 h2' (fun _ => s3)
      refine ⟨i1, i2, fun _ => i3 (Or.inr s1)⟩

/-- `CNP_Graph::addNode` erases the vertex from the RemovedMask in every
branch (no other mask write occurs). -/
theorem cnpAddNode_mask (c : CnpState) (v : Node) :
    (cnpAddNode c v).removedNodes = nsErase v c.removedNodes := by
  obtain ⟨f1, f2, f3, f4, f5⟩ := cnpAddFold_characterise v
    (adjAt c.originalAdjList v)
    { c with removedNodes := nsErase v c.removedNodes } none
  unfold cnpAddNode
  rcases hsnd : ((adjAt c.originalAdjList v).foldl
      (fun (acc : CnpState × Option Nat) neighbor =>
        match acc.1.nodeToComponentIndex.getD neighbor none with
        | some cIdx =>
            ({ acc.1 with currentAdjList :=
                adjInsertEdge acc.1.currentAdjList v neighbor },
              if acc.2 = none then some cIdx else acc.2)
        | none => acc)
      ({ c with removedNodes := nsErase v c.removedNodes }, none)).2
    with _ | ci
  · simp only [hsnd]
    exact f2
  · simp only [hsnd]
    split_ifs with h1 h2
    · exact f2
    · exact f2
    · exact f2

theorem foldl_argmax_lt (n : Nat) (g : Nat → Nat) :
    ∀ (l : List Nat) (acc : Nat × Nat), (∀ i ∈ l, i < n) →
      (acc.2 ≠ 0 → acc.1 < n) →
      ((l.foldl (fun acc i => if acc.2 < g i then (i, g i) else acc)
          acc).2 ≠ 0 →
        (l.foldl (fun acc i => if acc.2 < g i then (i, g i) else acc)
          acc).1 < n) := by
  intro l
  induction l with
  | nil => intro acc _ h2; exact h2
  | cons i rest ih =>
      intro acc h1 h2
      rw [List.foldl_cons]
      refine ih _ (fun j hj => h1 j (List.mem_cons_of_mem _ hj)) ?_
      split_ifs with hc
      · intro _
        exact h1 i (List.mem_cons_self _ _)
      · exact h2

theorem fallbackLargest_lt (st : CnpState)
    (h : (fallbackLargest st).2 ≠ 0) :
    (fallbackLargest st).1 < st.connectedComponents.length :=
  foldl_argmax_lt st.connectedComponents.length
    (fun i => (st.connectedComponents.getD i ⟨0, []⟩).size)
    (List.range st.connectedComponents.length) (0, 0)
    (fun i hi => List.mem_range.mp hi)
    (fun h0 => absurd rfl h0) h

theorem lcScanFold_inv (n avg : Nat) (g : Nat → Nat) :
    ∀ (l : List Nat) (acc : LcScan), (∀ i ∈ l, i < n) →
      (∀ j ∈ acc.largeComponents, j < n) →
      (0 < n → acc.maxIndex < n) → (0 < n → acc.secondMaxIndex < n) →
      (∀ j ∈ (l.foldl (fun (acc : LcScan) i =>
          if avg < g i then
            if acc.maxSize < g i then
              ⟨acc.largeComponents ++ [i], acc.componentSizes ++ [g i],
                acc.totalNodesInBigComponents + g i, g i, i,
                acc.maxSize, acc.maxIndex⟩
            else if acc.secondMaxSize < g i then
              ⟨acc.largeComponents ++ [i], acc.componentSizes ++ [g i],
                acc.totalNodesInBigComponents + g i, acc.maxSize,
                acc.maxIndex, g i, i⟩
            else
              ⟨acc.largeComponents ++ [i], acc.componentSizes ++ [g i],
                acc.totalNodesInBigComponents + g i, acc.maxSize,
                acc.maxIndex, acc.secondMaxSize, acc.secondMaxIndex⟩
          else acc) acc).largeComponents, j < n)
        ∧ (0 < n → (l.foldl (fun (acc : LcScan) i =>
          if avg < g i then
            if acc.maxSize < g i then
              ⟨acc.largeComponents ++ [i], acc.componentSizes ++ [g i],
                acc.totalNodesInBigComponents + g i, g i, i,
                acc.maxSize, acc.maxIndex⟩
            else if acc.secondMaxSize < g i then
              ⟨acc.largeComponents ++ [i], acc.componentSizes ++ [g i],
                acc.totalNodesInBigComponents + g i, acc.maxSize,
                acc.maxIndex, g i, i⟩
            else
              ⟨acc.largeComponents ++ [i], acc.componentSizes ++ [g i],
                acc.totalNodesInBigComponents + g i, acc.maxSize,
                acc.maxIndex, acc.secondMaxSize, acc.secondMaxIndex⟩
          else acc) acc).maxIndex < n)
        ∧ (0 < n → (l.foldl (fun (acc : LcScan) i =>
          if avg < g i then
            if acc.maxSize < g i then
              ⟨acc.largeComponents ++ [i], acc.componentSizes ++ [g i],
                acc.totalNodesInBigComponents + g i, g i, i,
                acc.maxSize, acc.maxIndex⟩
            else if acc.secondMaxSize < g i then
              ⟨acc.largeComponents ++ [i], acc.componentSizes ++ [g i],
                acc.totalNodesInBigComponents + g i, acc.maxSize,
                acc.maxIndex, g i, i⟩
            else
              ⟨acc.largeComponents ++ [i], acc.componentSizes ++ [g i],
                acc.totalNodesInBigComponents + g i, acc.maxSize,
                acc.maxIndex, acc.secondMaxSize, acc.secondMaxIndex⟩
          else acc) acc).secondMaxIndex < n) := by
  intro l
  induction l with
  | nil => intro acc h1 h2 h3 h4; exact ⟨h2, h3, h4⟩
  | cons i rest ih =>
      intro acc h1 h2 h3 h4
      rw [List.foldl_cons]
      have h1' : ∀ j ∈ rest, j < n :=
        fun j hj => h1 j (List.mem_cons_of_mem _ hj)
      have hi : i < n := h1 i (List.mem_cons_self _ _)
      have happ : ∀ j ∈ acc.largeComponents ++ [i], j < n := by
        intro j hj
        rcases List.mem_append.mp hj with hj' | hj'
        · exact h2 j hj'
        · rw [List.mem_singleton.mp hj']
          exact hi
      split_ifs with hc1 hc2 hc3
      · exact ih _ h1' happ (fun _ => hi) h3
      · exact ih _ h1' happ h3 (fun _ => hi)
      · exact ih _ h1' happ h3 h4
      · exact ih _ h1' h2 h3 h4

/-- The `lcScan` invariants instantiated: all recorded indices are in
range. -/
theorem lcScan_indices_lt (st : CnpState) :
    (∀ j ∈ (lcScan st).largeComponents,
        j < st.connectedComponents.length)
      ∧ (0 < st.connectedComponents.length →
          (lcScan st).maxIndex < st.connectedComponents.length)
      ∧ (0 < st.connectedComponents.length →
          (lcScan st).secondMaxIndex < st.connectedComponents.length) :=
  lcScanFold_inv st.connectedComponents.length (lcAvgSize st)
    (fun i => (st.connectedComponents.getD i ⟨0, []⟩).size)
    (List.range st.connectedComponents.length) ⟨[], [], 0, 0, 0, 0, 0⟩
    (fun i hi => List.mem_range.mp hi)
    (by intro j hj; simp at hj)
    (fun h => h)
    (fun h => h)

theorem prefixPick_mem :
    ∀ (l s : List Nat) (idx sum x : Nat),
      prefixPick l s idx sum = some x → x ∈ l := by
  intro l
  induction l with
  | nil => intro s idx sum x h; simp [prefixPick] at h
  | cons i is ih =>
      intro s idx sum x h
      cases s with
      | nil => simp [prefixPick] at h
      | cons s0 ss =>
          unfold prefixPick at h
          by_cases hc : idx < sum + s0
          · rw [if_pos hc] at h
            rw [← Option.some.inj h]
            exact List.mem_cons_self _ _
          · rw [if_neg hc] at h
            exact List.mem_cons_of_mem _ (ih ss idx (sum + s0) x h)

theorem selectRemovedLargerComponent_lt (st : CnpState) (r : Rng)
    (ci : Nat) (r1 : Rng)
    (h : selectRemovedLargerComponent st r = some (ci, r1)) :
    ci < st.connectedComponents.length := by
  obtain ⟨inv1, _, inv3⟩ := lcScan_indices_lt st
  unfold selectRemovedLargerComponent at h
  split at h
  · rename_i heq
    have h' : (if (fallbackLargest st).2 = 0 then none
        else some ((fallbackLargest st).1, r)) = some (ci, r1) := h
    split_ifs at h' with hfb
    obtain ⟨h1, _⟩ := Prod.mk.injEq .. ▸ Option.some.inj h'
    exact h1 ▸ fallbackLargest_lt st hfb
  · rename_i lc0 lcrest heq
    have hlc0 : lc0 < st.connectedComponents.length :=
      inv1 lc0 (heq ▸ List.mem_cons_self _ _)
    have hn : 0 < st.connectedComponents.length :=
      Nat.lt_of_le_of_lt (Nat.zero_le _) hlc0
    split_ifs at h with hlen
    · obtain ⟨h1, _⟩ := Prod.mk.injEq .. ▸ Option.some.inj h
      rw [← h1]
      by_cases hcoin : (r.generateBool (1 / 2)).1
      · rw [if_pos hcoin]
        exact inv3 hn
      · rw [if_neg hcoin]
        exact hlc0
    · obtain ⟨h1, _⟩ := Prod.mk.injEq .. ▸ Option.some.inj h
      rw [← h1]
      rcases hpp : prefixPick (lc0 :: lcrest) (lcScan st).componentSizes
          (r.generateIndex (lcScan st).totalNodesInBigComponents).1 0
        with _ | x
      · rw [Option.getD_none]
        exact inv1 _ (by rw [heq]
                         exact List.getLast_mem (List.cons_ne_nil lc0 lcrest))
      · rw [Option.getD_some]
        exact inv1 x (by rw [heq]; exact prefixPick_mem _ _ _ _ x hpp)

theorem selectRemovedComponent_lt (st : CnpState) (r : Rng)
    (ci : Nat) (r1 : Rng)
    (h : selectRemovedComponent st r = some (ci, r1)) :
    ci < st.connectedComponents.length := by
  unfold selectRemovedComponent at h
  split_ifs at h with h50
  · exact selectRemovedLargerComponent_lt st r ci r1 h
  · have h' : (match srcLarge st (r.generateIndex 3).1 with
        | [] =>
            if (fallbackLargest st).2 = 0 then none
            else some ((fallbackLargest st).1, (r.generateIndex 3).2)
        | lc0 :: lcrest =>
            some ((lc0 :: lcrest).getD
              ((r.generateIndex 3).2.generateIndex
                (lc0 :: lcrest).length).1 0,
              ((r.generateIndex 3).2.generateIndex
                (lc0 :: lcrest).length).2)) = some (ci, r1) := h
    split at h'
    · split_ifs at h' with hfb
      obtain ⟨h1, _⟩ := Prod.mk.injEq .. ▸ Option.some.inj h'
      exact h1 ▸ fallbackLargest_lt st hfb
    · rename_i lc0 lcrest heq
      obtain ⟨h1, _⟩ := Prod.mk.injEq .. ▸ Option.some.inj h'
      rw [← h1]
      have hmem : (lc0 :: lcrest).getD
          ((r.generateIndex 3).2.generateIndex (lc0 :: lcrest).length).1 0
          ∈ lc0 :: lcrest :=
        getD_mem_of_lt (rngGenerateIndex_lt _ (by simp))
      have : (lc0 :: lcrest).getD
          ((r.generateIndex 3).2.generateIndex (lc0 :: lcrest).length).1 0
          ∈ srcLarge st (r.generateIndex 3).1 := heq ▸ hmem
      exact List.mem_range.mp (List.mem_of_mem_filter this)

/-- `ageSelectNodeFromComponent` succeeds only on a component of nonzero
stored size, and (when the stored size matches the member list) returns a
member of the component. -/
theorem ageSelect_mem (st : CnpState) (ci : Nat) (r : Rng) (v : Node)
    (r' : Rng) (h : ageSelectNodeFromComponent st ci r = some (v, r')) :
    (st.connectedComponents.getD ci ⟨0, []⟩).size ≠ 0
      ∧ ((st.connectedComponents.getD ci ⟨0, []⟩).size
          = (st.connectedComponents.getD ci ⟨0, []⟩).nodes.length →
        v ∈ (st.connectedComponents.getD ci ⟨0, []⟩).nodes) := by
  unfold ageSelectNodeFromComponent at h
  by_cases hsz : (st.connectedComponents.getD ci ⟨0, []⟩).size = 0
  · rw [if_pos hsz] at h
    exact Option.noConfusion h
  · rw [if_neg hsz] at h
    refine ⟨hsz, ?_⟩
    intro hlen
    have hpos : 0 < (st.connectedComponents.getD ci ⟨0, []⟩).size :=
      Nat.pos_of_ne_zero hsz
    obtain ⟨hmem, hne⟩ := minScanInt_candidates
      (fun i => st.nodeAge.getD
        ((st.connectedComponents.getD ci ⟨0, []⟩).nodes.getD i 0) 0)
      (fun i => (st.connectedComponents.getD ci ⟨0, []⟩).nodes.getD i 0)
      (· ∈ (st.connectedComponents.getD ci ⟨0, []⟩).nodes)
      ((List.range (st.connectedComponents.getD ci ⟨0, []⟩).size).drop 1)
      (st.nodeAge.getD
        ((st.connectedComponents.getD ci ⟨0, []⟩).nodes.getD 0 0) 0,
        [(st.connectedComponents.getD ci ⟨0, []⟩).nodes.getD 0 0])
      (by intro x hx
          rw [List.mem_singleton.mp hx]
          exact getD_mem_of_lt (hlen ▸ hpos))
      (by intro i hi
          have : i < (st.connectedComponents.getD ci ⟨0, []⟩).size :=
            List.mem_range.mp (List.mem_of_mem_drop hi)
          exact getD_mem_of_lt (hlen ▸ this))
      (by simp)
    exact hmem v (pick_mem _ r hne v r' h)

theorem ageSelect_isSome (st : CnpState) (ci : Nat) (r : Rng)
    (hsz : (st.connectedComponents.getD ci ⟨0, []⟩).size ≠ 0) :
    (ageSelectNodeFromComponent st ci r).isSome = true := by
  unfold ageSelectNodeFromComponent
  rw [if_neg hsz]
  exact pick_isSome _ r

/-- As `ageSelect_mem`, for `impactSelectNodeFromComponent`. -/
theorem impactSelect_mem (st : CnpState) (ci : Nat) (r : Rng) (v : Node)
    (r' : Rng) (h : impactSelectNodeFromComponent st ci r = some (v, r')) :
    (st.connectedComponents.getD ci ⟨0, []⟩).size ≠ 0
      ∧ ((st.connectedComponents.getD ci ⟨0, []⟩).size
          = (st.connectedComponents.getD ci ⟨0, []⟩).nodes.length →
        v ∈ (st.connectedComponents.getD ci ⟨0, []⟩).nodes) := by
  unfold impactSelectNodeFromComponent at h
  by_cases hsz : (st.connectedComponents.getD ci ⟨0, []⟩).size = 0
  · rw [if_pos hsz] at h
    exact Option.noConfusion h
  · rw [if_neg hsz] at h
    refine ⟨hsz, ?_⟩
    intro hlen
    obtain ⟨hmem, hne1, hne2⟩ := minScanOpt_candidates
      (fun i => impactOf st ci i)
      (fun i => (st.connectedComponents.getD ci ⟨0, []⟩).nodes.getD (i - 1) 0)
      (· ∈ (st.connectedComponents.getD ci ⟨0, []⟩).nodes)
      ((List.range (st.connectedComponents.getD ci ⟨0, []⟩).size).map
        (fun i => i + 1))
      (none, [])
      (by intro x hx; simp at hx)
      (by intro a ha
          obtain ⟨i, hi, rfl⟩ := List.mem_map.mp ha
          have hisz : i < (st.connectedComponents.getD ci ⟨0, []⟩).size :=
            List.mem_range.mp hi
          have : i + 1 - 1 < (st.connectedComponents.getD ci
              ⟨0, []⟩).nodes.length := by
            rw [← hlen]
            simpa using hisz
          exact getD_mem_of_lt this)
      (by intro hx; exact absurd rfl hx)
    have hlne : (List.range
        (st.connectedComponents.getD ci ⟨0, []⟩).size).map
        (fun i => i + 1) ≠ [] := by
      simp only [ne_eq, List.map_eq_nil_iff, List.range_eq_nil]
      exact hsz
    exact hmem v (pick_mem _ r (hne1 (hne2 (Or.inl hlne))) v r' h)

theorem impactSelect_isSome (st : CnpState) (ci : Nat) (r : Rng)
    (hsz : (st.connectedComponents.getD ci ⟨0, []⟩).size ≠ 0) :
    (impactSelectNodeFromComponent st ci r).isSome = true := by
  unfold impactSelectNodeFromComponent
  rw [if_neg hsz]
  exact pick_isSome _ r

/-- `greedySelectNodeToAdd` returns a removed vertex whenever it
succeeds. -/
theorem greedySelect_mem (st : CnpState) (r : Rng) (w : Node) (r' : Rng)
    (h : greedySelectNodeToAdd st r = some (w, r')) :
    w ∈ st.removedNodes := by
  unfold greedySelectNodeToAdd at h
  rcases hrm : st.removedNodes with _ | ⟨firstNode, rest⟩
  · rw [hrm] at h
    exact Option.noConfusion h
  · rw [hrm] at h
    obtain ⟨hmem, hne⟩ := minScanInt_candidates
      (fun u => calculateConnectionGain st u) (fun u => u)
      (· ∈ firstNode :: rest) rest
      (calculateConnectionGain st firstNode, [firstNode])
      (by intro x hx
          rw [List.mem_singleton.mp hx]
          exact List.mem_cons_self _ _)
      (fun a ha => List.mem_cons_of_mem _ ha)
      (by simp)
    exact hmem w (pick_mem _ r hne w r' h)

theorem greedy_isSome (st : CnpState) (r : Rng)
    (hne : st.removedNodes ≠ []) :
    (greedySelectNodeToAdd st r).isSome = true := by
  unfold greedySelectNodeToAdd
  rcases hrm : st.removedNodes with _ | ⟨f, rest⟩
  · exact absurd hrm hne
  · exact pick_isSome _ r

/-- The mask-cardinality core of both moves: evicting a mapped non-removed
vertex and re-adding any vertex of the enlarged mask leaves the mask
cardinality unchanged. -/
theorem swap_mask_length (st : CnpState) (numSteps : Int) (v w : Node)
    (hsorted : st.removedNodes.Sorted (· < ·))
    (hvsome : (st.nodeToComponentIndex.getD v none).isSome)
    (hvnm : v ∉ st.removedNodes)
    (hw : w ∈ (setNodeAge (cnpRemoveNode st v) v numSteps).removedNodes) :
    (setNodeAge (cnpAddNode (setNodeAge (cnpRemoveNode st v) v numSteps) w)
        w numSteps).removedNodes.length = st.removedNodes.length := by
  obtain ⟨cv, hcv⟩ := Option.isSome_iff_exists.mp hvsome
  obtain ⟨r1, _, _, _⟩ := cnpRemoveNode_frame st v cv hcv
  have hmask1 : (setNodeAge (cnpRemoveNode st v) v numSteps).removedNodes
      = nsInsert v st.removedNodes := r1
  have hmask2 : (setNodeAge (cnpAddNode (setNodeAge (cnpRemoveNode st v) v
        numSteps) w) w numSteps).removedNodes
      = nsErase w ((setNodeAge (cnpRemoveNode st v) v
          numSteps).removedNodes) :=
    cnpAddNode_mask _ w
  rw [hmask2, hmask1]
  rw [hmask1] at hw
  have h1 : (nsInsert v st.removedNodes).length
      = st.removedNodes.length + 1 := nsInsert_length_of_not_mem hvnm
  have h2 : (nsErase w (nsInsert v st.removedNodes)).length + 1
      = (nsInsert v st.removedNodes).length :=
    nsErase_length_of_mem (nsInsert_sorted hsorted) hw
  omega

/-- `selectRemovedLargerComponent` fails only through the empty-fallback
throw: with a nonzero largest component it always selects. -/
theorem selectLarger_isSome (st : CnpState) (r : Rng)
    (hfb : (fallbackLargest st).2 ≠ 0) :
    (selectRemovedLargerComponent st r).isSome = true := by
  unfold selectRemovedLargerComponent
  split
  · rw [if_neg hfb]
    rfl
  · split_ifs <;> rfl

/-- As `selectLarger_isSome`, for `selectRemovedComponent`. -/
theorem select_isSome (st : CnpState) (r : Rng)
    (hfb : (fallbackLargest st).2 ≠ 0) :
    (selectRemovedComponent st r).isSome = true := by
  unfold selectRemovedComponent
  split_ifs with h50
  · exact selectLarger_isSome st r hfb
  · show (match srcLarge st (r.generateIndex 3).1 with
        | [] =>
            if (fallbackLargest st).2 = 0 then none
            else some ((fallbackLargest st).1, (r.generateIndex 3).2)
        | lc0 :: lcrest =>
            some ((lc0 :: lcrest).getD
              ((r.generateIndex 3).2.generateIndex
                (lc0 :: lcrest).length).1 0,
              ((r.generateIndex 3).2.generateIndex
                (lc0 :: lcrest).length).2)).isSome = true
    split
    · rw [if_neg hfb]
      rfl
    · rfl

/-- **C10.** On a CNP state whose stored components are consistent (each
non-empty with matching stored size, every member mapped and non-removed,
sorted mask), every CBNS move and every CHNS move preserves the
cardinality of the RemovedMask, and whenever the component selection
succeeds the whole move succeeds: after removing the selected node the
mask is non-empty, so the greedy add-back returns a removed vertex (never
the INVALID sentinel) which is re-added — `k` removed vertices before the
move, exactly `k` after; the strategy's returned solution is a copy of
such a mask. -/
theorem c10_moves_preserve_mask_size
    (st : CnpState) (numSteps : Int) (theta : ℚ) (r : Rng)
    (hsorted : st.removedNodes.Sorted (· < ·))
    (hcomp : ∀ cmp ∈ st.connectedComponents,
      cmp.nodes ≠ [] ∧ cmp.size = cmp.nodes.length)
    (hval : ∀ cmp ∈ st.connectedComponents, ∀ u ∈ cmp.nodes,
      (st.nodeToComponentIndex.getD u none).isSome
        ∧ u ∉ st.removedNodes) :
    (∀ res, cbnsPerformMove st numSteps r = some res →
        res.1.removedNodes.length = st.removedNodes.length)
      ∧ (∀ res, chnsPerformMove st theta numSteps r = some res →
          res.1.removedNodes.length = st.removedNodes.length)
      ∧ (∀ ci r1, selectRemovedComponent st r = some (ci, r1) →
          (cbnsPerformMove st numSteps r).isSome = true)
      ∧ (∀ ci r1, selectRemovedComponent st r = some (ci, r1) →
          (chnsPerformMove st theta numSteps r).isSome = true) := by
  have hfromSel : ∀ (ci : Nat) (v : Node),
      ((st.connectedComponents.getD ci ⟨0, []⟩).size ≠ 0
        ∧ ((st.connectedComponents.getD ci ⟨0, []⟩).size
            = (st.connectedComponents.getD ci ⟨0, []⟩).nodes.length →
          v ∈ (st.connectedComponents.getD ci ⟨0, []⟩).nodes)) →
      (st.nodeToComponentIndex.getD v none).isSome
        ∧ v ∉ st.removedNodes := by
    intro ci v hpost
    obtain ⟨hsz, hmem⟩ := hpost
    have hlt : ci < st.connectedComponents.length := by
      by_contra hle
      have hd := @getD_of_length_le Component st.connectedComponents ci
        ⟨0, []⟩ (Nat.le_of_not_lt hle)
      exact hsz (by rw [hd])
    have hcmem : st.connectedComponents.getD ci ⟨0, []⟩
        ∈ st.connectedComponents := getD_mem_of_lt hlt
    obtain ⟨_, hszlen⟩ := hcomp _ hcmem
    exact hval _ hcmem v (hmem hszlen)
  have hne_of : ∀ (v : Node), (st.nodeToComponentIndex.getD v none).isSome →
      (setNodeAge (cnpRemoveNode st v) v numSteps).removedNodes
        = nsInsert v st.removedNodes := by
    intro v hv
    obtain ⟨cv, hcv⟩ := Option.isSome_iff_exists.mp hv
    obtain ⟨rm1, _, _, _⟩ := cnpRemoveNode_frame st v cv hcv
    exact rm1
  refine ⟨?_, ?_, ?_, ?_⟩
  · intro res hres
    unfold cbnsPerformMove at hres
    rcases hsel : selectRemovedComponent st r with _ | ⟨ci, r1⟩
    · rw [hsel] at hres
      exact Option.noConfusion hres
    · simp only [hsel] at hres
      rcases hage : ageSelectNodeFromComponent st ci r1 with _ | ⟨v, r2⟩
      · rw [hage] at hres
        exact Option.noConfusion hres
      · simp only [hage] at hres
        rcases hgre : greedySelectNodeToAdd
            (setNodeAge (cnpRemoveNode st v) v numSteps) r2
          with _ | ⟨w, r3⟩
        · rw [hgre] at hres
          exact Option.noConfusion hres
        · simp only [hgre] at hres
          obtain ⟨hv1, hv2⟩ := hfromSel ci v
            (ageSelect_mem st ci r1 v r2 hage)
          have hw := greedySelect_mem _ _ _ _ hgre
          rw [← Option.some.inj hres]
          exact swap_mask_length st numSteps v w hsorted hv1 hv2 hw
  · intro res hres
    unfold chnsPerformMove at hres
    rcases hsel : selectRemovedComponent st r with _ | ⟨ci, r1⟩
    · rw [hsel] at hres
      exact Option.noConfusion hres
    · simp only [hsel] at hres
      by_cases hcoin : (r1.generateProbability).1 < theta
      · simp only [if_pos hcoin] at hres
        rcases hims : impactSelectNodeFromComponent st ci
            (r1.generateProbability).2 with _ | ⟨v, r2⟩
        · rw [hims] at hres
          exact Option.noConfusion hres
        · simp only [hims] at hres
          rcases hgre : greedySelectNodeToAdd
              (setNodeAge (cnpRemoveNode st v) v numSteps) r2
            with _ | ⟨w, r3⟩
          · rw [hgre] at hres
            exact Option.noConfusion hres
          · simp only [hgre] at hres
            obtain ⟨hv1, hv2⟩ := hfromSel ci v
              (impactSelect_mem st ci (r1.generateProbability).2 v r2 hims)
            have hw := greedySelect_mem _ _ _ _ hgre
            rw [← Option.some.inj hres]
            exact swap_mask_length st numSteps v w hsorted hv1 hv2 hw
      · simp only [if_neg hcoin] at hres
        rcases hage : ageSelectNodeFromComponent st ci
            (r1.generateProbability).2 with _ | ⟨v, r2⟩
        · rw [hage] at hres
          exact Option.noConfusion hres
        · simp only [hage] at hres
          rcases hgre : greedySelectNodeToAdd
              (setNodeAge (cnpRemoveNode st v) v numSteps) r2
            with _ | ⟨w, r3⟩
          · rw [hgre] at hres
            exact Option.noConfusion hres
          · simp only [hgre] at hres
            obtain ⟨hv1, hv2⟩ := hfromSel ci v
              (ageSelect_mem st ci (r1.generateProbability).2 v r2 hage)
            have hw := greedySelect_mem _ _ _ _ hgre
            rw [← Option.some.inj hres]
            exact swap_mask_length st numSteps v w hsorted hv1 hv2 hw
  · intro ci r1 hsel
    have hlt := selectRemovedComponent_lt st r ci r1 hsel
    have hcmem : st.connectedComponents.getD ci ⟨0, []⟩
        ∈ st.connectedComponents := getD_mem_of_lt hlt
    obtain ⟨hne0, hszlen⟩ := hcomp _ hcmem
    have hsz : (st.connectedComponents.getD ci ⟨0, []⟩).size ≠ 0 := by
      rw [hszlen]
      exact Nat.pos_iff_ne_zero.mp (List.length_pos.mpr hne0)
    unfold cbnsPerformMove
    simp only [hsel]
    rcases hage : ageSelectNodeFromComponent st ci r1 with _ | ⟨v, r2⟩
    · have hs := ageSelect_isSome st ci r1 hsz
      rw [hage] at hs
      exact absurd hs (by simp)
    · simp only [hage]
      obtain ⟨hv1, _⟩ := hfromSel ci v (ageSelect_mem st ci r1 v r2 hage)
      have hne' : (setNodeAge (cnpRemoveNode st v) v
          numSteps).removedNodes ≠ [] := by
        rw [hne_of v hv1]
        exact nsInsert_ne_nil _
      rcases hgre : greedySelectNodeToAdd
          (setNodeAge (cnpRemoveNode st v) v numSteps) r2 with _ | ⟨w, r3⟩
      · have hs := greedy_isSome _ r2 hne'
        rw [hgre] at hs
        exact absurd hs (by simp)
      · simp only [hgre]
        rfl
  · intro ci r1 hsel
    have hlt := selectRemovedComponent_lt st r ci r1 hsel
    have hcmem : st.connectedComponents.getD ci ⟨0, []⟩
        ∈ st.connectedComponents := getD_mem_of_lt hlt
    obtain ⟨hne0, hszlen⟩ := hcomp _ hcmem
    have hsz : (st.connectedComponents.getD ci ⟨0, []⟩).size ≠ 0 := by
      rw [hszlen]
      exact Nat.pos_iff_ne_zero.mp (List.length_pos.mpr hne0)
    unfold chnsPerformMove
    simp only [hsel]
    by_cases hcoin : (r1.generateProbability).1 < theta
    · simp only [if_pos hcoin]
      rcases hims : impactSelectNodeFromComponent st ci
          (r1.generateProbability).2 with _ | ⟨v, r2⟩
      · have hs := impactSelect_isSome st ci (r1.generateProbability).2 hsz
        rw [hims] at hs
        exact absurd hs (by simp)
      · simp only [hims]
        obtain ⟨hv1, _⟩ := hfromSel ci v
          (impactSelect_mem st ci (r1.generateProbability).2 v r2 hims)
        have hne' : (setNodeAge (cnpRemoveNode st v) v
            numSteps).removedNodes ≠ [] := by
          rw [hne_of v hv1]
          exact nsInsert_ne_nil _
        rcases hgre : greedySelectNodeToAdd
            (setNodeAge (cnpRemoveNode st v) v numSteps) r2
          with _ | ⟨w, r3⟩
        · have hs := greedy_isSome _ r2 hne'
          rw [hgre] at hs
          exact absurd hs (by simp)
        · simp only [hgre]
          rfl
    · simp only [if_neg hcoin]
      rcases hage : ageSelectNodeFromComponent st ci
          (r1.generateProbability).2 with _ | ⟨v, r2⟩
      · have hs := ageSelect_isSome st ci (r1.generateProbability).2 hsz
        rw [hage] at hs
        exact absurd hs (by simp)
      · simp only [hage]
        obtain ⟨hv1, _⟩ := hfromSel ci v
          (ageSelect_mem st ci (r1.generateProbability).2 v r2 hage)
        have hne' : (setNodeAge (cnpRemoveNode st v) v
            numSteps).removedNodes ≠ [] := by
          rw [hne_of v hv1]
          exact nsInsert_ne_nil _
        rcases hgre : greedySelectNodeToAdd
            (setNodeAge (cnpRemoveNode st v) v numSteps) r2
          with _ | ⟨w, r3⟩
        · have hs := greedy_isSome _ r2 hne'
          rw [hgre] at hs
          exact absurd hs (by simp)
        · simp only [hgre]
          rfl

/-- Witness for C10 on the 3-path with vertex 1 removed: both moves
succeed and the CBNS result still has one removed vertex. -/
theorem c10_witness :
    (cbnsPerformMove cnpPathRemoved1 7 ⟨fun _ => 0, 0⟩).isSome = true
      ∧ (chnsPerformMove cnpPathRemoved1 0 7 ⟨fun _ => 0, 0⟩).isSome = true
      ∧ (cbnsPerformMove cnpPathRemoved1 7 ⟨fun _ => 0, 0⟩).map
          (fun res => res.1.removedNodes.length)
        = some cnpPathRemoved1.removedNodes.length := by
  have T := c10_moves_preserve_mask_size cnpPathRemoved1 7 0 ⟨fun _ => 0, 0⟩
    (by decide) (by decide) (by decide)
  have hs : (selectRemovedComponent cnpPathRemoved1
      ⟨fun _ => 0, 0⟩).isSome = true :=
    select_isSome cnpPathRemoved1 ⟨fun _ => 0, 0⟩ (by decide)
  obtain ⟨p, hp⟩ := Option.isSome_iff_exists.mp hs
  have hsel : selectRemovedComponent cnpPathRemoved1 ⟨fun _ => 0, 0⟩
      = some (p.1, p.2) := hp
  refine ⟨T.2.2.1 p.1 p.2 hsel, T.2.2.2 p.1 p.2 hsel, ?_⟩
  rcases hmove : cbnsPerformMove cnpPathRemoved1 7 ⟨fun _ => 0, 0⟩
    with _ | res
  · have hs2 := T.2.2.1 p.1 p.2 hsel
    rw [hmove] at hs2
    exact absurd hs2 (by simp)
  · rw [Option.map_some']
    rw [T.1 res hmove]

/-! ## C7: `DCNP_Graph::calculateBetweennessCentrality`

The C++ declares `static std::vector<double> betweenness;` inside the
function — one buffer per process, shared by every engine — and
`resize(numNodes_, 0.0)` never clears existing entries, onto which each
source then accumulates with `+=`.  The static buffer is modelled as an
explicit in/out parameter; `double` arithmetic is modelled exactly over
`ℚ`. -/

/-- `betweenness.resize(numNodes_, 0.0)`: pad with zeros or truncate. -/
def betwResize (buffer : List ℚ) (n : Nat) : List ℚ :=
  if buffer.length ≤ n then buffer ++ List.replicate (n - buffer.length) 0
  else buffer.take n

/-- Per-source scratch of the Brandes BFS: the visit stack `S` (top first),
predecessor lists `P`, distances `d` (`-1` unvisited) and path counts
`sigma`. -/
structure BrandesState where
  S : List Nat
  P : List (List Nat)
  d : List Int
  sigma : List Int
  deriving Repr, DecidableEq

/-- The neighbour scan of one dequeued vertex `v`: skip removed `w`,
enqueue newly discovered `w` at distance `d[v] + 1`, and when `w` lies one
level below `v` add `sigma[v]` paths and record `v` as predecessor. -/
def brandesVisit (removed : NodeSet) (v : Nat)
    (acc : BrandesState × List Nat) (w : Nat) : BrandesState × List Nat :=
  if nsMem w removed then acc
  else
    let acc1 :=
      if acc.1.d.getD w (-1) < 0 then
        ({ acc.1 with d := acc.1.d.set w (acc.1.d.getD v (-1) + 1) },
          acc.2 ++ [w])
      else acc
    if acc1.1.d.getD w (-1) = acc1.1.d.getD v (-1) + 1 then
      ({ acc1.1 with
          sigma := (acc1.1.sigma.set w
            (acc1.1.sigma.getD w 0 + acc1.1.sigma.getD v 0)),
          P := acc1.1.P.set w (acc1.1.P.getD w [] ++ [v]) },
        acc1.2)
    else acc1

/-- The queue loop of the per-source Brandes BFS (`fuel` bounds the number
of dequeues; each vertex is enqueued at most once). -/
def brandesBfs (adj : AdjList) (removed : NodeSet) :
    Nat → List Nat → BrandesState → BrandesState
  | 0, _, st => st
  | fuel + 1, queue, st =>
      match queue with
      | [] => st
      | v :: qrest =>
          let step := (adjAt adj v).foldl (brandesVisit removed v)
            ({ st with S := v :: st.S }, qrest)
          brandesBfs adj removed fuel step.2 step.1

/-- The predecessor loop of the dependency accumulation for popped `w`:
`delta[v] += (sigma[v] / sigma[w]) * (1 + delta[w])` for each recorded
predecessor `v`. -/
def brandesDelta (P : List (List Nat)) (sigma : List Int)
    (dl : List ℚ) (w : Nat) : List ℚ :=
  (P.getD w []).foldl
    (fun (dl : List ℚ) v =>
      dl.set v (dl.getD v 0
        + ((sigma.getD v 0 : ℚ) / (sigma.getD w 0 : ℚ))
          * (1 + dl.getD w 0)))
    dl

/-- One step of the dependency accumulation, threading `(delta,
betweenness)`: pop `w` from the stack, push dependencies to its
predecessors, and for `w ≠ s` accumulate `betweenness[w] += delta[w]`. -/
def brandesAccumStep (s : Nat) (P : List (List Nat)) (sigma : List Int)
    (acc : List ℚ × List ℚ) (w : Nat) : List ℚ × List ℚ :=
  if w ≠ s then
    (brandesDelta P sigma acc.1 w,
      acc.2.set w (acc.2.getD w 0
        + (brandesDelta P sigma acc.1 w).getD w 0))
  else (brandesDelta P sigma acc.1 w, acc.2)

/-- One source's pass of `calculateBetweennessCentrality` (skipped for a
removed source). -/
def brandesSource (st : DcnpState) (betweenness : List ℚ) (s : Nat) :
    List ℚ :=
  if nsMem s st.removedNodes then betweenness
  else
    let res := brandesBfs st.currentAdjList st.removedNodes
      (st.numNodes + 1) [s]
      { S := [],
        P := List.replicate st.numNodes [],
        d := (List.replicate st.numNodes (-1)).set s 0,
        sigma := (List.replicate st.numNodes 0).set s 1 }
    (res.S.foldl (brandesAccumStep s res.P res.sigma)
      (List.replicate st.numNodes 0, betweenness)).2

/-- `DCNP_Graph::calculateBetweennessCentrality` with the function-static
buffer made explicit. -/
def calculateBetweennessCentrality (st : DcnpState) (buffer : List ℚ) :
    List ℚ :=
  (List.range st.numNodes).foldl (brandesSource st)
    (betwResize buffer st.numNodes)

/-! ### Additivity of the accumulation in the static buffer -/

theorem getD_set_self' {α : Type} {l : List α} {i : Nat} {x d : α}
    (h : i < l.length) : (l.set i x).getD i d = x := by
  rw [List.getD_eq_getElem?_getD, List.getElem?_set_self (by simpa using h)]
  rfl

theorem getD_set_ne' {α : Type} {l : List α} {i j : Nat} {x d : α}
    (h : i ≠ j) : (l.set i x).getD j d = l.getD j d := by
  rw [List.getD_eq_getElem?_getD, List.getD_eq_getElem?_getD,
    List.getElem?_set_ne h]

theorem set_of_length_le {α : Type} :
    ∀ {l : List α} {i : Nat} {x : α}, l.length ≤ i → l.set i x = l := by
  intro l
  induction l with
  | nil => intro i x _; rfl
  | cons a rest ih =>
      intro i x h
      cases i with
      | zero => simp at h
      | succ j =>
          rw [List.set_cons_succ]
          rw [ih (by simpa using h)]

theorem getD_replicate_zero {n i : Nat} :
    (List.replicate n (0 : ℚ)).getD i 0 = 0 := by
  rw [List.getD_eq_getElem?_getD, List.getElem?_replicate]
  split_ifs <;> rfl

/-- The Brandes accumulation is additive in the betweenness buffer: the
`delta` trajectory is independent of the buffer, and the buffer only
receives `+=` updates, so runs from two same-length buffers differ by the
same per-entry increments. -/
theorem brandesAccum_additive (s : Nat) (P : List (List Nat))
    (sigma : List Int) :
    ∀ (S : List Nat) (dl b z : List ℚ), b.length = z.length →
      ((S.foldl (brandesAccumStep s P sigma) (dl, b)).2.length = b.length)
        ∧ ((S.foldl (brandesAccumStep s P sigma) (dl, z)).2.length
            = z.length)
        ∧ (∀ i : Nat,
          (S.foldl (brandesAccumStep s P sigma) (dl, b)).2.getD i 0
              - b.getD i 0
            = (S.foldl (brandesAccumStep s P sigma) (dl, z)).2.getD i 0
              - z.getD i 0) := by
  intro S
  induction S with
  | nil =>
      intro dl b z _
      exact ⟨rfl, rfl, fun i => by
        rw [List.foldl_nil, List.foldl_nil]
        simp⟩
  | cons w rest ih =>
      intro dl b z hlen
      rw [List.foldl_cons, List.foldl_cons]
      by_cases hws : w = s
      · have hb : brandesAccumStep s P sigma (dl, b) w
            = (brandesDelta P sigma dl w, b) := by
          unfold brandesAccumStep
          rw [if_neg (fun hc => hc hws)]
        have hz : brandesAccumStep s P sigma (dl, z) w
            = (brandesDelta P sigma dl w, z) := by
          unfold brandesAccumStep
          rw [if_neg (fun hc => hc hws)]
        rw [hb, hz]
        exact ih _ b z hlen
      · have hb : brandesAccumStep s P sigma (dl, b) w
            = (brandesDelta P sigma dl w,
              b.set w (b.getD w 0
                + (brandesDelta P sigma dl w).getD w 0)) := by
          unfold brandesAccumStep
          rw [if_pos hws]
        have hz : brandesAccumStep s P sigma (dl, z) w
            = (brandesDelta P sigma dl w,
              z.set w (z.getD w 0
                + (brandesDelta P sigma dl w).getD w 0)) := by
          unfold brandesAccumStep
          rw [if_pos hws]
        rw [hb, hz]
        obtain ⟨l1, l2, hdiff⟩ := ih (brandesDelta P sigma dl w)
          (b.set w (b.getD w 0 + (brandesDelta P sigma dl w).getD w 0))
          (z.set w (z.getD w 0 + (brandesDelta P sigma dl w).getD w 0))
          (by rw [List.length_set, List.length_set]; exact hlen)
        refine ⟨by rw [l1, List.length_set],
          by rw [l2, List.length_set], ?_⟩
        intro i
        have hd := hdiff i
        have key : (b.set w (b.getD w 0
              + (brandesDelta P sigma dl w).getD w 0)).getD i 0
              - b.getD i 0
            = (z.set w (z.getD w 0
              + (brandesDelta P sigma dl w).getD w 0)).getD i 0
              - z.getD i 0 := by
          by_cases hwi : w = i
          · subst hwi
            by_cases hlt : w < b.length
            · rw [getD_set_self' hlt,
                getD_set_self' (by rw [← hlen]; exact hlt)]
              ring
            · rw [set_of_length_le (Nat.le_of_not_lt hlt),
                set_of_length_le
                  (by rw [← hlen]; exact Nat.le_of_not_lt hlt)]
              rw [sub_self, sub_self]
          · rw [getD_set_ne' hwi, getD_set_ne' hwi]
            rw [sub_self, sub_self]
        linarith [hd, key]

/-- One source's pass is additive in the buffer. -/
theorem brandesSource_additive (st : DcnpState) (s : Nat)
    (b z : List ℚ) (hlen : b.length = z.length) :
    ((brandesSource st b s).length = b.length)
      ∧ ((brandesSource st z s).length = z.length)
      ∧ ∀ i, (brandesSource st b s).getD i 0 - b.getD i 0
          = (brandesSource st z s).getD i 0 - z.getD i 0 := by
  unfold brandesSource
  split_ifs with hrm
  · exact ⟨rfl, rfl, fun i => by rw [sub_self, sub_self]⟩
  · exact brandesAccum_additive s _ _ _ _ b z hlen

/-- The whole source fold is additive in the buffer. -/
theorem betw_fold_additive (st : DcnpState) :
    ∀ (L : List Nat) (b z : List ℚ), b.length = z.length →
      ((L.foldl (brandesSource st) b).length = b.length)
        ∧ ((L.foldl (brandesSource st) z).length = z.length)
        ∧ ∀ i, (L.foldl (brandesSource st) b).getD i 0 - b.getD i 0
            = (L.foldl (brandesSource st) z).getD i 0 - z.getD i 0 := by
  intro L
  induction L with
  | nil =>
      intro b z _
      exact ⟨rfl, rfl, fun i => by
        rw [List.foldl_nil, List.foldl_nil, sub_self, sub_self]⟩
  | cons s rest ih =>
      intro b z hlen
      rw [List.foldl_cons, List.foldl_cons]
      obtain ⟨sl1, sl2, skey⟩ := brandesSource_additive st s b z hlen
      obtain ⟨l1, l2, hdiff⟩ := ih (brandesSource st b s)
        (brandesSource st z s) (by rw [sl1, sl2, hlen])
      refine ⟨by rw [l1, sl1], by rw [l2, sl2], ?_⟩
      intro i
      linarith [hdiff i, skey i]

theorem betwResize_length (buffer : List ℚ) (n : Nat) :
    (betwResize buffer n).length = n := by
  unfold betwResize
  split_ifs with h
  · rw [List.length_append, List.length_replicate]
    omega
  · rw [List.length_take]
    omega

theorem betwResize_replicate (n : Nat) :
    betwResize (List.replicate n (0 : ℚ)) n = List.replicate n 0 := by
  unfold betwResize
  rw [if_pos (by rw [List.length_replicate])]
  rw [List.length_replicate, Nat.sub_self]
  simp

/-- **C7 (amended).** `calculateBetweennessCentrality` does not return a
function of the engine state alone: it returns the resized *function-static*
buffer plus the fresh Brandes contributions of the current graph — each
call adds the true centralities onto whatever the shared buffer already
holds, so consecutive calls on an unchanged engine differ (see the
counterexample) and calls through any engine of the process mutate the
values the next caller sees. -/
theorem c7_betweenness_accumulates_static_buffer
    (st : DcnpState) (buffer : List ℚ) (i : Nat) :
    (calculateBetweennessCentrality st buffer).getD i 0
      = (betwResize buffer st.numNodes).getD i 0
        + (calculateBetweennessCentrality st
            (List.replicate st.numNodes 0)).getD i 0 := by
  obtain ⟨_, _, hdiff⟩ := betw_fold_additive st (List.range st.numNodes)
    (betwResize buffer st.numNodes)
    (betwResize (List.replicate st.numNodes 0) st.numNodes)
    (by rw [betwResize_length, betwResize_length])
  have h := hdiff i
  have hz0 : (betwResize (List.replicate st.numNodes 0)
      st.numNodes).getD i 0 = 0 := by
    rw [betwResize_replicate]
    exact getD_replicate_zero
  unfold calculateBetweennessCentrality
  linarith [h, hz0]

/-- The 3-path DCNP engine with nothing removed (vertex 1 lies between 0
and 2, so its true betweenness is 2 with both orderings counted). -/
def dcnpPath3 : DcnpState := dcnpBuild [0, 1, 2] 2 [[1], [0, 2], [1]] 1

theorem brandesSource_path3_z0 :
    brandesSource dcnpPath3 [0, 0, 0] 0 = [0, 1, 0] := by
  unfold brandesSource
  rw [if_neg (by decide : ¬ nsMem 0 dcnpPath3.removedNodes = true)]
  rw [(by decide : dcnpPath3.numNodes = 3)]
  rw [(by decide : brandesBfs dcnpPath3.currentAdjList
      dcnpPath3.removedNodes (3 + 1) [0]
      { S := [], P := List.replicate 3 [],
        d := (List.replicate 3 (-1)).set 0 0,
        sigma := (List.replicate 3 0).set 0 1 }
      = ⟨[2, 1, 0], [[], [0], [1]], [0, 1, 2], [1, 1, 1]⟩)]
  show ([2, 1, 0].foldl (brandesAccumStep 0 [[], [0], [1]] [1, 1, 1])
      (List.replicate 3 0, [0, 0, 0])).2 = [0, 1, 0]
  norm_num [brandesAccumStep, brandesDelta, List.getD]

theorem brandesSource_path3_z1 :
    brandesSource dcnpPath3 [0, 1, 0] 1 = [0, 1, 0] := by
  unfold brandesSource
  rw [if_neg (by decide : ¬ nsMem 1 dcnpPath3.removedNodes = true)]
  rw [(by decide : dcnpPath3.numNodes = 3)]
  rw [(by decide : brandesBfs dcnpPath3.currentAdjList
      dcnpPath3.removedNodes (3 + 1) [1]
      { S := [], P := List.replicate 3 [],
        d := (List.replicate 3 (-1)).set 1 0,
        sigma := (List.replicate 3 0).set 1 1 }
      = ⟨[2, 0, 1], [[1], [], [1]], [1, 0, 1], [1, 1, 1]⟩)]
  show ([2, 0, 1].foldl (brandesAccumStep 1 [[1], [], [1]] [1, 1, 1])
      (List.replicate 3 0, [0, 1, 0])).2 = [0, 1, 0]
  norm_num [brandesAccumStep, brandesDelta, List.getD]

theorem brandesSource_path3_z2 :
    brandesSource dcnpPath3 [0, 1, 0] 2 = [0, 2, 0] := by
  unfold brandesSource
  rw [if_neg (by decide : ¬ nsMem 2 dcnpPath3.removedNodes = true)]
  rw [(by decide : dcnpPath3.numNodes = 3)]
  rw [(by decide : brandesBfs dcnpPath3.currentAdjList
      dcnpPath3.removedNodes (3 + 1) [2]
      { S := [], P := List.replicate 3 [],
        d := (List.replicate 3 (-1)).set 2 0,
        sigma := (List.replicate 3 0).set 2 1 }
      = ⟨[0, 1, 2], [[1], [2], []], [2, 1, 0], [1, 1, 1]⟩)]
  show ([0, 1, 2].foldl (brandesAccumStep 2 [[1], [2], []] [1, 1, 1])
      (List.replicate 3 0, [0, 1, 0])).2 = [0, 2, 0]
  norm_num [brandesAccumStep, brandesDelta, List.getD]

theorem brandesSource_path3_s0 :
    brandesSource dcnpPath3 [0, 2, 0] 0 = [0, 3, 0] := by
  unfold brandesSource
  rw [if_neg (by decide : ¬ nsMem 0 dcnpPath3.removedNodes = true)]
  rw [(by decide : dcnpPath3.numNodes = 3)]
  rw [(by decide : brandesBfs dcnpPath3.currentAdjList
      dcnpPath3.removedNodes (3 + 1) [0]
      { S := [], P := List.replicate 3 [],
        d := (List.replicate 3 (-1)).set 0 0,
        sigma := (List.replicate 3 0).set 0 1 }
      = ⟨[2, 1, 0], [[], [0], [1]], [0, 1, 2], [1, 1, 1]⟩)]
  show ([2, 1, 0].foldl (brandesAccumStep 0 [[], [0], [1]] [1, 1, 1])
      (List.replicate 3 0, [0, 2, 0])).2 = [0, 3, 0]
  norm_num [brandesAccumStep, brandesDelta, List.getD]

theorem brandesSource_path3_s1 :
    brandesSource dcnpPath3 [0, 3, 0] 1 = [0, 3, 0] := by
  unfold brandesSource
  rw [if_neg (by decide : ¬ nsMem 1 dcnpPath3.removedNodes = true)]
  rw [(by decide : dcnpPath3.numNodes = 3)]
  rw [(by decide : brandesBfs dcnpPath3.currentAdjList
      dcnpPath3.removedNodes (3 + 1) [1]
      { S := [], P := List.replicate 3 [],
        d := (List.replicate 3 (-1)).set 1 0,
        sigma := (List.replicate 3 0).set 1 1 }
      = ⟨[2, 0, 1], [[1], [], [1]], [1, 0, 1], [1, 1, 1]⟩)]
  show ([2, 0, 1].foldl (brandesAccumStep 1 [[1], [], [1]] [1, 1, 1])
      (List.replicate 3 0, [0, 3, 0])).2 = [0, 3, 0]
  norm_num [brandesAccumStep, brandesDelta, List.getD]

theorem brandesSource_path3_s2 :
    brandesSource dcnpPath3 [0, 3, 0] 2 = [0, 4, 0] := by
  unfold brandesSource
  rw [if_neg (by decide : ¬ nsMem 2 dcnpPath3.removedNodes = true)]
  rw [(by decide : dcnpPath3.numNodes = 3)]
  rw [(by decide : brandesBfs dcnpPath3.currentAdjList
      dcnpPath3.removedNodes (3 + 1) [2]
      { S := [], P := List.replicate 3 [],
        d := (List.replicate 3 (-1)).set 2 0,
        sigma := (List.replicate 3 0).set 2 1 }
      = ⟨[0, 1, 2], [[1], [2], []], [2, 1, 0], [1, 1, 1]⟩)]
  show ([0, 1, 2].foldl (brandesAccumStep 2 [[1], [2], []] [1, 1, 1])
      (List.replicate 3 0, [0, 3, 0])).2 = [0, 4, 0]
  norm_num [brandesAccumStep, brandesDelta, List.getD]

/-- Counterexample to C7: on the unchanged 3-path engine the first
betweenness call returns `[0, 2, 0]` (the true centralities) but the
second call returns `[0, 4, 0]` — the stale static buffer is accumulated
into again, so consecutive calls on an unchanged engine are NOT equal. -/
theorem c7_counterexample :
    calculateBetweennessCentrality dcnpPath3 [] = [0, 2, 0]
      ∧ calculateBetweennessCentrality dcnpPath3 [0, 2, 0] = [0, 4, 0]
      ∧ ([0, 2, 0] : List ℚ) ≠ [0, 4, 0] := by
  refine ⟨?_, ?_, ?_⟩
  · unfold calculateBetweennessCentrality
    rw [(by decide : dcnpPath3.numNodes = 3)]
    have hr : betwResize [] 3 = [0, 0, 0] := rfl
    rw [hr, (by decide : List.range 3 = [0, 1, 2])]
    rw [List.foldl_cons, List.foldl_cons, List.foldl_cons, List.foldl_nil]
    rw [brandesSource_path3_z0, brandesSource_path3_z1]
    exact brandesSource_path3_z2
  · unfold calculateBetweennessCentrality
    rw [(by decide : dcnpPath3.numNodes = 3)]
    have hr : betwResize [0, 2, 0] 3 = [0, 2, 0] := by
      unfold betwResize
      rw [if_pos (by simp)]
      simp
    rw [hr, (by decide : List.range 3 = [0, 1, 2])]
    rw [List.foldl_cons, List.foldl_cons, List.foldl_cons, List.foldl_nil]
    rw [brandesSource_path3_s0, brandesSource_path3_s1]
    exact brandesSource_path3_s2
  · intro h
    have h2 := List.cons.injEq .. ▸ h
    simp at h2

/-! ## C3: the K-hop table invariants

The semantic reference for a row of the K-hop table: membership in the
depth-`K` ball around the source through unremoved vertices, phrased via
explicit vertex paths. -/

/-- Number of `true` entries of a boolean row. -/
def countTrue (l : List Bool) : Nat := (l.filter id).length

/-- A path from `v` to `u`: non-empty vertex list starting at `v`, ending
at `u`, consecutive vertices adjacent, every vertex unremoved. -/
def IsPath (adj : AdjList) (removed : NodeSet) (v u : Node)
    (p : List Node) : Prop :=
  p.head? = some v ∧ p.getLast? = some u
    ∧ List.Chain' (fun a b => nsMem b (adjAt adj a) = true) p
    ∧ ∀ x ∈ p, nsMem x removed = false

/-- `u` lies in the `K`-ball of `v` (at most `K` edges, all vertices
unremoved). -/
def BallMem (adj : AdjList) (removed : NodeSet) (K : Int) (v u : Node) :
    Prop :=
  ∃ p, IsPath adj removed v u p ∧ ((p.length : Int) ≤ K + 1)

theorem isPath_singleton {adj : AdjList} {removed : NodeSet} {v : Node}
    (hv : nsMem v removed = false) : IsPath adj removed v v [v] := by
  refine ⟨rfl, rfl, ?_, ?_⟩
  · exact List.chain'_singleton _
  · intro x hx
    rw [List.mem_singleton.mp hx]
    exact hv

theorem isPath_unremoved_src {adj : AdjList} {removed : NodeSet}
    {v u : Node} {p : List Node} (h : IsPath adj removed v u p) :
    nsMem v removed = false := by
  obtain ⟨h1, _, _, h4⟩ := h
  exact h4 v (List.mem_of_mem_head? h1)

theorem isPath_unremoved_dst {adj : AdjList} {removed : NodeSet}
    {v u : Node} {p : List Node} (h : IsPath adj removed v u p) :
    nsMem u removed = false := by
  obtain ⟨_, h2, _, h4⟩ := h
  exact h4 u (List.mem_of_mem_getLast? h2)

theorem isPath_reverse {adj : AdjList} {removed : NodeSet} {v u : Node}
    {p : List Node}
    (hsym : ∀ a b : Node, nsMem b (adjAt adj a) = true
      ↔ nsMem a (adjAt adj b) = true)
    (h : IsPath adj removed v u p) : IsPath adj removed u v p.reverse := by
  obtain ⟨h1, h2, h3, h4⟩ := h
  refine ⟨?_, ?_, ?_, ?_⟩
  · rw [List.head?_reverse]
    exact h2
  · rw [List.getLast?_reverse]
    exact h1
  · rw [List.chain'_reverse]
    refine List.Chain'.imp ?_ h3
    intro a b hab
    exact (hsym a b).mp hab
  · intro x hx
    exact h4 x (List.mem_reverse.mp hx)

/-- Ball membership is symmetric over a symmetric adjacency. -/
theorem ballMem_symm {adj : AdjList} {removed : NodeSet} {K : Int}
    {v u : Node}
    (hsym : ∀ a b : Node, nsMem b (adjAt adj a) = true
      ↔ nsMem a (adjAt adj b) = true)
    (h : BallMem adj removed K v u) : BallMem adj removed K u v := by
  obtain ⟨p, hp, hlen⟩ := h
  exact ⟨p.reverse, isPath_reverse hsym hp, by rwa [List.length_reverse]⟩

/-- Extending a path by one adjacent unremoved vertex. -/
theorem isPath_snoc {adj : AdjList} {removed : NodeSet} {v w u : Node}
    {p : List Node} (h : IsPath adj removed v w p)
    (hadj : nsMem u (adjAt adj w) = true)
    (hur : nsMem u removed = false) :
    IsPath adj removed v u (p ++ [u]) := by
  obtain ⟨h1, h2, h3, h4⟩ := h
  have hpne : p ≠ [] := by
    intro hp
    rw [hp] at h1
    exact Option.noConfusion h1
  refine ⟨?_, ?_, ?_, ?_⟩
  · rw [List.head?_append_of_ne_nil _ hpne]
    exact h1
  · rw [List.getLast?_concat]
  · rw [List.chain'_append]
    refine ⟨h3, List.chain'_singleton _, ?_⟩
    intro x hx y hy
    rw [Option.mem_def] at hx hy
    rw [h2] at hx
    have hwx : w = x := Option.some.inj hx
    have huy : u = y := Option.some.inj hy
    rw [← hwx, ← huy]
    exact hadj
  · intro x hx
    rcases List.mem_append.mp hx with hx' | hx'
    · exact h4 x hx'
    · rw [List.mem_singleton.mp hx']
      exact hur

/-- Splitting the final vertex off a path of length at least two. -/
theorem isPath_last_decomp {adj : AdjList} {removed : NodeSet}
    {v u : Node} :
    ∀ {p : List Node}, IsPath adj removed v u p → 2 ≤ p.length →
      ∃ (q : List Node) (w : Node), p = q ++ [u]
        ∧ IsPath adj removed v w q
        ∧ nsMem u (adjAt adj w) = true := by
  intro p hp hlen
  obtain ⟨h1, h2, h3, h4⟩ := hp
  have hpne : p ≠ [] := by
    intro hp0
    rw [hp0] at hlen
    simp at hlen
  obtain ⟨q, hq⟩ : ∃ q, p = q ++ [u] := by
    have h5 : p.getLast hpne = u := by
      have h6 := List.getLast?_eq_getLast p hpne
      rw [h6] at h2
      exact Option.some.inj h2
    refine ⟨p.dropLast, ?_⟩
    rw [← h5]
    exact (List.dropLast_append_getLast hpne).symm
  have hqne : q ≠ [] := by
    intro hq0
    rw [hq0] at hq
    rw [hq] at hlen
    simp at hlen
  obtain ⟨w, hw⟩ := Option.isSome_iff_exists.mp
    (List.getLast?_isSome.mpr hqne)
  refine ⟨q, w, hq, ⟨?_, ?_, ?_, ?_⟩, ?_⟩
  · rw [hq, List.head?_append_of_ne_nil _ hqne] at h1
    exact h1
  · exact hw
  · rw [hq, List.chain'_append] at h3
    exact h3.1
  · intro x hx
    exact h4 x (by rw [hq]; exact List.mem_append.mpr (Or.inl hx))
  · rw [hq, List.chain'_append] at h3
    have := h3.2.2 w (by rw [Option.mem_def]; exact hw) u
      (by rw [Option.mem_def]; rfl)
    exact this

theorem getD_replicate {α : Type} {n i : Nat} {x d : α} :
    (List.replicate n x).getD i d = if i < n then x else d := by
  rw [List.getD_eq_getElem?_getD, List.getElem?_replicate]
  split_ifs <;> rfl

theorem countTrue_replicate_false {n : Nat} :
    countTrue (List.replicate n false) = 0 := by
  unfold countTrue
  rw [List.filter_eq_nil_iff.mpr]
  · rfl
  · intro b hb
    rw [List.eq_of_mem_replicate hb]
    simp

theorem countTrue_set_true {l : List Bool} {i : Nat} (h : i < l.length)
    (hf : l.getD i false = false) :
    countTrue (l.set i true) = countTrue l + 1 := by
  induction l generalizing i with
  | nil => simp at h
  | cons b rest ih =>
      cases i with
      | zero =>
          rw [List.getD_cons_zero] at hf
          rw [List.set_cons_zero]
          unfold countTrue
          rw [List.filter_cons, List.filter_cons, hf]
          simp
      | succ j =>
          rw [List.getD_cons_succ] at hf
          rw [List.set_cons_succ]
          unfold countTrue
          rw [List.filter_cons, List.filter_cons]
          have hj : j < rest.length := by simpa using h
          have := ih hj hf
          unfold countTrue at this
          cases b <;> simp [this]

theorem countTrue_eq_filter_range :
    ∀ (l : List Bool),
      countTrue l
        = ((List.range l.length).filter (fun u => l.getD u false)).length := by
  intro l
  induction l using List.reverseRecOn with
  | nil => rfl
  | append_singleton l b ih =>
      have h3 : countTrue (l ++ [b]) = countTrue l + countTrue [b] := by
        unfold countTrue
        rw [List.filter_append, List.length_append]
      have hlen : (l ++ [b]).length = l.length + 1 := by
        rw [List.length_append]
        rfl
      rw [h3, hlen, List.range_succ, List.filter_append,
        List.length_append]
      have h1 : countTrue [b] = ([l.length].filter
          (fun u => (l ++ [b]).getD u false)).length := by
        have hD : (l ++ [b]).getD l.length false = b := by
          rw [List.getD_eq_getElem?_getD,
            List.getElem?_append_right (Nat.le_refl _)]
          simp
        unfold countTrue
        rw [List.filter_cons, List.filter_cons, hD]
        cases b <;> simp
      have h2 : (List.range l.length).filter
          (fun u => (l ++ [b]).getD u false)
          = (List.range l.length).filter (fun u => l.getD u false) := by
        refine List.filter_congr ?_
        intro u hu
        have hult : u < l.length := List.mem_range.mp hu
        rw [List.getD_eq_getElem?_getD, List.getD_eq_getElem?_getD,
          List.getElem?_append_left hult]
      rw [h2, ← ih, h1]

/-- Dropping one occurrence from a duplicate-free list by filtering. -/
theorem filter_ne_length_of_nodup {v : Nat} :
    ∀ (L : List Nat), L.Nodup → v ∈ L →
      (L.filter (fun u => decide (u ≠ v))).length + 1 = L.length := by
  intro L
  induction L with
  | nil => intro _ hv; simp at hv
  | cons a rest ih =>
      intro hnd hv
      rw [List.filter_cons]
      by_cases hav : a = v
      · subst hav
        have hnr : a ∉ rest := (List.nodup_cons.mp hnd).1
        rw [if_neg (by simp)]
        rw [List.filter_eq_self.mpr]
        · rfl
        · intro b hb
          simp only [ne_eq, decide_eq_true_eq]
          intro hbv
          exact hnr (hbv ▸ hb)
      · have hvr : v ∈ rest := by
          rcases List.mem_cons.mp hv with h | h
          · exact absurd h.symm hav
          · exact h
        rw [if_pos (by simpa using hav)]
        have hih := ih (List.nodup_cons.mp hnd).2 hvr
        simp only [List.length_cons]
        omega

/-- Splitting the `true` count at a known `true` position: the count of
other `true` positions is one less. -/
theorem countTrue_split_at {l : List Bool} {v : Nat}
    (hv : l.getD v false = true) :
    ((List.range l.length).filter
        (fun u => u ≠ v && l.getD u false)).length + 1
      = countTrue l := by
  have hvlt : v < l.length := by
    by_contra hle
    rw [getD_of_length_le (Nat.le_of_not_lt hle)] at hv
    exact Bool.noConfusion hv
  rw [countTrue_eq_filter_range]
  have hF : ((List.range l.length).filter
      (fun u => l.getD u false)).filter (fun u => decide (u ≠ v))
      = (List.range l.length).filter (fun u => u ≠ v && l.getD u false) := by
    rw [List.filter_filter]
  rw [← hF]
  refine filter_ne_length_of_nodup _ ((List.nodup_range _).filter _)
    (List.mem_filter.mpr ⟨List.mem_range.mpr hvlt, by rw [hv]⟩)


/-! ## C3 machinery: correctness of the depth-bounded BFS -/

theorem nsMem_iff {x : Node} {s : NodeSet} : nsMem x s = true ↔ x ∈ s := by
  simp [nsMem]

theorem nsMem_false_iff {x : Node} {s : NodeSet} :
    nsMem x s = false ↔ x ∉ s := by
  simp [nsMem]

theorem countTrue_le_length (l : List Bool) : countTrue l ≤ l.length :=
  List.length_filter_le _ _

theorem countTrue_pos {l : List Bool} {i : Nat}
    (h : l.getD i false = true) : 1 ≤ countTrue l := by
  have hi : i < l.length := by
    by_contra hle
    rw [getD_of_length_le (Nat.le_of_not_lt hle)] at h
    exact Bool.noConfusion h
  have hmem : (true : Bool) ∈ l := by
    rw [List.getD_eq_getElem?_getD, List.getElem?_eq_getElem hi] at h
    have : l.get ⟨i, hi⟩ = true := by simpa using h
    rw [← this]
    exact List.get_mem l _ _
  have : (true : Bool) ∈ l.filter id := List.mem_filter.mpr ⟨hmem, rfl⟩
  have := List.length_pos_of_mem this
  exact this

/-- The inductive invariant of `bfsKLoop`, tying the BFS frontier data to
depth-bounded paths (`IsPath`/`BallMem`) from the source `v`. -/
structure BfsInv (n : Nat) (K : Int) (adj : AdjList) (removed : NodeSet)
    (v : Node) (visited : List Bool) (level : List Int) (queue : List Node)
    (row : List Bool) (cnt : Nat) : Prop where
  hVisLen : visited.length = n
  hLevLen : level.length = n
  hRowLen : row.length = n
  hCnt : countTrue row = cnt
  hQueueNodup : queue.Nodup
  hQueueNotRow : ∀ x ∈ queue, row.getD x false = false
  hVisPart : ∀ x, visited.getD x false = true
    ↔ (row.getD x false = true ∨ x ∈ queue)
  hVisRange : ∀ x, visited.getD x false = true
    → x < n ∧ nsMem x removed = false
  hLevSrc : level.getD v 0 = 0
  hVisSrc : visited.getD v false = true
  hSorted : List.Pairwise (fun a b => level.getD a 0 ≤ level.getD b 0) queue
  hSpread : ∀ a ∈ queue, ∀ b ∈ queue, level.getD b 0 ≤ level.getD a 0 + 1
  hProcFront : ∀ x, row.getD x false = true
    → ∀ y ∈ queue, level.getD x 0 ≤ level.getD y 0
  hVisSound : ∀ x, visited.getD x false = true → x = v
    ∨ ∃ p, IsPath adj removed v x p
        ∧ (p.length : Int) ≤ level.getD x 0 + 1 ∧ level.getD x 0 ≤ K
  hProcComplete : ∀ x, row.getD x false = true → level.getD x 0 < K
    → ∀ u, nsMem u (adjAt adj x) = true → nsMem u removed = false
      → visited.getD u false = true ∧ level.getD u 0 ≤ level.getD x 0 + 1

/-- Pointwise characterisation of the neighbour-enqueueing fold inside
`bfsKLoop`: the result is the old state plus a duplicate-free batch `added`
of newly visited in-range unremoved neighbours, all at level `lvl + 1`. -/
theorem bfsNbFold (n : Nat) (removed : NodeSet) (lvl : Int) :
    ∀ (L : List Node) (V : List Bool) (Lv : List Int) (Q : List Node),
      (∀ x ∈ L, x < n) → V.length = n → Lv.length = n →
      ∃ (added : List Node) (V' : List Bool) (Lv' : List Int),
        L.foldl (fun (acc : List Bool × List Int × List Node) nb =>
            if nsMem nb removed || acc.1.getD nb false then acc
            else (acc.1.set nb true, acc.2.1.set nb (lvl + 1),
                  acc.2.2 ++ [nb])) (V, Lv, Q)
          = (V', Lv', Q ++ added)
        ∧ V'.length = n ∧ Lv'.length = n
        ∧ (∀ x, V'.getD x false = true ↔ (V.getD x false = true ∨ x ∈ added))
        ∧ (∀ x ∈ added, x ∈ L ∧ nsMem x removed = false
            ∧ V.getD x false = false)
        ∧ (∀ x, x ∉ added → Lv'.getD x 0 = Lv.getD x 0)
        ∧ (∀ x ∈ added, Lv'.getD x 0 = lvl + 1)
        ∧ added.Nodup
        ∧ (∀ u ∈ L, nsMem u removed = false → V'.getD u false = true) := by
  intro L
  induction L with
  | nil =>
      intro V Lv Q _ hV hLv
      exact ⟨[], V, Lv, by simp, hV, hLv, by simp, by simp, by simp, by simp,
        List.nodup_nil, by simp⟩
  | cons nb L ih =>
      intro V Lv Q hL hV hLv
      rw [List.foldl_cons]
      have hnbn : nb < n := hL nb (List.mem_cons_self _ _)
      by_cases hskip : (nsMem nb removed || V.getD nb false) = true
      · rw [if_pos hskip]
        obtain ⟨added, V', Lv', heq, hV', hLv', hb, hc, hd, he, hf, hg⟩ :=
          ih V Lv Q (fun x hx => hL x (List.mem_cons_of_mem _ hx)) hV hLv
        refine ⟨added, V', Lv', heq, hV', hLv', hb, ?_, hd, he, hf, ?_⟩
        · intro x hx
          obtain ⟨h1, h2, h3⟩ := hc x hx
          exact ⟨List.mem_cons_of_mem _ h1, h2, h3⟩
        · intro u hu hur
          rcases List.mem_cons.mp hu with rfl | hu'
          · rcases Bool.or_eq_true_iff.mp hskip with h | h
            · rw [hur] at h
              exact Bool.noConfusion h
            · exact (hb u).mpr (Or.inl h)
          · exact hg u hu' hur
      · rw [if_neg hskip]
        have hnot : (nsMem nb removed || V.getD nb false) = false :=
          Bool.eq_false_iff.mpr hskip
        obtain ⟨hnbrem, hnbvis⟩ := Bool.or_eq_false_iff.mp hnot
        have hVs : (V.set nb true).length = n := by
          rw [List.length_set]; exact hV
        have hLvs : (Lv.set nb (lvl + 1)).length = n := by
          rw [List.length_set]; exact hLv
        obtain ⟨added, V', Lv', heq, hV', hLv', hb, hc, hd, he, hf, hg⟩ :=
          ih (V.set nb true) (Lv.set nb (lvl + 1)) (Q ++ [nb])
            (fun x hx => hL x (List.mem_cons_of_mem _ hx)) hVs hLvs
        have hnbV : (V.set nb true).getD nb false = true :=
          getD_set_self' (hV ▸ hnbn)
        have hnbadd : nb ∉ added := by
          intro hmem
          obtain ⟨_, _, h3⟩ := hc nb hmem
          rw [hnbV] at h3
          exact Bool.noConfusion h3
        refine ⟨nb :: added, V', Lv', ?_, hV', hLv', ?_, ?_, ?_, ?_, ?_, ?_⟩
        · rw [heq, List.append_assoc]
          rfl
        · intro x
          rw [hb x]
          by_cases hx : x = nb
          · subst hx
            rw [hnbV]
            simp
          · have : (V.set nb true).getD x false = V.getD x false :=
              getD_set_ne' (fun h => hx h.symm)
            rw [this, List.mem_cons]
            constructor
            · rintro (h | h)
              · exact Or.inl h
              · exact Or.inr (Or.inr h)
            · rintro (h | rfl | h)
              · exact Or.inl h
              · exact absurd rfl hx
              · exact Or.inr h
        · intro x hx
          rcases List.mem_cons.mp hx with rfl | hx'
          · exact ⟨List.mem_cons_self _ _, hnbrem, hnbvis⟩
          · obtain ⟨h1, h2, h3⟩ := hc x hx'
            have hxnb : x ≠ nb := by
              intro h
              rw [h, hnbV] at h3
              exact Bool.noConfusion h3
            have : (V.set nb true).getD x false = V.getD x false :=
              getD_set_ne' (fun h => hxnb h.symm)
            rw [this] at h3
            exact ⟨List.mem_cons_of_mem _ h1, h2, h3⟩
        · intro x hx
          have hx1 : x ≠ nb := fun h => hx (h ▸ List.mem_cons_self _ _)
          have hx2 : x ∉ added := fun h => hx (List.mem_cons_of_mem _ h)
          rw [hd x hx2]
          exact getD_set_ne' (fun h => hx1 h.symm)
        · intro x hx
          rcases List.mem_cons.mp hx with rfl | hx'
          · rw [hd x hnbadd]
            exact getD_set_self' (hLv ▸ hnbn)
          · exact he x hx'
        · exact List.nodup_cons.mpr ⟨hnbadd, hf⟩
        · intro u hu hur
          rcases List.mem_cons.mp hu with rfl | hu'
          · exact (hb u).mpr (Or.inl hnbV)
          · exact hg u hu' hur


theorem getD_set_true_iff {row : List Bool} {cur x : Nat}
    (hc : cur < row.length) :
    (row.set cur true).getD x false = true
      ↔ (x = cur ∨ row.getD x false = true) := by
  by_cases hx : x = cur
  · subst hx
    rw [getD_set_self' hc]
    simp
  · rw [getD_set_ne' (fun h => hx h.symm)]
    simp [hx]

/-- One `bfsKLoop` step in the depth-exhausted branch preserves the
invariant: the dequeued vertex only moves from the queue into the row. -/
theorem bfsStepElse (n : Nat) (K : Int) (adj : AdjList) (removed : NodeSet)
    (v cur : Node) (visited : List Bool) (level : List Int)
    (rest : List Node) (row : List Bool) (cnt : Nat)
    (inv : BfsInv n K adj removed v visited level (cur :: rest) row cnt)
    (hKge : ¬ level.getD cur 0 < K) :
    BfsInv n K adj removed v visited level rest (row.set cur true)
      (cnt + 1) := by
  have hcurvis : visited.getD cur false = true :=
    (inv.hVisPart cur).mpr (Or.inr (List.mem_cons_self _ _))
  obtain ⟨hcurn, hcurrem⟩ := inv.hVisRange cur hcurvis
  have hcurrow : row.getD cur false = false :=
    inv.hQueueNotRow cur (List.mem_cons_self _ _)
  have hcl : cur < row.length := inv.hRowLen ▸ hcurn
  obtain ⟨hcurrest, hrestnd⟩ := List.nodup_cons.mp inv.hQueueNodup
  refine ⟨inv.hVisLen, inv.hLevLen, ?_, ?_, hrestnd, ?_, ?_, inv.hVisRange,
    inv.hLevSrc, inv.hVisSrc, List.Pairwise.of_cons inv.hSorted, ?_, ?_,
    inv.hVisSound, ?_⟩
  · rw [List.length_set]
    exact inv.hRowLen
  · rw [countTrue_set_true hcl hcurrow, inv.hCnt]
  · intro x hx
    have hxc : x ≠ cur := fun h => hcurrest (h ▸ hx)
    rw [getD_set_ne' (fun h => hxc h.symm)]
    exact inv.hQueueNotRow x (List.mem_cons_of_mem _ hx)
  · intro x
    rw [getD_set_true_iff hcl, (inv.hVisPart x)]
    constructor
    · rintro (h | h)
      · exact Or.inl (Or.inr h)
      · rcases List.mem_cons.mp h with rfl | h'
        · exact Or.inl (Or.inl rfl)
        · exact Or.inr h'
    · rintro ((rfl | h) | h)
      · exact Or.inr (List.mem_cons_self _ _)
      · exact Or.inl h
      · exact Or.inr (List.mem_cons_of_mem _ h)
  · intro a ha b hb
    exact inv.hSpread a (List.mem_cons_of_mem _ ha) b
      (List.mem_cons_of_mem _ hb)
  · intro x hx y hy
    rcases (getD_set_true_iff hcl).mp hx with rfl | hx'
    · exact (List.pairwise_cons.mp inv.hSorted).1 y hy
    · exact inv.hProcFront x hx' y (List.mem_cons_of_mem _ hy)
  · intro x hx hxK
    rcases (getD_set_true_iff hcl).mp hx with rfl | hx'
    · exact absurd hxK hKge
    · exact inv.hProcComplete x hx' hxK


/-- One `bfsKLoop` step in the expanding branch preserves the invariant:
the dequeued vertex moves into the row and its fresh unremoved neighbours
join the back of the queue at the next level. -/
theorem bfsStepThen (n : Nat) (K : Int) (adj : AdjList) (removed : NodeSet)
    (v cur : Node) (visited : List Bool) (level : List Int)
    (rest : List Node) (row : List Bool) (cnt : Nat)
    (inv : BfsInv n K adj removed v visited level (cur :: rest) row cnt)
    (hAdj : ∀ u x, nsMem x (adjAt adj u) = true → x < n)
    (hK : level.getD cur 0 < K) :
    ∃ (V' : List Bool) (Lv' : List Int) (added : List Node),
      (adjAt adj cur).foldl
          (fun (acc : List Bool × List Int × List Node) nb =>
            if nsMem nb removed || acc.1.getD nb false then acc
            else (acc.1.set nb true,
                  acc.2.1.set nb (level.getD cur 0 + 1), acc.2.2 ++ [nb]))
          (visited, level, rest)
        = (V', Lv', rest ++ added)
      ∧ BfsInv n K adj removed v V' Lv' (rest ++ added) (row.set cur true)
          (cnt + 1) := by
  have hcurvis : visited.getD cur false = true :=
    (inv.hVisPart cur).mpr (Or.inr (List.mem_cons_self _ _))
  obtain ⟨hcurn, hcurrem⟩ := inv.hVisRange cur hcurvis
  have hcurrow : row.getD cur false = false :=
    inv.hQueueNotRow cur (List.mem_cons_self _ _)
  have hcl : cur < row.length := inv.hRowLen ▸ hcurn
  obtain ⟨hcurrest, hrestnd⟩ := List.nodup_cons.mp inv.hQueueNodup
  obtain ⟨added, V', Lv', heq, hV', hLv', hb, hc, hd, he, hf, hg⟩ :=
    bfsNbFold n removed (level.getD cur 0) (adjAt adj cur) visited level rest
      (fun x hx => hAdj cur x (nsMem_iff.mpr hx)) inv.hVisLen inv.hLevLen
  have hnotadd : ∀ x, visited.getD x false = true → x ∉ added := by
    intro x hx hmem
    obtain ⟨_, _, h3⟩ := hc x hmem
    rw [hx] at h3
    exact Bool.noConfusion h3
  have hrestvis : ∀ x ∈ rest, visited.getD x false = true := by
    intro x hx
    exact (inv.hVisPart x).mpr (Or.inr (List.mem_cons_of_mem _ hx))
  have hrowvis : ∀ x, row.getD x false = true
      → visited.getD x false = true := by
    intro x hx
    exact (inv.hVisPart x).mpr (Or.inl hx)
  have hlevrest : ∀ x ∈ rest, Lv'.getD x 0 = level.getD x 0 := by
    intro x hx
    exact hd x (hnotadd x (hrestvis x hx))
  have hlevrow : ∀ x, row.getD x false = true
      → Lv'.getD x 0 = level.getD x 0 := by
    intro x hx
    exact hd x (hnotadd x (hrowvis x hx))
  have hlevcur : Lv'.getD cur 0 = level.getD cur 0 :=
    hd cur (hnotadd cur hcurvis)
  have hheadle : ∀ y ∈ rest, level.getD cur 0 ≤ level.getD y 0 :=
    (List.pairwise_cons.mp inv.hSorted).1
  have hspreadcur : ∀ y ∈ rest, level.getD y 0 ≤ level.getD cur 0 + 1 := by
    intro y hy
    exact inv.hSpread cur (List.mem_cons_self _ _) y
      (List.mem_cons_of_mem _ hy)
  refine ⟨V', Lv', added, heq,
    hV', hLv', ?_, ?_, ?_, ?_, ?_, ?_, ?_, ?_, ?_, ?_, ?_, ?_, ?_⟩
  · rw [List.length_set]
    exact inv.hRowLen
  · rw [countTrue_set_true hcl hcurrow, inv.hCnt]
  · exact List.Nodup.append hrestnd hf
      (fun a ha hamem => hnotadd a (hrestvis a ha) hamem)
  · intro x hx
    rcases List.mem_append.mp hx with hxr | hxa
    · have hxc : x ≠ cur := fun h => hcurrest (h ▸ hxr)
      rw [getD_set_ne' (fun h => hxc h.symm)]
      exact inv.hQueueNotRow x (List.mem_cons_of_mem _ hxr)
    · obtain ⟨_, _, hxvis⟩ := hc x hxa
      have hxc : x ≠ cur := by
        intro h
        rw [h, hcurvis] at hxvis
        exact Bool.noConfusion hxvis
      have hrowx : row.getD x false = false := by
        cases hrx : row.getD x false with
        | false => rfl
        | true =>
            rw [hrowvis x hrx] at hxvis
            exact Bool.noConfusion hxvis
      rw [getD_set_ne' (fun h => hxc h.symm)]
      exact hrowx
  · intro x
    rw [hb x, inv.hVisPart x, getD_set_true_iff hcl, List.mem_append,
      List.mem_cons]
    tauto
  · intro x hx
    rcases (hb x).mp hx with h | h
    · exact inv.hVisRange x h
    · obtain ⟨h1, h2, _⟩ := hc x h
      exact ⟨hAdj cur x (nsMem_iff.mpr h1), h2⟩
  · rw [hd v (hnotadd v inv.hVisSrc)]
    exact inv.hLevSrc
  · exact (hb v).mpr (Or.inl inv.hVisSrc)
  · rw [List.pairwise_append]
    refine ⟨?_, ?_, ?_⟩
    · refine (List.Pairwise.of_cons inv.hSorted).imp_of_mem ?_
      intro a b ha hb2 hr
      rw [hlevrest _ ha, hlevrest _ hb2]
      exact hr
    · refine List.pairwise_of_forall_mem_list ?_
      intro a ha b hb2
      rw [he a ha, he b hb2]
    · intro a ha b hb2
      rw [hlevrest a ha, he b hb2]
      have := hheadle a ha
      have h2 := hspreadcur a ha
      omega
  · intro a ha b hb2
    rcases List.mem_append.mp ha with har | haa
      <;> rcases List.mem_append.mp hb2 with hbr | hba
    · rw [hlevrest a har, hlevrest b hbr]
      exact inv.hSpread a (List.mem_cons_of_mem _ har) b
        (List.mem_cons_of_mem _ hbr)
    · rw [hlevrest a har, he b hba]
      have := hheadle a har
      omega
    · rw [he a haa, hlevrest b hbr]
      have := hspreadcur b hbr
      omega
    · rw [he a haa, he b hba]
      omega
  · intro x hx y hy
    rcases (getD_set_true_iff hcl).mp hx with rfl | hx'
    · rw [hlevcur]
      rcases List.mem_append.mp hy with h | h
      · rw [hlevrest y h]
        exact hheadle y h
      · rw [he y h]
        omega
    · rw [hlevrow x hx']
      rcases List.mem_append.mp hy with h | h
      · rw [hlevrest y h]
        exact inv.hProcFront x hx' y (List.mem_cons_of_mem _ h)
      · rw [he y h]
        have h1 := inv.hProcFront x hx' cur (List.mem_cons_self _ _)
        omega
  · intro x hx
    rcases (hb x).mp hx with h | h
    · rcases inv.hVisSound x h with h' | ⟨p, hp, hplen, hpK⟩
      · exact Or.inl h'
      · refine Or.inr ⟨p, hp, ?_, ?_⟩
        · rw [hd x (hnotadd x h)]
          exact hplen
        · rw [hd x (hnotadd x h)]
          exact hpK
    · refine Or.inr ?_
      obtain ⟨hxadj, hxrem, hxvis⟩ := hc x h
      have hxadjm : nsMem x (adjAt adj cur) = true := nsMem_iff.mpr hxadj
      rcases inv.hVisSound cur hcurvis with hcv | ⟨q, hq, hqlen, hqK⟩
      · subst hcv
        refine ⟨[cur] ++ [x], isPath_snoc (isPath_singleton hcurrem)
          hxadjm hxrem, ?_, ?_⟩
        · have hlen2 : (([cur] ++ [x]).length : Int) = 2 := rfl
          rw [hlen2, he x h, inv.hLevSrc]
          omega
        · rw [he x h, inv.hLevSrc]
          have := inv.hLevSrc
          omega
      · refine ⟨q ++ [x], isPath_snoc hq hxadjm hxrem, ?_, ?_⟩
        · have hlen1 : ((q ++ [x]).length : Int) = (q.length : Int) + 1 := by
            rw [List.length_append]
            push_cast
            rfl
          rw [hlen1, he x h]
          omega
        · rw [he x h]
          omega
  · intro x hx hxK u huadj hurem
    rcases (getD_set_true_iff hcl).mp hx with rfl | hx'
    · have hu' : u ∈ adjAt adj x := nsMem_iff.mp huadj
      refine ⟨hg u hu' hurem, ?_⟩
      rw [hlevcur]
      by_cases hua : u ∈ added
      · rw [he u hua]
      · rw [hd u hua]
        have hvisu : visited.getD u false = true := by
          rcases (hb u).mp (hg u hu' hurem) with h' | h'
          · exact h'
          · exact absurd h' hua
        rcases (inv.hVisPart u).mp hvisu with hru | hqu
        · have := inv.hProcFront u hru x (List.mem_cons_self _ _)
          omega
        · rcases List.mem_cons.mp hqu with rfl | hur
          · omega
          · have := hspreadcur u hur
            omega
    · have hxKold : level.getD x 0 < K := by
        rwa [hlevrow x hx'] at hxK
      obtain ⟨hviu, hlev⟩ := inv.hProcComplete x hx' hxKold u huadj hurem
      refine ⟨(hb u).mpr (Or.inl hviu), ?_⟩
      rw [hd u (hnotadd u hviu), hlevrow x hx']
      exact hlev


/-- Unfolding equation of `bfsKLoop` at a non-empty queue. -/
theorem bfsKLoop_cons (K : Int) (adj : AdjList) (removed : NodeSet)
    (fuel : Nat) (visited : List Bool) (level : List Int) (cur : Node)
    (rest : List Node) (row : List Bool) (cnt : Nat) :
    bfsKLoop K adj removed (fuel + 1) visited level (cur :: rest) row cnt
      = if level.getD cur 0 < K then
          (fun next : List Bool × List Int × List Node =>
            bfsKLoop K adj removed fuel next.1 next.2.1 next.2.2
              (row.set cur true) (cnt + 1))
            ((adjAt adj cur).foldl
              (fun (acc : List Bool × List Int × List Node) nb =>
                if nsMem nb removed || acc.1.getD nb false then acc
                else (acc.1.set nb true,
                      acc.2.1.set nb (level.getD cur 0 + 1),
                      acc.2.2 ++ [nb]))
              (visited, level, rest))
        else bfsKLoop K adj removed fuel visited level rest
          (row.set cur true) (cnt + 1) := rfl

/-- The master run lemma: with enough fuel the loop drains its queue and
the invariant transfers to the final row and count. -/
theorem bfsKLoop_inv (n : Nat) (K : Int) (adj : AdjList) (removed : NodeSet)
    (v : Node) (hAdj : ∀ u x, nsMem x (adjAt adj u) = true → x < n) :
    ∀ (fuel : Nat) (visited : List Bool) (level : List Int)
      (queue : List Node) (row : List Bool) (cnt : Nat),
      BfsInv n K adj removed v visited level queue row cnt →
      n < fuel + cnt →
      ∃ (V : List Bool) (L : List Int),
        BfsInv n K adj removed v V L []
          (bfsKLoop K adj removed fuel visited level queue row cnt).1
          (bfsKLoop K adj removed fuel visited level queue row cnt).2 := by
  intro fuel
  induction fuel with
  | zero =>
      intro visited level queue row cnt inv hfc
      exfalso
      have h1 := countTrue_le_length row
      rw [inv.hCnt, inv.hRowLen] at h1
      omega
  | succ fuel ih =>
      intro visited level queue row cnt inv hfc
      cases queue with
      | nil =>
          refine ⟨visited, level, ?_⟩
          have hstop : bfsKLoop K adj removed (fuel + 1) visited level []
              row cnt = (row, cnt) := rfl
          rw [hstop]
          exact inv
      | cons cur rest =>
          rw [bfsKLoop_cons]
          by_cases hK : level.getD cur 0 < K
          · rw [if_pos hK]
            obtain ⟨V', Lv', added, heq, inv'⟩ :=
              bfsStepThen n K adj removed v cur visited level rest row cnt
                inv hAdj hK
            rw [heq]
            exact ih V' Lv' (rest ++ added) (row.set cur true) (cnt + 1)
              inv' (by omega)
          · rw [if_neg hK]
            exact ih visited level rest (row.set cur true) (cnt + 1)
              (bfsStepElse n K adj removed v cur visited level rest row cnt
                inv hK) (by omega)


/-- Completeness at a drained queue: the endpoint of every unremoved path
of at most `K` edges from the source is in the row, at a level bounded by
the path length. -/
theorem bfs_complete (n : Nat) (K : Int) (adj : AdjList) (removed : NodeSet)
    (v : Node) (Vf : List Bool) (Lf : List Int) (rowf : List Bool)
    (cntf : Nat) (inv : BfsInv n K adj removed v Vf Lf [] rowf cntf) :
    ∀ (m : Nat) (p : List Node) (u : Node), p.length ≤ m →
      IsPath adj removed v u p → (p.length : Int) ≤ K + 1 →
      rowf.getD u false = true ∧ Lf.getD u 0 ≤ (p.length : Int) - 1 := by
  intro m
  induction m with
  | zero =>
      intro p u hlen hp _
      obtain ⟨h1, _, _, _⟩ := hp
      rw [List.length_eq_zero.mp (Nat.le_zero.mp hlen)] at h1
      exact Option.noConfusion h1
  | succ m ih =>
      intro p u hlen hp hpK
      by_cases h2 : 2 ≤ p.length
      · obtain ⟨q, w, hpq, hq, hedge⟩ := isPath_last_decomp hp h2
        have hql : q.length + 1 = p.length := by
          rw [hpq, List.length_append]
          rfl
        have hqm : q.length ≤ m := by omega
        have hcast : (q.length : Int) + 1 = (p.length : Int) := by
          rw [← hql]
          push_cast
          ring
        have hqK : (q.length : Int) ≤ K + 1 := by omega
        obtain ⟨hroww, hlevw⟩ := ih q w hqm hq hqK
        have hlevwK : Lf.getD w 0 < K := by omega
        have hurem : nsMem u removed = false := isPath_unremoved_dst hp
        obtain ⟨hvisu, hlevu⟩ :=
          inv.hProcComplete w hroww hlevwK u hedge hurem
        have hrowu : rowf.getD u false = true := by
          rcases (inv.hVisPart u).mp hvisu with h | h
          · exact h
          · exact absurd h (List.not_mem_nil u)
        exact ⟨hrowu, by omega⟩
      · have hpne : p ≠ [] := by
          intro h0
          obtain ⟨hh, _, _, _⟩ := hp
          rw [h0] at hh
          exact Option.noConfusion hh
        have h1 : p.length = 1 := by
          have := List.length_pos.mpr hpne
          omega
        obtain ⟨a, ha⟩ := List.length_eq_one.mp h1
        obtain ⟨hh, hl, _, _⟩ := hp
        rw [ha] at hh hl
        simp only [List.head?_cons, List.getLast?_singleton] at hh hl
        have hav : a = v := Option.some.inj hh
        have hau : a = u := Option.some.inj hl
        have hrowv : rowf.getD v false = true := by
          rcases (inv.hVisPart v).mp inv.hVisSrc with h | h
          · exact h
          · exact absurd h (List.not_mem_nil v)
        refine ⟨?_, ?_⟩
        · rw [← hau, hav]
          exact hrowv
        · rw [← hau, hav, inv.hLevSrc, h1]
          omega

/-- The invariant holds at the start of the BFS from an unremoved in-range
source. -/
theorem bfsInv_init (n : Nat) (K : Int) (adj : AdjList) (removed : NodeSet)
    (v : Node) (hvn : v < n) (hvrem : nsMem v removed = false) :
    BfsInv n K adj removed v ((List.replicate n false).set v true)
      (List.replicate n (0 : Int)) [v] (List.replicate n false) 0 := by
  have hvl : v < (List.replicate n (false : Bool)).length := by
    rw [List.length_replicate]
    exact hvn
  have hrow0 : ∀ x : Nat, (List.replicate n (false : Bool)).getD x false
      = false := by
    intro x
    rw [getD_replicate]
    split_ifs <;> rfl
  have hlev0 : ∀ x : Nat, (List.replicate n (0 : Int)).getD x 0 = 0 := by
    intro x
    rw [getD_replicate]
    split_ifs <;> rfl
  have hvis0 : ∀ x : Nat,
      (((List.replicate n (false : Bool)).set v true).getD x false = true)
        ↔ x = v := by
    intro x
    by_cases hx : x = v
    · subst hx
      rw [getD_set_self' hvl]
      simp
    · rw [getD_set_ne' (fun h => hx h.symm), hrow0]
      simp [hx]
  refine ⟨?_, ?_, ?_, ?_, ?_, ?_, ?_, ?_, ?_, ?_, ?_, ?_, ?_, ?_, ?_⟩
  · rw [List.length_set, List.length_replicate]
  · rw [List.length_replicate]
  · rw [List.length_replicate]
  · exact countTrue_replicate_false
  · exact List.nodup_singleton v
  · intro x hx
    rw [List.mem_singleton.mp hx]
    exact hrow0 v
  · intro x
    rw [hvis0 x, List.mem_singleton]
    constructor
    · intro h
      exact Or.inr h
    · rintro (h | h)
      · rw [hrow0 x] at h
        exact Bool.noConfusion h
      · exact h
  · intro x hx
    rw [hvis0 x] at hx
    subst hx
    exact ⟨hvn, hvrem⟩
  · exact hlev0 v
  · exact (hvis0 v).mpr rfl
  · exact List.pairwise_singleton _ _
  · intro a ha b hb
    rw [List.mem_singleton.mp ha, List.mem_singleton.mp hb]
    omega
  · intro x hx
    rw [hrow0 x] at hx
    exact Bool.noConfusion hx
  · intro x hx
    rw [hvis0 x] at hx
    exact Or.inl hx
  · intro x hx
    rw [hrow0 x] at hx
    exact Bool.noConfusion hx


/-- `bfsKTree st v` only touches row `v` and `treeSize[v]`. -/
theorem bfsKTree_other (st : DcnpState) (v w : Node) (hw : w ≠ v) :
    (bfsKTree st v).intree.getD w [] = st.intree.getD w []
      ∧ (bfsKTree st v).treeSize.getD w 0 = st.treeSize.getD w 0 := by
  unfold bfsKTree
  by_cases hrem : nsMem v st.removedNodes = true
  · rw [if_pos hrem]
    exact ⟨getD_set_ne' (fun h => hw h.symm),
      getD_set_ne' (fun h => hw h.symm)⟩
  · rw [if_neg hrem]
    exact ⟨getD_set_ne' (fun h => hw h.symm),
      getD_set_ne' (fun h => hw h.symm)⟩

theorem bfsKTree_lengths (st : DcnpState) (v : Node) :
    (bfsKTree st v).intree.length = st.intree.length
      ∧ (bfsKTree st v).treeSize.length = st.treeSize.length := by
  unfold bfsKTree
  by_cases hrem : nsMem v st.removedNodes = true
  · rw [if_pos hrem]
    exact ⟨List.length_set _ _ _, List.length_set _ _ _⟩
  · rw [if_neg hrem]
    exact ⟨List.length_set _ _ _, List.length_set _ _ _⟩

/-- The per-row specification of the K-hop table: a removed vertex has an
all-zero row and zero stored size; an unremoved vertex's row is the
indicator of its depth-`K` ball and its stored size is the row's count
minus one. -/
def RowSpec (st : DcnpState) (v : Node) : Prop :=
  v < st.numNodes →
    ((nsMem v st.removedNodes = true →
        st.intree.getD v [] = List.replicate st.numNodes false
      ∧ st.treeSize.getD v 0 = 0)
    ∧ (nsMem v st.removedNodes = false →
        (st.intree.getD v []).length = st.numNodes
      ∧ (∀ u, (st.intree.getD v []).getD u false = true
          ↔ (u = v ∨ BallMem st.currentAdjList st.removedNodes st.kHops v u))
      ∧ st.treeSize.getD v 0 = (countTrue (st.intree.getD v []) : Int) - 1))

/-- `bfsKTree` establishes the row specification at the rebuilt row. -/
theorem bfsKTree_rowSpec (st : DcnpState) (v : Node)
    (hAdj : ∀ u x, nsMem x (adjAt st.currentAdjList u) = true
      → x < st.numNodes)
    (hIL : st.intree.length = st.numNodes)
    (hTL : st.treeSize.length = st.numNodes) :
    RowSpec (bfsKTree st v) v := by
  unfold RowSpec
  obtain ⟨hfadj, hfrem, _, _, hfn, hfK, _, _⟩ := bfsKTree_preserves_frame st v
  rw [hfadj, hfrem, hfn, hfK]
  intro hvn
  by_cases hrem : nsMem v st.removedNodes = true
  · have hit : (bfsKTree st v).intree
        = st.intree.set v (List.replicate st.numNodes false) := by
      unfold bfsKTree
      rw [if_pos hrem]
    have hts : (bfsKTree st v).treeSize = st.treeSize.set v 0 := by
      unfold bfsKTree
      rw [if_pos hrem]
    rw [hit, hts]
    constructor
    · intro _
      exact ⟨getD_set_self' (hIL ▸ hvn), getD_set_self' (hTL ▸ hvn)⟩
    · intro hcon
      rw [hrem] at hcon
      exact Bool.noConfusion hcon
  · have hremf : nsMem v st.removedNodes = false := Bool.eq_false_iff.mpr hrem
    have hit : (bfsKTree st v).intree
        = st.intree.set v (bfsKLoop st.kHops st.currentAdjList
            st.removedNodes (st.numNodes + 1)
            ((List.replicate st.numNodes false).set v true)
            (List.replicate st.numNodes (0 : Int)) [v]
            (List.replicate st.numNodes false) 0).1 := by
      unfold bfsKTree
      rw [if_neg hrem]
    have hts : (bfsKTree st v).treeSize
        = st.treeSize.set v
            (if 0 < (bfsKLoop st.kHops st.currentAdjList
                st.removedNodes (st.numNodes + 1)
                ((List.replicate st.numNodes false).set v true)
                (List.replicate st.numNodes (0 : Int)) [v]
                (List.replicate st.numNodes false) 0).2 then
              ((bfsKLoop st.kHops st.currentAdjList
                st.removedNodes (st.numNodes + 1)
                ((List.replicate st.numNodes false).set v true)
                (List.replicate st.numNodes (0 : Int)) [v]
                (List.replicate st.numNodes false) 0).2 : Int) - 1
            else 0) := by
      unfold bfsKTree
      rw [if_neg hrem]
    obtain ⟨Vf, Lf, invf⟩ := bfsKLoop_inv st.numNodes st.kHops
      st.currentAdjList st.removedNodes v hAdj (st.numNodes + 1)
      ((List.replicate st.numNodes false).set v true)
      (List.replicate st.numNodes (0 : Int)) [v]
      (List.replicate st.numNodes false) 0
      (bfsInv_init st.numNodes st.kHops st.currentAdjList st.removedNodes v
        hvn hremf) (by omega)
    have hrowv : (bfsKLoop st.kHops st.currentAdjList st.removedNodes
        (st.numNodes + 1) ((List.replicate st.numNodes false).set v true)
        (List.replicate st.numNodes (0 : Int)) [v]
        (List.replicate st.numNodes false) 0).1.getD v false = true := by
      rcases (invf.hVisPart v).mp invf.hVisSrc with h | h
      · exact h
      · exact absurd h (List.not_mem_nil v)
    have hcntpos : 0 < (bfsKLoop st.kHops st.currentAdjList st.removedNodes
        (st.numNodes + 1) ((List.replicate st.numNodes false).set v true)
        (List.replicate st.numNodes (0 : Int)) [v]
        (List.replicate st.numNodes false) 0).2 := by
      rw [← invf.hCnt]
      exact countTrue_pos hrowv
    rw [hit, hts]
    constructor
    · intro hcon
      rw [hremf] at hcon
      exact Bool.noConfusion hcon
    · intro _
      rw [getD_set_self' (hIL ▸ hvn), getD_set_self' (hTL ▸ hvn)]
      refine ⟨invf.hRowLen, ?_, ?_⟩
      · intro u
        constructor
        · intro hu
          have hvisu := (invf.hVisPart u).mpr (Or.inl hu)
          rcases invf.hVisSound u hvisu with h | ⟨p, hp, hplen, hpK⟩
          · exact Or.inl h
          · exact Or.inr ⟨p, hp, by omega⟩
        · rintro (rfl | ⟨p, hp, hplen⟩)
          · exact hrowv
          · exact (bfs_complete st.numNodes st.kHops st.currentAdjList
              st.removedNodes v Vf Lf _ _ invf p.length p u (Nat.le_refl _)
              hp hplen).1
      · rw [if_pos hcntpos, invf.hCnt]


theorem foldl_bfs_guard_frame2 (guard : Nat → Bool) :
    ∀ (l : List Nat) (s : DcnpState),
      ((l.foldl (fun acc i => if guard i then bfsKTree acc i else acc)
          s).numNodes = s.numNodes)
        ∧ ((l.foldl (fun acc i => if guard i then bfsKTree acc i else acc)
            s).kHops = s.kHops)
        ∧ ((l.foldl (fun acc i => if guard i then bfsKTree acc i else acc)
            s).originalAdjList = s.originalAdjList)
        ∧ ((l.foldl (fun acc i => if guard i then bfsKTree acc i else acc)
            s).originalNodesSet = s.originalNodesSet) := by
  intro l
  induction l with
  | nil => intro s; exact ⟨rfl, rfl, rfl, rfl⟩
  | cons i rest ih =>
      intro s
      rw [List.foldl_cons]
      by_cases h : guard i
      · rw [if_pos h]
        obtain ⟨h1, h2, h3, h4⟩ := ih (bfsKTree s i)
        obtain ⟨_, _, _, _, g5, g6, g7, g8⟩ := bfsKTree_preserves_frame s i
        exact ⟨h1.trans g5, h2.trans g6, h3.trans g7, h4.trans g8⟩
      · rw [if_neg h]
        exact ih s

/-- Transporting a row specification along equalities of the relevant
state components. -/
theorem rowSpec_transfer {s t : DcnpState} (v : Node)
    (h1 : t.numNodes = s.numNodes) (h2 : t.removedNodes = s.removedNodes)
    (h3 : t.currentAdjList = s.currentAdjList) (h4 : t.kHops = s.kHops)
    (h5 : t.intree.getD v [] = s.intree.getD v [])
    (h6 : t.treeSize.getD v 0 = s.treeSize.getD v 0)
    (h : RowSpec s v) : RowSpec t v := by
  unfold RowSpec at *
  rw [h1, h2, h3, h4, h5, h6]
  exact h

/-- A guarded fold of row rebuilds: every rebuilt row satisfies the row
specification, every other row is untouched, lengths are preserved. -/
theorem foldl_bfsKTree_rows (guard : Nat → Bool) :
    ∀ (l : List Nat) (s : DcnpState),
      (∀ u x, nsMem x (adjAt s.currentAdjList u) = true → x < s.numNodes) →
      s.intree.length = s.numNodes → s.treeSize.length = s.numNodes →
      (∀ w, w ∈ l → guard w = true →
        RowSpec (l.foldl (fun acc i => if guard i then bfsKTree acc i
          else acc) s) w)
      ∧ (∀ w, (w ∉ l ∨ guard w = false) →
          (l.foldl (fun acc i => if guard i then bfsKTree acc i else acc)
              s).intree.getD w [] = s.intree.getD w []
          ∧ (l.foldl (fun acc i => if guard i then bfsKTree acc i else acc)
              s).treeSize.getD w 0 = s.treeSize.getD w 0)
      ∧ (l.foldl (fun acc i => if guard i then bfsKTree acc i else acc)
          s).intree.length = s.numNodes
      ∧ (l.foldl (fun acc i => if guard i then bfsKTree acc i else acc)
          s).treeSize.length = s.numNodes := by
  intro l
  induction l with
  | nil =>
      intro s _ hIL hTL
      refine ⟨?_, ?_, hIL, hTL⟩
      · intro w hw
        exact absurd hw (List.not_mem_nil w)
      · intro w _
        exact ⟨rfl, rfl⟩
  | cons i rest ih =>
      intro s hAdj hIL hTL
      rw [List.foldl_cons]
      by_cases hgi : guard i = true
      · rw [if_pos hgi]
        obtain ⟨f1, f2, _, _⟩ := bfsKTree_preserves_frame s i
        obtain ⟨_, _, _, _, f5, _, _, _⟩ := bfsKTree_preserves_frame s i
        obtain ⟨l1, l2⟩ := bfsKTree_lengths s i
        have hAdj1 : ∀ u x,
            nsMem x (adjAt (bfsKTree s i).currentAdjList u) = true
              → x < (bfsKTree s i).numNodes := by
          rw [f1, f5]
          exact hAdj
        have hIL1 : (bfsKTree s i).intree.length = (bfsKTree s i).numNodes := by
          rw [l1, f5]
          exact hIL
        have hTL1 : (bfsKTree s i).treeSize.length
            = (bfsKTree s i).numNodes := by
          rw [l2, f5]
          exact hTL
        obtain ⟨p1, p2, p3, p4⟩ := ih (bfsKTree s i) hAdj1 hIL1 hTL1
        obtain ⟨q1, q2, _, _⟩ := foldl_bfs_guard_preserves_frame guard rest
          (bfsKTree s i)
        obtain ⟨q5, q6, _, _⟩ := foldl_bfs_guard_frame2 guard rest
          (bfsKTree s i)
        refine ⟨?_, ?_, by rw [p3, f5], by rw [p4, f5]⟩
        · intro w hw hgw
          rcases List.mem_cons.mp hw with rfl | hw'
          · by_cases hwr : w ∈ rest
            · exact p1 w hwr hgw
            · obtain ⟨r1, r2⟩ := p2 w (Or.inl hwr)
              refine rowSpec_transfer w ?_ ?_ ?_ ?_ ?_ ?_
                (bfsKTree_rowSpec s w hAdj hIL hTL)
              · rw [q5, f5]
              · rw [q2, f2]
              · rw [q1, f1]
              · rw [q6]
              · exact r1
              · exact r2
          · exact p1 w hw' hgw
        · intro w hw
          have hw2 : w ∉ rest ∨ guard w = false := by
            rcases hw with h | h
            · exact Or.inl (fun hh => h (List.mem_cons_of_mem _ hh))
            · exact Or.inr h
          obtain ⟨r1, r2⟩ := p2 w hw2
          have hwi : w ≠ i := by
            intro h
            rcases hw with h' | h'
            · exact h' (h ▸ List.mem_cons_self _ _)
            · rw [h] at h'
              rw [h'] at hgi
              exact Bool.noConfusion hgi
          obtain ⟨o1, o2⟩ := bfsKTree_other s i w hwi
          exact ⟨r1.trans o1, r2.trans o2⟩
      · rw [if_neg hgi]
        obtain ⟨p1, p2, p3, p4⟩ := ih s hAdj hIL hTL
        refine ⟨?_, ?_, p3, p4⟩
        · intro w hw hgw
          rcases List.mem_cons.mp hw with rfl | hw'
          · exact absurd hgw hgi
          · exact p1 w hw' hgw
        · intro w hw
          refine p2 w ?_
          rcases hw with h | h
          · exact Or.inl (fun hh => h (List.mem_cons_of_mem _ hh))
          · exact Or.inr h


theorem buildTree_frame (s : DcnpState) :
    (buildTree s).currentAdjList = s.currentAdjList
      ∧ (buildTree s).removedNodes = s.removedNodes
      ∧ (buildTree s).numNodes = s.numNodes
      ∧ (buildTree s).kHops = s.kHops
      ∧ (buildTree s).originalAdjList = s.originalAdjList
      ∧ (buildTree s).originalNodesSet = s.originalNodesSet := by
  have heq : buildTree s = (List.range s.numNodes).foldl
      (fun acc i => if (fun _ : Nat => true) i then bfsKTree acc i else acc)
      s := rfl
  rw [heq]
  obtain ⟨a1, a2, _, _⟩ := foldl_bfs_guard_preserves_frame (fun _ => true)
    (List.range s.numNodes) s
  obtain ⟨b1, b2, b3, b4⟩ := foldl_bfs_guard_frame2 (fun _ => true)
    (List.range s.numNodes) s
  exact ⟨a1, a2, b1, b2, b3, b4⟩

/-- `buildTree` establishes the row specification everywhere. -/
theorem buildTree_rows (s : DcnpState)
    (hAdj : ∀ u x, nsMem x (adjAt s.currentAdjList u) = true
      → x < s.numNodes)
    (hIL : s.intree.length = s.numNodes)
    (hTL : s.treeSize.length = s.numNodes) :
    (∀ w, RowSpec (buildTree s) w)
      ∧ (buildTree s).intree.length = s.numNodes
      ∧ (buildTree s).treeSize.length = s.numNodes := by
  have heq : buildTree s = (List.range s.numNodes).foldl
      (fun acc i => if (fun _ : Nat => true) i then bfsKTree acc i else acc)
      s := rfl
  obtain ⟨p1, _, p3, p4⟩ := foldl_bfsKTree_rows (fun _ => true)
    (List.range s.numNodes) s hAdj hIL hTL
  obtain ⟨q5, _, _, _⟩ := foldl_bfs_guard_frame2 (fun _ => true)
    (List.range s.numNodes) s
  rw [heq]
  refine ⟨?_, p3, p4⟩
  intro w
  by_cases hw : w < s.numNodes
  · exact p1 w (List.mem_range.mpr hw) rfl
  · unfold RowSpec
    intro hvn
    rw [q5] at hvn
    exact absurd hvn hw

/-- The global K-hop invariant of the DCNP engine: the current adjacency
always equals the (symmetric, in-range) original adjacency, the tables have
full length and every row satisfies its specification. -/
structure KhopInv (st : DcnpState) : Prop where
  hCur : st.currentAdjList = st.originalAdjList
  hAL : st.originalAdjList.length = st.numNodes
  hIL : st.intree.length = st.numNodes
  hTL : st.treeSize.length = st.numNodes
  hAdjRange : ∀ u x, nsMem x (adjAt st.originalAdjList u) = true
    → x < st.numNodes
  hAdjSym : ∀ a b, nsMem b (adjAt st.originalAdjList a) = true
    ↔ nsMem a (adjAt st.originalAdjList b) = true
  hRows : ∀ v, RowSpec st v

theorem buildTree_inv (s : DcnpState)
    (hCur : s.currentAdjList = s.originalAdjList)
    (hAL : s.originalAdjList.length = s.numNodes)
    (hIL : s.intree.length = s.numNodes)
    (hTL : s.treeSize.length = s.numNodes)
    (hAdjRange : ∀ u x, nsMem x (adjAt s.originalAdjList u) = true
      → x < s.numNodes)
    (hAdjSym : ∀ a b, nsMem b (adjAt s.originalAdjList a) = true
      ↔ nsMem a (adjAt s.originalAdjList b) = true) :
    KhopInv (buildTree s) := by
  have hAdjC : ∀ u x, nsMem x (adjAt s.currentAdjList u) = true
      → x < s.numNodes := by
    rw [hCur]
    exact hAdjRange
  obtain ⟨hrows, hIL', hTL'⟩ := buildTree_rows s hAdjC hIL hTL
  obtain ⟨f1, _, f3, _, f5, _⟩ := buildTree_frame s
  refine ⟨?_, ?_, ?_, ?_, ?_, ?_, hrows⟩
  · rw [f1, f5, hCur]
  · rw [f5, f3, hAL]
  · rw [f3]
    exact hIL'
  · rw [f3]
    exact hTL'
  · rw [f5, f3]
    exact hAdjRange
  · rw [f5]
    exact hAdjSym

/-- A freshly built DCNP engine over a symmetric in-range adjacency list
satisfies the K-hop invariant. -/
theorem dcnpBuild_inv (nodes : NodeSet) (K : Int) (adjList : AdjList)
    (b : Int)
    (hsym : ∀ a c, nsMem c (adjAt adjList a) = true
      ↔ nsMem a (adjAt adjList c) = true)
    (hrange : ∀ u x, nsMem x (adjAt adjList u) = true → x < nodes.length)
    (hlen : adjList.length = nodes.length) :
    KhopInv (dcnpBuild nodes K adjList b) := by
  unfold dcnpBuild
  refine buildTree_inv _ rfl hlen ?_ ?_ hrange hsym
  · exact List.length_replicate _ _
  · exact List.length_replicate _ _

/-- `updateGraphByRemovedNodes` preserves the K-hop invariant (for any
requested mask). -/
theorem dcnpUpdate_inv (st : DcnpState) (inv : KhopInv st) (ns : NodeSet) :
    KhopInv (dcnpUpdateGraphByRemovedNodes st ns) := by
  unfold dcnpUpdateGraphByRemovedNodes
  exact buildTree_inv _ rfl inv.hAL inv.hIL inv.hTL inv.hAdjRange inv.hAdjSym



theorem nsMem_filter_iff {x : Node} {l : NodeSet} {p : Node → Bool} :
    nsMem x (l.filter p) = true ↔ (x ∈ l ∧ p x = true) := by
  rw [nsMem_iff, List.mem_filter]

theorem filter_notin_nil (l : NodeSet) :
    l.filter (fun y => decide (y ∉ ([] : List Node))) = l := by
  simp

theorem filter_notin_append_singleton {l : NodeSet} {P : List Node}
    {v : Node} (hv : v ∉ l) :
    l.filter (fun y => decide (y ∉ P ++ [v]))
      = l.filter (fun y => decide (y ∉ P)) := by
  refine List.filter_congr ?_
  intro y hy
  have hyv : y ≠ v := fun h => hv (h ▸ hy)
  simp [List.mem_append, hyv]

theorem nsErase_filter_notin {l : NodeSet} {P : List Node} {v : Node} :
    nsErase v (l.filter (fun y => decide (y ∉ P)))
      = l.filter (fun y => decide (y ∉ P ++ [v])) := by
  unfold nsErase
  rw [List.filter_filter]
  refine List.filter_congr ?_
  intro y _
  by_cases h1 : y = v <;> by_cases h2 : y ∈ P <;>
    simp [h1, h2, List.mem_append]

theorem nsErase_nil (v : Node) : nsErase v [] = [] := rfl

/-- Pointwise characterisation of the permanent-deletion fold of
`getReducedGraphByRemovedNodes`: after deleting the vertices of `R`
(having already deleted those of `P`) the surviving original adjacency is
the pristine one with deleted rows cleared and deleted vertices filtered
out of the remaining rows. -/
theorem reduceFold_adj (Orig : AdjList) (n : Nat)
    (hAL : Orig.length = n)
    (hsym : ∀ a c, nsMem c (adjAt Orig a) = true
      ↔ nsMem a (adjAt Orig c) = true) :
    ∀ (R P : List Node) (acc : DcnpState),
      acc.currentAdjList = Orig →
      acc.originalAdjList.length = n →
      (∀ x, adjAt acc.originalAdjList x
        = if x ∈ P then []
          else (adjAt Orig x).filter (fun y => decide (y ∉ P))) →
      ∀ res, res = R.foldl (fun (acc2 : DcnpState) node =>
          let origMinus := (adjAt acc2.currentAdjList node).foldl
            (fun (adj : AdjList) neighbor =>
              adj.set neighbor (nsErase node (adjAt adj neighbor)))
            acc2.originalAdjList
          { acc2 with
              originalNodesSet := nsErase node acc2.originalNodesSet,
              originalAdjList := origMinus.set node [] }) acc →
      res.currentAdjList = Orig
      ∧ res.originalAdjList.length = n
      ∧ (∀ x, adjAt res.originalAdjList x
          = if x ∈ P ++ R then []
            else (adjAt Orig x).filter (fun y => decide (y ∉ P ++ R)))
      ∧ res.numNodes = acc.numNodes ∧ res.kHops = acc.kHops
      ∧ res.intree = acc.intree ∧ res.treeSize = acc.treeSize
      ∧ res.removedNodes = acc.removedNodes := by
  intro R
  induction R with
  | nil =>
      intro P acc h1 h2 h3 res hres
      subst hres
      refine ⟨h1, h2, ?_, rfl, rfl, rfl, rfl, rfl⟩
      intro x
      rw [List.append_nil]
      exact h3 x
  | cons node R ih =>
      intro P acc h1 h2 h3 res hres
      rw [List.foldl_cons] at hres
      have hfoldlen : ((adjAt acc.currentAdjList node).foldl
          (fun (adj : AdjList) neighbor =>
            adj.set neighbor (nsErase node (adjAt adj neighbor)))
          acc.originalAdjList).length = n := by
        rw [eraseFold_length]
        exact h2
      have pre2 : (((adjAt acc.currentAdjList node).foldl
          (fun (adj : AdjList) neighbor =>
            adj.set neighbor (nsErase node (adjAt adj neighbor)))
          acc.originalAdjList).set node []).length = n := by
        rw [List.length_set]
        exact hfoldlen
      have pre3 : ∀ x, adjAt (((adjAt acc.currentAdjList node).foldl
          (fun (adj : AdjList) neighbor =>
            adj.set neighbor (nsErase node (adjAt adj neighbor)))
          acc.originalAdjList).set node []) x
          = if x ∈ P ++ [node] then []
            else (adjAt Orig x).filter
              (fun y => decide (y ∉ P ++ [node])) := by
        intro x
        by_cases hxn : x = node
        · subst hxn
          rw [if_pos (List.mem_append.mpr
            (Or.inr (List.mem_singleton.mpr rfl)))]
          by_cases hlt : x < n
          · exact adjAt_set_self (by rw [hfoldlen]; exact hlt)
          · refine adjAt_of_length_le ?_
            rw [List.length_set, hfoldlen]
            exact Nat.le_of_not_lt hlt
        · rw [adjAt_set_ne (fun h => hxn h.symm), eraseFold_at, h1, h2]
          have hxmem : (x ∈ P ++ [node]) ↔ (x ∈ P) := by
            rw [List.mem_append, List.mem_singleton]
            constructor
            · rintro (h | h)
              · exact h
              · exact absurd h hxn
            · exact Or.inl
          by_cases hxP : x ∈ P
          · rw [if_pos (hxmem.mpr hxP)]
            have h3x : adjAt acc.originalAdjList x = [] := by
              rw [h3 x, if_pos hxP]
            rw [h3x]
            split_ifs
            · rw [nsErase_nil]
            · rfl
          · rw [if_neg (fun h => hxP (hxmem.mp h))]
            have h3x : adjAt acc.originalAdjList x
                = (adjAt Orig x).filter (fun y => decide (y ∉ P)) := by
              rw [h3 x, if_neg hxP]
            by_cases hxM : x ∈ adjAt Orig node
            · by_cases hxlt : x < n
              · rw [if_pos ⟨hxM, hxlt⟩, h3x, nsErase_filter_notin]
              · rw [if_neg (fun h => hxlt h.2), h3x]
                have hOx : adjAt Orig x = [] := by
                  refine adjAt_of_length_le ?_
                  rw [hAL]
                  exact Nat.le_of_not_lt hxlt
                rw [hOx]
                rfl
            · rw [if_neg (fun h => hxM h.1), h3x]
              have hnode : node ∉ adjAt Orig x := by
                intro hmem
                exact hxM (nsMem_iff.mp
                  ((hsym x node).mp (nsMem_iff.mpr hmem)))
              exact (filter_notin_append_singleton hnode).symm
      obtain ⟨c1, c2, c3, c4, c5, c6, c7, c8⟩ :=
        ih (P ++ [node])
          { acc with
              originalNodesSet := nsErase node acc.originalNodesSet,
              originalAdjList := ((adjAt acc.currentAdjList node).foldl
                (fun (adj : AdjList) neighbor =>
                  adj.set neighbor (nsErase node (adjAt adj neighbor)))
                acc.originalAdjList).set node [] }
          h1 pre2 pre3 res hres
      refine ⟨c1, c2, ?_, c4, c5, c6, c7, c8⟩
      intro x
      rw [List.append_cons]
      exact c3 x


/-- `getReducedGraphByRemovedNodes` preserves the K-hop invariant (for any
requested deletion set). -/
theorem dcnpGetReduced_inv (st : DcnpState) (inv : KhopInv st)
    (ns : NodeSet) : KhopInv (dcnpGetReducedGraphByRemovedNodes st ns) := by
  unfold dcnpGetReducedGraphByRemovedNodes
  obtain ⟨c1, c2, c3, c4, c5, c6, c7, c8⟩ :=
    reduceFold_adj st.originalAdjList st.numNodes inv.hAL inv.hAdjSym ns []
      { st with removedNodes := ([] : NodeSet),
                numToRemove := st.numToRemove - ns.length }
      inv.hCur inv.hAL
      (by
        intro x
        rw [if_neg (List.not_mem_nil x), filter_notin_nil])
      _ rfl
  simp only [List.nil_append] at c3
  refine buildTree_inv _ rfl ?_ ?_ ?_ ?_ ?_
  · rw [c2, c4]
  · rw [c6, c4]
    exact inv.hIL
  · rw [c7, c4]
    exact inv.hTL
  · intro u x hx
    rw [c3 u] at hx
    by_cases hu : u ∈ ns
    · rw [if_pos hu] at hx
      exact Bool.noConfusion hx
    · rw [if_neg hu] at hx
      obtain ⟨hmem, _⟩ := nsMem_filter_iff.mp hx
      have := inv.hAdjRange u x (nsMem_iff.mpr hmem)
      rw [c4]
      exact this
  · intro a c
    rw [c3 a, c3 c]
    by_cases ha : a ∈ ns <;> by_cases hc : c ∈ ns
    · rw [if_pos ha, if_pos hc]
      exact ⟨fun h => Bool.noConfusion h, fun h => Bool.noConfusion h⟩
    · rw [if_pos ha, if_neg hc]
      constructor
      · intro h
        exact Bool.noConfusion h
      · intro h
        obtain ⟨_, hdec⟩ := nsMem_filter_iff.mp h
        exact absurd ha (of_decide_eq_true hdec)
    · rw [if_neg ha, if_pos hc]
      constructor
      · intro h
        obtain ⟨_, hdec⟩ := nsMem_filter_iff.mp h
        exact absurd hc (of_decide_eq_true hdec)
      · intro h
        exact Bool.noConfusion h
    · rw [if_neg ha, if_neg hc]
      constructor
      · intro h
        obtain ⟨hmem, _⟩ := nsMem_filter_iff.mp h
        refine nsMem_filter_iff.mpr ⟨?_, ?_⟩
        · exact nsMem_iff.mp ((inv.hAdjSym a c).mp (nsMem_iff.mpr hmem))
        · exact decide_eq_true ha
      · intro h
        obtain ⟨hmem, _⟩ := nsMem_filter_iff.mp h
        refine nsMem_filter_iff.mpr ⟨?_, ?_⟩
        · exact nsMem_iff.mp ((inv.hAdjSym c a).mp (nsMem_iff.mpr hmem))
        · exact decide_eq_true hc


theorem nsMem_nsErase_iff {x v : Node} {s : NodeSet} :
    nsMem x (nsErase v s) = true ↔ (x ≠ v ∧ nsMem x s = true) := by
  unfold nsErase
  rw [nsMem_iff, List.mem_filter, nsMem_iff]
  constructor
  · rintro ⟨h1, h2⟩
    exact ⟨of_decide_eq_true h2, h1⟩
  · rintro ⟨h1, h2⟩
    exact ⟨h2, decide_eq_true h1⟩

theorem nsMem_nsInsert_iff {x v : Node} {s : NodeSet} :
    nsMem x (nsInsert v s) = true ↔ (x = v ∨ nsMem x s = true) := by
  rw [nsMem_iff, mem_nsInsert, nsMem_iff]

/-- A prefix of an unremoved path up to any of its vertices is an
unremoved path. -/
theorem isPath_prefix_to_mem {adj : AdjList} {removed : NodeSet}
    {v u x : Node} {p : List Node} (hp : IsPath adj removed v u p)
    (hx : x ∈ p) :
    ∃ q, IsPath adj removed v x q ∧ q.length ≤ p.length := by
  obtain ⟨s, t, hst⟩ := List.append_of_mem hx
  obtain ⟨h1, _, h3, h4⟩ := hp
  rw [hst, List.append_cons] at h1 h3
  have hsxne : s ++ [x] ≠ [] := by
    intro h
    exact absurd (List.append_eq_nil.mp h).2 (by simp)
  refine ⟨s ++ [x], ⟨?_, ?_, ?_, ?_⟩, ?_⟩
  · rw [List.head?_append_of_ne_nil _ hsxne] at h1
    exact h1
  · exact List.getLast?_concat _
  · exact (List.chain'_append.mp h3).1
  · intro y hy
    refine h4 y ?_
    rw [hst, List.append_cons]
    exact List.mem_append.mpr (Or.inl hy)
  · rw [hst]
    simp only [List.length_append, List.length_cons, List.length_nil]
    omega

/-- If the two masks agree away from `v`, `v` is removed in the larger
mask and `v` is outside the small-mask ball of `i`, the two balls of `i`
coincide. -/
theorem ballMem_mask_eq {adj : AdjList} {remS remL : NodeSet} {K : Int}
    {i v : Node}
    (hsub : ∀ x, nsMem x remL = false → nsMem x remS = false)
    (hdiff : ∀ x, x ≠ v → nsMem x remS = false → nsMem x remL = false)
    (hvi : ¬ BallMem adj remS K i v) (u : Node) :
    BallMem adj remS K i u ↔ BallMem adj remL K i u := by
  constructor
  · rintro ⟨p, hp, hlen⟩
    by_cases hvp : v ∈ p
    · obtain ⟨q, hq, hql⟩ := isPath_prefix_to_mem hp hvp
      refine absurd ⟨q, hq, ?_⟩ hvi
      have : (q.length : Int) ≤ (p.length : Int) := by
        exact_mod_cast hql
      omega
    · obtain ⟨h1, h2, h3, h4⟩ := hp
      refine ⟨p, ⟨h1, h2, h3, ?_⟩, hlen⟩
      intro x hx
      exact hdiff x (fun h => hvp (h ▸ hx)) (h4 x hx)
  · rintro ⟨p, ⟨h1, h2, h3, h4⟩, hlen⟩
    exact ⟨p, ⟨h1, h2, h3, fun x hx => hsub x (h4 x hx)⟩, hlen⟩

/-- Ball members are either the source or in-range vertices. -/
theorem ballMem_lt {adj : AdjList} {rem : NodeSet} {K : Int} {v u : Node}
    {n : Nat}
    (hAdj : ∀ a x, nsMem x (adjAt adj a) = true → x < n)
    (hb : BallMem adj rem K v u) : u = v ∨ u < n := by
  obtain ⟨p, hp, _⟩ := hb
  by_cases h2 : 2 ≤ p.length
  · obtain ⟨_, w, _, _, hedge⟩ := isPath_last_decomp hp h2
    exact Or.inr (hAdj w u hedge)
  · obtain ⟨h1, hl, _, _⟩ := hp
    have hpne : p ≠ [] := by
      intro h0
      rw [h0] at h1
      exact Option.noConfusion h1
    have hlen1 : p.length = 1 := by
      have := List.length_pos.mpr hpne
      omega
    obtain ⟨a, ha⟩ := List.length_eq_one.mp hlen1
    rw [ha] at h1 hl
    simp only [List.head?_cons, List.getLast?_singleton] at h1 hl
    exact Or.inl ((Option.some.inj hl).symm.trans (Option.some.inj h1))


theorem nsInsert_mask_sub {v : Node} {mask : NodeSet} :
    ∀ x, nsMem x (nsInsert v mask) = false → nsMem x mask = false := by
  intro x hx
  cases hc : nsMem x mask
  · rfl
  · have h : nsMem x (nsInsert v mask) = true :=
      nsMem_nsInsert_iff.mpr (Or.inr hc)
    rw [h] at hx
    exact Bool.noConfusion hx

theorem nsInsert_mask_diff {v : Node} {mask : NodeSet} :
    ∀ x, x ≠ v → nsMem x mask = false
      → nsMem x (nsInsert v mask) = false := by
  intro x hxv hx
  cases hc : nsMem x (nsInsert v mask)
  · rfl
  · rcases nsMem_nsInsert_iff.mp hc with h | h
    · exact absurd h hxv
    · rw [h] at hx
      exact Bool.noConfusion hx

/-- `removeNode` preserves the K-hop invariant when applied to an
in-range, not yet removed vertex. -/
theorem dcnpRemoveNode_inv (st : DcnpState) (inv : KhopInv st) (v : Node)
    (hvn : v < st.numNodes) (hvun : nsMem v st.removedNodes = false) :
    KhopInv (dcnpRemoveNode st v) := by
  have hAdjC : ∀ u x, nsMem x (adjAt st.currentAdjList u) = true
      → x < st.numNodes := by
    rw [inv.hCur]
    exact inv.hAdjRange
  have hrowvv : (st.intree.getD v []).getD v false = true := by
    obtain ⟨_, hb⟩ := inv.hRows v hvn
    obtain ⟨_, hchar, _⟩ := hb hvun
    exact (hchar v).mpr (Or.inl rfl)
  unfold dcnpRemoveNode
  show KhopInv ((List.range st.numNodes).foldl
    (fun acc i => if (st.intree.getD i []).getD v false then bfsKTree acc i
      else acc)
    { st with removedNodes := nsInsert v st.removedNodes })
  obtain ⟨p1, p2, p3, p4⟩ := foldl_bfsKTree_rows
    (fun i => (st.intree.getD i []).getD v false)
    (List.range st.numNodes)
    { st with removedNodes := nsInsert v st.removedNodes }
    hAdjC inv.hIL inv.hTL
  obtain ⟨q1, q2, _, _⟩ := foldl_bfs_guard_preserves_frame
    (fun i => (st.intree.getD i []).getD v false)
    (List.range st.numNodes)
    { st with removedNodes := nsInsert v st.removedNodes }
  obtain ⟨q5, q6, q7, _⟩ := foldl_bfs_guard_frame2
    (fun i => (st.intree.getD i []).getD v false)
    (List.range st.numNodes)
    { st with removedNodes := nsInsert v st.removedNodes }
  refine ⟨?_, ?_, ?_, ?_, ?_, ?_, ?_⟩
  · rw [q1, q7]
    exact inv.hCur
  · rw [q7, q5]
    exact inv.hAL
  · rw [q5]
    exact p3
  · rw [q5]
    exact p4
  · rw [q7, q5]
    exact inv.hAdjRange
  · rw [q7]
    exact inv.hAdjSym
  · intro w
    by_cases hw : w < st.numNodes
    · by_cases hg : (st.intree.getD w []).getD v false = true
      · exact p1 w (List.mem_range.mpr hw) hg
      · have hgf : (st.intree.getD w []).getD v false = false :=
          Bool.eq_false_iff.mpr hg
        obtain ⟨r1, r2⟩ := p2 w (Or.inr hgf)
        have hwv : w ≠ v := by
          intro h
          rw [h, hrowvv] at hgf
          exact Bool.noConfusion hgf
        refine rowSpec_transfer w q5 q2 q1 q6 r1 r2 ?_
        intro _
        refine ⟨?_, ?_⟩
        · intro hrm1
          have hrm : nsMem w st.removedNodes = true := by
            rcases nsMem_nsInsert_iff.mp hrm1 with h | h
            · exact absurd h hwv
            · exact h
          obtain ⟨ha, _⟩ := inv.hRows w hw
          exact ha hrm
        · intro hun1
          have hun : nsMem w st.removedNodes = false := by
            cases hc : nsMem w st.removedNodes
            · rfl
            · have h : nsMem w (nsInsert v st.removedNodes) = true :=
                nsMem_nsInsert_iff.mpr (Or.inr hc)
              rw [h] at hun1
              exact Bool.noConfusion hun1
          obtain ⟨_, hb⟩ := inv.hRows w hw
          obtain ⟨hlen, hchar, hts⟩ := hb hun
          have hvnball : ¬ BallMem st.currentAdjList st.removedNodes
              st.kHops w v := by
            intro hball
            have h := (hchar v).mpr (Or.inr hball)
            rw [h] at hgf
            exact Bool.noConfusion hgf
          have hmeq : ∀ u, BallMem st.currentAdjList st.removedNodes
              st.kHops w u
              ↔ BallMem st.currentAdjList (nsInsert v st.removedNodes)
                  st.kHops w u :=
            fun u => ballMem_mask_eq nsInsert_mask_sub nsInsert_mask_diff
              hvnball u
          refine ⟨hlen, ?_, hts⟩
          intro u
          show (st.intree.getD w []).getD u false = true
            ↔ (u = w ∨ BallMem st.currentAdjList
                (nsInsert v st.removedNodes) st.kHops w u)
          rw [hchar u]
          constructor
          · rintro (h | h)
            · exact Or.inl h
            · exact Or.inr ((hmeq u).mp h)
          · rintro (h | h)
            · exact Or.inl h
            · exact Or.inr ((hmeq u).mpr h)
    · unfold RowSpec
      intro hvn2
      rw [q5] at hvn2
      exact absurd hvn2 hw


theorem nsErase_mask_sub {v : Node} {mask : NodeSet} :
    ∀ x, nsMem x mask = false → nsMem x (nsErase v mask) = false := by
  intro x hx
  cases hc : nsMem x (nsErase v mask)
  · rfl
  · obtain ⟨_, hm⟩ := nsMem_nsErase_iff.mp hc
    rw [hm] at hx
    exact Bool.noConfusion hx

theorem nsErase_mask_diff {v : Node} {mask : NodeSet} :
    ∀ x, x ≠ v → nsMem x (nsErase v mask) = false
      → nsMem x mask = false := by
  intro x hxv hx
  cases hc : nsMem x mask
  · rfl
  · have h : nsMem x (nsErase v mask) = true :=
      nsMem_nsErase_iff.mpr ⟨hxv, hc⟩
    rw [h] at hx
    exact Bool.noConfusion hx

/-- `addNode` preserves the K-hop invariant when applied to an in-range,
currently removed vertex. -/
theorem dcnpAddNode_inv (st : DcnpState) (inv : KhopInv st) (v : Node)
    (hvn : v < st.numNodes) (hvm : nsMem v st.removedNodes = true) :
    KhopInv (dcnpAddNode st v) := by
  have hAdjC : ∀ u x, nsMem x (adjAt st.currentAdjList u) = true
      → x < st.numNodes := by
    rw [inv.hCur]
    exact inv.hAdjRange
  have hsymC : ∀ a c : Node, nsMem c (adjAt st.currentAdjList a) = true
      ↔ nsMem a (adjAt st.currentAdjList c) = true := by
    rw [inv.hCur]
    exact inv.hAdjSym
  unfold dcnpAddNode
  obtain ⟨f1, f2, _, _, f5, f6, f7, _⟩ := bfsKTree_preserves_frame
    { st with removedNodes := nsErase v st.removedNodes } v
  obtain ⟨l1, l2⟩ := bfsKTree_lengths
    { st with removedNodes := nsErase v st.removedNodes } v
  have hAdjS1 : ∀ u x, nsMem x (adjAt (bfsKTree
      { st with removedNodes := nsErase v st.removedNodes }
      v).currentAdjList u) = true
      → x < (bfsKTree { st with removedNodes := nsErase v st.removedNodes }
          v).numNodes := by
    rw [f1, f5]
    exact hAdjC
  have hILS1 : (bfsKTree { st with removedNodes := nsErase v st.removedNodes }
      v).intree.length
      = (bfsKTree { st with removedNodes := nsErase v st.removedNodes }
          v).numNodes := by
    rw [l1, f5]
    exact inv.hIL
  have hTLS1 : (bfsKTree
      { st with removedNodes := nsErase v st.removedNodes }
      v).treeSize.length
      = (bfsKTree { st with removedNodes := nsErase v st.removedNodes }
          v).numNodes := by
    rw [l2, f5]
    exact inv.hTL
  have hspec1 : RowSpec (bfsKTree
      { st with removedNodes := nsErase v st.removedNodes } v) v :=
    bfsKTree_rowSpec _ v hAdjC inv.hIL inv.hTL
  have hvlt1 : v < (bfsKTree
      { st with removedNodes := nsErase v st.removedNodes } v).numNodes := by
    rw [f5]
    exact hvn
  have hremS1 : nsMem v (bfsKTree
      { st with removedNodes := nsErase v st.removedNodes }
      v).removedNodes = false := by
    rw [f2]
    exact nsMem_false_iff.mpr nsErase_not_mem
  obtain ⟨hlenv, hcharv, htsv⟩ := (hspec1 hvlt1).2 hremS1
  have hgvv : ((bfsKTree { st with removedNodes := nsErase v st.removedNodes }
      v).intree.getD v []).getD v false = true :=
    (hcharv v).mpr (Or.inl rfl)
  obtain ⟨p1, p2, p3, p4⟩ := foldl_bfsKTree_rows
    (fun i => ((bfsKTree { st with removedNodes := nsErase v st.removedNodes }
      v).intree.getD v []).getD i false)
    (List.range (bfsKTree
      { st with removedNodes := nsErase v st.removedNodes } v).numNodes)
    (bfsKTree { st with removedNodes := nsErase v st.removedNodes } v)
    hAdjS1 hILS1 hTLS1
  obtain ⟨q1, q2, _, _⟩ := foldl_bfs_guard_preserves_frame
    (fun i => ((bfsKTree { st with removedNodes := nsErase v st.removedNodes }
      v).intree.getD v []).getD i false)
    (List.range (bfsKTree
      { st with removedNodes := nsErase v st.removedNodes } v).numNodes)
    (bfsKTree { st with removedNodes := nsErase v st.removedNodes } v)
  obtain ⟨q5, q6, q7, _⟩ := foldl_bfs_guard_frame2
    (fun i => ((bfsKTree { st with removedNodes := nsErase v st.removedNodes }
      v).intree.getD v []).getD i false)
    (List.range (bfsKTree
      { st with removedNodes := nsErase v st.removedNodes } v).numNodes)
    (bfsKTree { st with removedNodes := nsErase v st.removedNodes } v)
  refine ⟨?_, ?_, ?_, ?_, ?_, ?_, ?_⟩
  · rw [q1, q7, f1, f7]
    exact inv.hCur
  · rw [q7, f7, q5, f5]
    exact inv.hAL
  · rw [q5]
    exact p3
  · rw [q5]
    exact p4
  · rw [q7, f7, q5, f5]
    exact inv.hAdjRange
  · rw [q7, f7]
    exact inv.hAdjSym
  · intro w
    by_cases hw : w < st.numNodes
    · by_cases hg : ((bfsKTree
          { st with removedNodes := nsErase v st.removedNodes }
          v).intree.getD v []).getD w false = true
      · exact p1 w (List.mem_range.mpr (by rw [f5]; exact hw)) hg
      · have hgf : ((bfsKTree
            { st with removedNodes := nsErase v st.removedNodes }
            v).intree.getD v []).getD w false = false :=
          Bool.eq_false_iff.mpr hg
        obtain ⟨r1, r2⟩ := p2 w (Or.inr hgf)
        have hwv : w ≠ v := by
          intro h
          rw [h, hgvv] at hgf
          exact Bool.noConfusion hgf
        obtain ⟨o1, o2⟩ := bfsKTree_other
          { st with removedNodes := nsErase v st.removedNodes } v w hwv
        refine rowSpec_transfer w q5 q2 q1 q6 r1 r2 ?_
        refine rowSpec_transfer w f5 f2 f1 f6 o1 o2 ?_
        intro _
        refine ⟨?_, ?_⟩
        · intro hrm1
          obtain ⟨_, hrm⟩ := nsMem_nsErase_iff.mp hrm1
          obtain ⟨ha, _⟩ := inv.hRows w hw
          exact ha hrm
        · intro hun1
          have hun : nsMem w st.removedNodes = false :=
            nsErase_mask_diff w hwv hun1
          obtain ⟨_, hb2⟩ := inv.hRows w hw
          obtain ⟨hlen, hchar, hts⟩ := hb2 hun
          have hnwv : ¬ BallMem st.currentAdjList
              (nsErase v st.removedNodes) st.kHops w v := by
            intro hball
            have hball2 : BallMem st.currentAdjList
                (nsErase v st.removedNodes) st.kHops v w :=
              ballMem_symm hsymC hball
            have hch := hcharv w
            rw [f1, f2, f6] at hch
            have h := hch.mpr (Or.inr hball2)
            rw [h] at hgf
            exact Bool.noConfusion hgf
          have hmeq : ∀ u, BallMem st.currentAdjList
              (nsErase v st.removedNodes) st.kHops w u
              ↔ BallMem st.currentAdjList st.removedNodes st.kHops w u :=
            fun u => ballMem_mask_eq nsErase_mask_sub nsErase_mask_diff
              hnwv u
          refine ⟨hlen, ?_, hts⟩
          intro u
          show (st.intree.getD w []).getD u false = true
            ↔ (u = w ∨ BallMem st.currentAdjList
                (nsErase v st.removedNodes) st.kHops w u)
          rw [hchar u]
          constructor
          · rintro (h | h)
            · exact Or.inl h
            · exact Or.inr ((hmeq u).mpr h)
          · rintro (h | h)
            · exact Or.inl h
            · exact Or.inr ((hmeq u).mp h)
    · unfold RowSpec
      intro hvn2
      rw [q5, f5] at hvn2
      exact absurd hvn2 hw


theorem adjSym_of_all {adjList : AdjList}
    (h : (List.range adjList.length).all
      (fun a => (adjAt adjList a).all
        (fun x => nsMem a (adjAt adjList x))) = true) :
    ∀ a c, nsMem c (adjAt adjList a) = true
      ↔ nsMem a (adjAt adjList c) = true := by
  have hdir : ∀ a c, nsMem c (adjAt adjList a) = true
      → nsMem a (adjAt adjList c) = true := by
    intro a c hc
    by_cases ha : a < adjList.length
    · have h1 := List.all_eq_true.mp h a (List.mem_range.mpr ha)
      have h2 := List.all_eq_true.mp h1 c (nsMem_iff.mp hc)
      exact h2
    · rw [adjAt_of_length_le (Nat.le_of_not_lt ha)] at hc
      exact Bool.noConfusion hc
  intro a c
  exact ⟨hdir a c, hdir c a⟩

theorem adjRange_of_all {adjList : AdjList} {n : Nat}
    (h : adjList.all (fun row => row.all (fun x => decide (x < n)))
      = true) :
    ∀ u x, nsMem x (adjAt adjList u) = true → x < n := by
  intro u x hx
  by_cases hu : u < adjList.length
  · have hrow : adjAt adjList u ∈ adjList := getD_mem_of_lt hu
    have h1 := List.all_eq_true.mp h _ hrow
    have h2 := List.all_eq_true.mp h1 x (nsMem_iff.mp hx)
    exact of_decide_eq_true h2
  · rw [adjAt_of_length_le (Nat.le_of_not_lt hu)] at hx
    exact Bool.noConfusion hx

/-- The reachable states of the DCNP engine: built over a symmetric
in-range adjacency (as the pybind wrapper produces from an undirected edge
list), then closed under `set_removed_all`, `get_reduced_by` and
`add`/`remove` with their documented argument contracts. -/
inductive DcnpReachable : DcnpState → Prop where
  | build (nodes : NodeSet) (K : Int) (adjList : AdjList) (b : Int)
      (hsym : (List.range adjList.length).all
        (fun a => (adjAt adjList a).all
          (fun x => nsMem a (adjAt adjList x))) = true)
      (hrange : adjList.all
        (fun row => row.all (fun x => decide (x < nodes.length))) = true)
      (hlen : adjList.length = nodes.length) :
      DcnpReachable (dcnpBuild nodes K adjList b)
  | update (st : DcnpState) (ns : NodeSet) (h : DcnpReachable st) :
      DcnpReachable (dcnpUpdateGraphByRemovedNodes st ns)
  | reduce (st : DcnpState) (ns : NodeSet) (h : DcnpReachable st) :
      DcnpReachable (dcnpGetReducedGraphByRemovedNodes st ns)
  | add (st : DcnpState) (v : Node) (h : DcnpReachable st)
      (hv : v < st.numNodes) (hm : nsMem v st.removedNodes = true) :
      DcnpReachable (dcnpAddNode st v)
  | remove (st : DcnpState) (v : Node) (h : DcnpReachable st)
      (hv : v < st.numNodes) (hm : nsMem v st.removedNodes = false) :
      DcnpReachable (dcnpRemoveNode st v)

/-- Every reachable DCNP state satisfies the K-hop invariant. -/
theorem dcnpReachable_inv {st : DcnpState} (h : DcnpReachable st) :
    KhopInv st := by
  induction h with
  | build nodes K adjList b hsym hrange hlen =>
      exact dcnpBuild_inv nodes K adjList b (adjSym_of_all hsym)
        (adjRange_of_all hrange) hlen
  | update st ns h ih => exact dcnpUpdate_inv st ih ns
  | reduce st ns h ih => exact dcnpGetReduced_inv st ih ns
  | add st v h hv hm ih => exact dcnpAddNode_inv st ih v hv hm
  | remove st v h hv hm ih => exact dcnpRemoveNode_inv st ih v hv hm

/-- Symmetry of the K-hop table rows on unremoved vertices. -/
theorem khop_row_symm (st : DcnpState) (inv : KhopInv st) (u w : Node)
    (hu : nsMem u st.removedNodes = false)
    (hw : nsMem w st.removedNodes = false) :
    (st.intree.getD w []).getD u false
      = (st.intree.getD u []).getD w false := by
  have hsymC : ∀ a c : Node, nsMem c (adjAt st.currentAdjList a) = true
      ↔ nsMem a (adjAt st.currentAdjList c) = true := by
    rw [inv.hCur]
    exact inv.hAdjSym
  by_cases hwn : w < st.numNodes <;> by_cases hun : u < st.numNodes
  · obtain ⟨hlenw, hcharw, _⟩ := ((inv.hRows w hwn).2) hw
    obtain ⟨hlenu, hcharu, _⟩ := ((inv.hRows u hun).2) hu
    cases hval : (st.intree.getD w []).getD u false with
    | false =>
        cases hval2 : (st.intree.getD u []).getD w false with
        | false => rfl
        | true =>
            exfalso
            rcases (hcharu w).mp hval2 with h | h
            · rw [h] at hval hval2
              rw [hval] at hval2
              exact Bool.noConfusion hval2
            · have h2 := (hcharw u).mpr (Or.inr (ballMem_symm hsymC h))
              rw [h2] at hval
              exact Bool.noConfusion hval
    | true =>
        rcases (hcharw u).mp hval with h | h
        · rw [h]
          rw [h] at hval
          exact hval.symm
        · exact ((hcharu w).mpr (Or.inr (ballMem_symm hsymC h))).symm
  · obtain ⟨hlenw, _, _⟩ := ((inv.hRows w hwn).2) hw
    have h1 : (st.intree.getD w []).getD u false = false :=
      getD_of_length_le (by rw [hlenw]; exact Nat.le_of_not_lt hun)
    have h2 : st.intree.getD u [] = [] :=
      getD_of_length_le (by rw [inv.hIL]; exact Nat.le_of_not_lt hun)
    rw [h1, h2]
    rfl
  · obtain ⟨hlenu, _, _⟩ := ((inv.hRows u hun).2) hu
    have h1 : (st.intree.getD u []).getD w false = false :=
      getD_of_length_le (by rw [hlenu]; exact Nat.le_of_not_lt hwn)
    have h2 : st.intree.getD w [] = [] :=
      getD_of_length_le (by rw [inv.hIL]; exact Nat.le_of_not_lt hwn)
    rw [h1, h2]
    rfl
  · have h2 : st.intree.getD u [] = [] :=
      getD_of_length_le (by rw [inv.hIL]; exact Nat.le_of_not_lt hun)
    have h3 : st.intree.getD w [] = [] :=
      getD_of_length_le (by rw [inv.hIL]; exact Nat.le_of_not_lt hwn)
    rw [h2, h3]
    rfl

/-- The stored tree size counts the other vertices of the row. -/
theorem khop_count (st : DcnpState) (inv : KhopInv st) (v : Node)
    (hv : v < st.numNodes) :
    st.treeSize.getD v 0
      = (((List.range st.numNodes).filter
          (fun u => u ≠ v && (st.intree.getD v []).getD u false)).length
            : Int) := by
  by_cases hrem : nsMem v st.removedNodes = true
  · obtain ⟨hrow, hts⟩ := ((inv.hRows v hv).1) hrem
    rw [hts, hrow]
    have hnil : (List.range st.numNodes).filter
        (fun u => u ≠ v
          && (List.replicate st.numNodes false).getD u false) = [] := by
      rw [List.filter_eq_nil_iff]
      intro u _
      rw [getD_replicate]
      split_ifs <;> simp
    rw [hnil]
    rfl
  · have hremf : nsMem v st.removedNodes = false :=
      Bool.eq_false_iff.mpr hrem
    obtain ⟨hlen, hchar, hts⟩ := ((inv.hRows v hv).2) hremf
    have hvv : (st.intree.getD v []).getD v false = true :=
      (hchar v).mpr (Or.inl rfl)
    have hsplit := countTrue_split_at hvv
    rw [hlen] at hsplit
    rw [hts, ← hsplit]
    push_cast
    ring


/-- C3: for every reachable state of the DCNP engine (any sequence of
build over a symmetric in-range adjacency, set_removed_all, add, remove
and get_reduced_by with their documented argument contracts), the K-hop
table satisfies: the row of every removed vertex is all zero, `intree` is
symmetric on non-removed vertices, and `treeSize[v]` equals the number of
vertices `u ≠ v` with `intree[v][u] = 1`. -/
theorem c3_khop_table_invariants (st : DcnpState) (h : DcnpReachable st) :
    (∀ v, v < st.numNodes → nsMem v st.removedNodes = true →
        st.intree.getD v [] = List.replicate st.numNodes false)
    ∧ (∀ u v, nsMem u st.removedNodes = false →
        nsMem v st.removedNodes = false →
        (st.intree.getD v []).getD u false
          = (st.intree.getD u []).getD v false)
    ∧ (∀ v, v < st.numNodes →
        st.treeSize.getD v 0
          = (((List.range st.numNodes).filter
              (fun u => u ≠ v
                && (st.intree.getD v []).getD u false)).length : Int)) := by
  have inv := dcnpReachable_inv h
  refine ⟨?_, ?_, ?_⟩
  · intro v hv hrem
    exact (((inv.hRows v hv).1) hrem).1
  · intro u v hu hv
    exact khop_row_symm st inv u v hu hv
  · intro v hv
    exact khop_count st inv v hv

/-- Witness for C3 on the freshly built 3-path with `K = 2`. -/
theorem c3_witness :
    (dcnpBuild [0, 1, 2] 2 [[1], [0, 2], [1]] 1).treeSize.getD 1 0
      = (((List.range (dcnpBuild [0, 1, 2] 2
            [[1], [0, 2], [1]] 1).numNodes).filter
          (fun u => u ≠ 1 && ((dcnpBuild [0, 1, 2] 2
            [[1], [0, 2], [1]] 1).intree.getD 1 []).getD u false)).length
            : Int) :=
  (c3_khop_table_invariants _
    (DcnpReachable.build [0, 1, 2] 2 [[1], [0, 2], [1]] 1 (by decide)
      (by decide) (by decide))).2.2 1 (by decide)

end PyCNP
